import Mathlib

/-!
# peakdetect: the detection routine `detect_peak` of `src/peakdetect.c`

A shallow embedding of the C function `detect_peak` and a verification of the
properties its specification states.

Modelling decisions
* Samples (`double` in C) are modelled as rationals, compared and subtracted exactly.
* `int` variables are modelled as unbounded integers; every index of `data` the code
  uses is checked against the array bounds by `readData`, and a read outside
  `[0, data_count)` stops the run with `Exit.outOfBounds`.
* `data_count` is the length of `data`.
* The `for` loop, whose cursor `i` is reassigned inside its body, is modelled by `loop`,
  which executes at most `fuel` iterations; `detect_peak` supplies a number of iterations
  that is shown to suffice for every input (`detect_peak_returns`).
* `emi_first` and `is_detecting_emi` (C `int`s used as truth values) are booleans.
* The algorithms `detect_peak` is compared with follow the wording of the specification and
  differ from the embedding of the source in one place each: `detect_peak_forward` (no
  rewind, the opposite running extremum restarts at the cursor), `detect_peak_norewind` (the
  two cursor assignments removed) and `detect_peak_fixed` (`mx_pos = mn_pos` at line 154).
* Rounding. The only arithmetic the function performs on samples is `mx - delta` (line 125)
  and `mn + delta` (line 141); the machine rounds each result to a double before comparing
  it with `data[i]`. `detect_peak` computes the two thresholds exactly; `detect_peak_fp` is
  the same function with the two thresholds rounded by `to_double` (IEEE 754 binary64, round
  to nearest, ties to even, subnormals included), for samples and `delta` that are finite
  doubles. A test that fires with a rounded threshold also fires with the exact one when the
  sample is a double, because the rounding is monotone (`to_double_mono`,
  `lt_of_lt_to_double`). The properties
  that depend on the value of a threshold at a tie (strictly increasing data, the first loop
  step for `delta ≤ 0`, the comparison with the forward-only scan) are stated for
  `detect_peak_fp`; `detect_peak_fp_eq_exact` relates the two where no rounding error
  occurs.
-/

namespace PeakDetect

/-- How a run of `detect_peak` ends: `ret c` is `return c;` (0 success, 1 too many emission
peaks, 2 too many absorption peaks); `outOfBounds k` is a read of `data[k]` with `k` outside
the array; `outOfFuel` means the iteration budget of the model was used up. -/
inductive Exit where
  | ret (code : Nat)
  | outOfBounds (k : Int)
  | outOfFuel
  deriving DecidableEq, Repr

/-- The local variables of `detect_peak` together with the two output arrays
(`emi_peaks[0 .. *num_emi_peaks)` and `absop_peaks[0 .. *num_absop_peaks)`). -/
structure State where
  i : Int
  mx : ℚ
  mn : ℚ
  mx_pos : Int
  mn_pos : Int
  is_detecting_emi : Bool
  emi_peaks : List Int
  absop_peaks : List Int
  deriving DecidableEq, Repr

/-- What the caller observes: the way the run ended and the two output lists. -/
structure Result where
  exit : Exit
  emi_peaks : List Int
  absop_peaks : List Int
  deriving DecidableEq, Repr

/-- Outcome of one execution of the loop body: fall through to `++i`, or leave the function. -/
inductive Step where
  | next (s : State)
  | stop (r : Result)
  deriving DecidableEq, Repr

/-- The read `data[k]`: defined when `0 ≤ k < data_count`. -/
def readData (data : List ℚ) (k : Int) : Option ℚ :=
  if k < 0 then none else data[k.toNat]?

/-- The C conversion of a `double` to `int` (truncation toward zero), as performed by
`mx_pos = data[mn_pos];`. C leaves the conversion undefined for values outside the range of
`int`; for `delta > 0` the value stored is never used (`core_emi_trigger`, `rescan_max`). -/
def double_to_int (x : ℚ) : Int :=
  Int.tdiv x.num (x.den : Int)

/-- Lines 113-122: the two running extrema are updated from the sample `x = data[i]`. -/
def track (x : ℚ) (s : State) : State :=
  let s1 := if x > s.mx then { s with mx_pos := s.i, mx := x } else s
  if x < s1.mn then { s1 with mn_pos := s1.i, mn := x } else s1

/-- Lines 126-138: a maximum is confirmed at `mx_pos`. -/
def confirm_emi (data : List ℚ) (max_emi_peaks : Int) (s : State) : Step :=
  if (s.emi_peaks.length : Int) ≥ max_emi_peaks then
    .stop ⟨.ret 1, s.emi_peaks, s.absop_peaks⟩
  else
    let emi := s.emi_peaks ++ [s.mx_pos]
    match readData data s.mx_pos with
    | none => .stop ⟨.outOfBounds s.mx_pos, emi, s.absop_peaks⟩
    | some v =>
      .next { s with emi_peaks := emi, is_detecting_emi := false, i := s.mx_pos - 1,
                     mn := v, mn_pos := s.mx_pos }

/-- Lines 142-154: a minimum is confirmed at `mn_pos`. The last assignment stores the
sample value `data[mn_pos]`, converted to `int`, into `mx_pos`. -/
def confirm_absop (data : List ℚ) (max_absop_peaks : Int) (s : State) : Step :=
  if (s.absop_peaks.length : Int) ≥ max_absop_peaks then
    .stop ⟨.ret 2, s.emi_peaks, s.absop_peaks⟩
  else
    let absop := s.absop_peaks ++ [s.mn_pos]
    match readData data s.mn_pos with
    | none => .stop ⟨.outOfBounds s.mn_pos, s.emi_peaks, absop⟩
    | some v =>
      .next { s with absop_peaks := absop, is_detecting_emi := true, i := s.mn_pos - 1,
                     mx := v, mx_pos := double_to_int v }

/-- Lines 113-155: the body of the `for` loop, executed with cursor `s.i`. -/
def body (data : List ℚ) (max_emi_peaks max_absop_peaks : Int) (delta : ℚ) (s : State) : Step :=
  match readData data s.i with
  | none => .stop ⟨.outOfBounds s.i, s.emi_peaks, s.absop_peaks⟩
  | some x =>
    let t := track x s
    if t.is_detecting_emi = true ∧ x < t.mx - delta then
      confirm_emi data max_emi_peaks t
    else if t.is_detecting_emi = false ∧ x > t.mn + delta then
      confirm_absop data max_absop_peaks t
    else
      .next t

/-- The loop `for (...; i < data_count; ++i) body`, entered at its test with state `s`,
running at most `fuel` iterations. -/
def loop (data : List ℚ) (max_emi_peaks max_absop_peaks : Int) (delta : ℚ) :
    Nat → State → Result
  | 0, s =>
    if s.i < (data.length : Int) then ⟨.outOfFuel, s.emi_peaks, s.absop_peaks⟩
    else ⟨.ret 0, s.emi_peaks, s.absop_peaks⟩
  | fuel + 1, s =>
    if s.i < (data.length : Int) then
      match body data max_emi_peaks max_absop_peaks delta s with
      | .stop r => r
      | .next t => loop data max_emi_peaks max_absop_peaks delta fuel { t with i := t.i + 1 }
    else ⟨.ret 0, s.emi_peaks, s.absop_peaks⟩

/-- Lines 100-109: the state at the first test of the loop, given `v = data[0]`. -/
def initState (v : ℚ) (emi_first : Bool) : State :=
  { i := 1, mx := v, mn := v, mx_pos := 0, mn_pos := 0, is_detecting_emi := emi_first,
    emi_peaks := [], absop_peaks := [] }

/-- Number of loop iterations granted to `detect_peak`: between two confirmed peaks the cursor
moves forward through at most `data_count` positions, and at most
`max_emi_peaks + max_absop_peaks + 1` confirmations can take place. -/
def iterations (data : List ℚ) (max_emi_peaks max_absop_peaks : Int) : Nat :=
  (data.length + 2) * (max_emi_peaks.toNat + max_absop_peaks.toNat + 2)

/-- The function `detect_peak` (lines 82-159) run for at most `fuel` loop iterations. -/
def detect_peak_fuel (fuel : Nat) (data : List ℚ) (max_emi_peaks max_absop_peaks : Int)
    (delta : ℚ) (emi_first : Bool) : Result :=
  match readData data 0 with
  | none => ⟨.outOfBounds 0, [], []⟩
  | some v => loop data max_emi_peaks max_absop_peaks delta fuel (initState v emi_first)

/-- The function `detect_peak` (lines 82-159). -/
def detect_peak (data : List ℚ) (max_emi_peaks max_absop_peaks : Int) (delta : ℚ)
    (emi_first : Bool) : Result :=
  detect_peak_fuel (iterations data max_emi_peaks max_absop_peaks) data
    max_emi_peaks max_absop_peaks delta emi_first

/-- The sample `data[j]` as a total function (0 outside the array). -/
def sample (data : List ℚ) (j : Int) : ℚ :=
  (readData data j).getD 0

/-! ## The function in IEEE double arithmetic -/

/-- The power `2 ^ k` for an integer exponent `k`. -/
def pow2 (k : Int) : ℚ :=
  if 0 ≤ k then ((2 ^ k.toNat : Nat) : ℚ) else 1 / ((2 ^ (-k).toNat : Nat) : ℚ)

/-- Binary logarithm of a natural number, rounded down, found in at most `fuel` halvings. -/
def ilog2Fuel : Nat → Nat → Nat
  | 0, _ => 0
  | fuel + 1, n => if n < 2 then 0 else ilog2Fuel fuel (n / 2) + 1

/-- Binary logarithm of a natural number, rounded down (0 for 0). -/
def ilog2 (n : Nat) : Nat :=
  ilog2Fuel n n

/-- The exponent `e` of the binade of a positive rational: `2 ^ e ≤ a < 2 ^ (e + 1)`. -/
def binade (a : ℚ) : Int :=
  let e0 : Int := (ilog2 a.num.natAbs : Int) - (ilog2 a.den : Int)
  if pow2 e0 ≤ a then e0 else e0 - 1

/-- Rounding of a non-negative rational to the nearest integer, a tie going to the even
one. -/
def roundEven (m : ℚ) : Int :=
  let f := ⌊m⌋
  if m - f < 1 / 2 then f
  else if 1 / 2 < m - f then f + 1
  else if f % 2 = 0 then f else f + 1

/-- The spacing of the doubles around a non-negative rational `a`: 53 significant bits in the
binade of `a`, and `2 ^ (-1074)` below the smallest normal number `2 ^ (-1022)`. -/
def quantum (a : ℚ) : ℚ :=
  pow2 (max (binade a) (-1022) - 52)

/-- The double nearest to a non-negative rational (round to nearest, ties to even). -/
def to_double_abs (a : ℚ) : ℚ :=
  (roundEven (a / quantum a) : ℚ) * quantum a

/-- The result of an arithmetic operation of type `double` whose exact value is `x`: the
double nearest to `x`, ties to even (IEEE 754 binary64, default rounding). A value beyond the
largest finite double is rounded with the same 53 bits; it then exceeds every finite double,
as the infinity produced by the machine does. -/
def to_double (x : ℚ) : ℚ :=
  if 0 ≤ x then to_double_abs x else - to_double_abs (-x)

/-- Lines 113-155 in double arithmetic: the loop body with the two thresholds `mx - delta` and
`mn + delta` rounded to double, as the machine computes them, before they are compared with
the sample. The comparisons and the assignments of samples are exact. -/
def body_fp (data : List ℚ) (max_emi_peaks max_absop_peaks : Int) (delta : ℚ) (s : State) :
    Step :=
  match readData data s.i with
  | none => .stop ⟨.outOfBounds s.i, s.emi_peaks, s.absop_peaks⟩
  | some x =>
    let t := track x s
    if t.is_detecting_emi = true ∧ x < to_double (t.mx - delta) then
      confirm_emi data max_emi_peaks t
    else if t.is_detecting_emi = false ∧ x > to_double (t.mn + delta) then
      confirm_absop data max_absop_peaks t
    else
      .next t

/-- The `for` loop in double arithmetic, running at most `fuel` iterations. -/
def loop_fp (data : List ℚ) (max_emi_peaks max_absop_peaks : Int) (delta : ℚ) :
    Nat → State → Result
  | 0, s =>
    if s.i < (data.length : Int) then ⟨.outOfFuel, s.emi_peaks, s.absop_peaks⟩
    else ⟨.ret 0, s.emi_peaks, s.absop_peaks⟩
  | fuel + 1, s =>
    if s.i < (data.length : Int) then
      match body_fp data max_emi_peaks max_absop_peaks delta s with
      | .stop r => r
      | .next t =>
        loop_fp data max_emi_peaks max_absop_peaks delta fuel { t with i := t.i + 1 }
    else ⟨.ret 0, s.emi_peaks, s.absop_peaks⟩

/-- The function `detect_peak` (lines 82-159) in double arithmetic, for samples and a `delta`
that are finite doubles (rationals fixed by `to_double`). -/
def detect_peak_fp (data : List ℚ) (max_emi_peaks max_absop_peaks : Int) (delta : ℚ)
    (emi_first : Bool) : Result :=
  match readData data 0 with
  | none => ⟨.outOfBounds 0, [], []⟩
  | some v =>
    loop_fp data max_emi_peaks max_absop_peaks delta
      (iterations data max_emi_peaks max_absop_peaks) (initState v emi_first)

/-! ## Definitions used in the proofs: invariants, measures, runs and the forward-only scan -/

/-- The state in which the loop body leaves the function's variables after confirming a
maximum (before `++i`). -/
def afterEmi (t : State) (v : ℚ) : State :=
  { t with emi_peaks := t.emi_peaks ++ [t.mx_pos], is_detecting_emi := false,
           i := t.mx_pos - 1, mn := v, mn_pos := t.mx_pos }

/-- The state in which the loop body leaves the function's variables after confirming a
minimum (before `++i`). -/
def afterAbsop (t : State) (v : ℚ) : State :=
  { t with absop_peaks := t.absop_peaks ++ [t.mn_pos], is_detecting_emi := true,
           i := t.mn_pos - 1, mx := v, mx_pos := double_to_int v }

/-- The cursor increment `++i` of the `for` statement. -/
def advance (t : State) : State :=
  { t with i := t.i + 1 }

/-- Measure that decreases at each loop iteration: remaining capacity of the two output
arrays, weighted by the length of a forward scan, plus the distance of the cursor from the
end of the data. -/
def budget (data : List ℚ) (capE capA : Int) (s : State) : Nat :=
  (data.length + 1) * ((capE - s.emi_peaks.length).toNat + (capA - s.absop_peaks.length).toNat)
    + ((data.length : Int) - s.i).toNat

/-- Position of the most recently confirmed peak (0 before the first confirmation): while a
maximum is sought it is the last recorded minimum, and conversely. -/
def base (s : State) : Int :=
  if s.is_detecting_emi then s.absop_peaks.getLastD 0 else s.emi_peaks.getLastD 0

/-- A rescan is under way while a maximum is sought: up to a position `c` not yet passed by
the cursor `i` no sample lies below the sample at `b`, and the sample at `c` exceeds it by more
than `delta`. -/
def PendingMax (data : List ℚ) (delta : ℚ) (b i : Int) : Prop :=
  ∃ c, i ≤ c ∧ c < (data.length : Int) ∧
    (∀ j, b ≤ j → j ≤ c → sample data b ≤ sample data j) ∧
    sample data b + delta < sample data c

/-- A rescan is under way while a minimum is sought (mirror image of `PendingMax`). -/
def PendingMin (data : List ℚ) (delta : ℚ) (b i : Int) : Prop :=
  ∃ c, i ≤ c ∧ c < (data.length : Int) ∧
    (∀ j, b ≤ j → j ≤ c → sample data j ≤ sample data b) ∧
    sample data c < sample data b - delta

/-- The invariant of the loop, at its test, for `delta > 0`. -/
structure Core (data : List ℚ) (delta : ℚ) (s : State) : Prop where
  base_nonneg : 0 ≤ base s
  base_lt : base s < (data.length : Int)
  base_le_i : base s ≤ s.i
  i_le : s.i ≤ (data.length : Int)
  emi_bound : ∀ p ∈ s.emi_peaks, 0 ≤ p ∧ p ≤ base s
  absop_bound : ∀ p ∈ s.absop_peaks, 0 ≤ p ∧ p ≤ base s
  emi_sorted : s.emi_peaks.Pairwise (· < ·)
  absop_sorted : s.absop_peaks.Pairwise (· < ·)
  seek_max : s.is_detecting_emi = true →
    sample data (base s) ≤ s.mx ∧
    (∀ j, base s ≤ j → j < s.i → sample data j ≤ s.mx) ∧
    ((base s < s.mx_pos ∧ s.mx_pos < s.i ∧ sample data s.mx_pos = s.mx) ∨
     (s.mx_pos = base s ∧ sample data (base s) = s.mx ∧
        s.emi_peaks = [] ∧ s.absop_peaks = []) ∨
     (s.mx = sample data (base s) ∧ PendingMax data delta (base s) s.i))
  seek_min : s.is_detecting_emi = false →
    s.mn ≤ sample data (base s) ∧
    (∀ j, base s ≤ j → j < s.i → s.mn ≤ sample data j) ∧
    ((base s < s.mn_pos ∧ s.mn_pos < s.i ∧ sample data s.mn_pos = s.mn) ∨
     (s.mn_pos = base s ∧ sample data (base s) = s.mn ∧
        s.emi_peaks = [] ∧ s.absop_peaks = []) ∨
     (s.mn_pos = base s ∧ s.mn = sample data (base s) ∧
        PendingMin data delta (base s) s.i))

/-- What the invariant `Core` gives about a result. -/
structure Safe (data : List ℚ) (r : Result) : Prop where
  in_bounds : ∀ k, r.exit ≠ .outOfBounds k
  emi_range : ∀ p ∈ r.emi_peaks, 0 ≤ p ∧ p < (data.length : Int)
  absop_range : ∀ p ∈ r.absop_peaks, 0 ≤ p ∧ p < (data.length : Int)
  emi_sorted : r.emi_peaks.Pairwise (· < ·)
  absop_sorted : r.absop_peaks.Pairwise (· < ·)

/-- The flag `is_detecting_emi` determines how the lengths of the two lists compare. -/
def Alt (emi_first : Bool) (s : State) : Prop :=
  (s.is_detecting_emi = true →
    s.absop_peaks.length = s.emi_peaks.length + (if emi_first then 0 else 1)) ∧
  (s.is_detecting_emi = false →
    s.emi_peaks.length = s.absop_peaks.length + (if emi_first then 1 else 0))

/-- The lengths of the two output lists differ by at most one, the kind selected by the mode
being the one that may have one more entry. -/
def AltLengths (emi_first : Bool) (emi absop : List Int) : Prop :=
  if emi_first then absop.length ≤ emi.length ∧ emi.length ≤ absop.length + 1
  else emi.length ≤ absop.length ∧ absop.length ≤ emi.length + 1

/-- The minimum confirmed immediately before the `k`-th recorded maximum: under
emission-first the `k`-th maximum follows the `(k-1)`-th minimum (and the first maximum is the
first peak of the run, for which the scan started at 0); under absorption-first it follows
the `k`-th minimum. -/
def prevAbsop (emi_first : Bool) (absop : List Int) (k : Nat) : Int :=
  if emi_first then (if k = 0 then 0 else (absop[k - 1]?).getD 0) else (absop[k]?).getD 0

/-- Threshold soundness of a maximum recorded at `p` when the previous peak is at `q`. -/
def SoundMax (data : List ℚ) (delta : ℚ) (q p : Int) : Prop :=
  0 ≤ q ∧ q ≤ p ∧
  (∀ j, q ≤ j → j ≤ p → ¬ sample data j > sample data p) ∧
  ∃ c, p < c ∧ c < (data.length : Int) ∧ sample data c < sample data p - delta ∧
    ∀ j, q ≤ j → j ≤ c → ¬ sample data j > sample data p

/-- Every recorded maximum is sound with respect to the minimum recorded before it. -/
def MaxSound (data : List ℚ) (delta : ℚ) (emi_first : Bool) (emi absop : List Int) : Prop :=
  ∀ (k : Nat) (p : Int), emi[k]? = some p →
    SoundMax data delta (prevAbsop emi_first absop k) p

/-- The invariant used for threshold soundness. -/
structure SoundInv (data : List ℚ) (delta : ℚ) (emi_first : Bool) (s : State) : Prop where
  core : Core data delta s
  alt : Alt emi_first s
  sound : MaxSound data delta emi_first s.emi_peaks s.absop_peaks

/-- Two lists interleave strictly, the first list leading:
`F[0] < S[0] < F[1] < S[1] < ...`. -/
def Zipped (F S : List Int) : Prop :=
  (∀ (k : Nat) (a b : Int), F[k]? = some a → S[k]? = some b → a < b) ∧
  (∀ (k : Nat) (a b : Int), S[k]? = some a → F[k + 1]? = some b → a < b)

/-- The maxima and minima interleave strictly, the kind selected by the mode leading. -/
def Interleaved (emi_first : Bool) (emi absop : List Int) : Prop :=
  if emi_first then Zipped emi absop else Zipped absop emi

/-- The invariant used for the ordering of the recorded indices. -/
structure OrderInv (data : List ℚ) (delta : ℚ) (emi_first : Bool) (s : State) : Prop where
  core : Core data delta s
  alt : Alt emi_first s
  zip : Interleaved emi_first s.emi_peaks s.absop_peaks

/-- Measure that decreases at each loop iteration for `delta > 0`: the room left above the
last confirmed peak, weighted by the length of a forward scan, plus the distance of the cursor
from the end of the data. -/
def progress (data : List ℚ) (s : State) : Nat :=
  (data.length + 1) *
      (if s.emi_peaks = [] ∧ s.absop_peaks = [] then data.length + 1
       else ((data.length : Int) - base s).toNat)
    + ((data.length : Int) - s.i).toNat

/-- The states in which the loop test is reached during the run started in `s0`. -/
inductive Reaches (data : List ℚ) (capE capA : Int) (delta : ℚ) (s0 : State) : State → Prop
  | start : Reaches data capE capA delta s0 s0
  | step {s t : State} : Reaches data capE capA delta s0 s → s.i < (data.length : Int) →
      body data capE capA delta s = .next t → Reaches data capE capA delta s0 (advance t)

/-- The invariant used for capacity failures: the state is reached by the run, and the lists
fit their arrays. -/
structure CapInv (data : List ℚ) (capE capA : Int) (delta : ℚ) (s0 s : State) : Prop where
  reached : Reaches data capE capA delta s0 s
  emi_le : (s.emi_peaks.length : Int) ≤ capE
  absop_le : (s.absop_peaks.length : Int) ≤ capA

/-- What `CapInv` gives about a result. -/
structure CapPost (data : List ℚ) (capE capA : Int) (delta : ℚ) (s0 : State) (r : Result) :
    Prop where
  emi_le : (r.emi_peaks.length : Int) ≤ capE
  absop_le : (r.absop_peaks.length : Int) ≤ capA
  emi_full : r.exit = .ret 1 → ∃ s x, Reaches data capE capA delta s0 s ∧
    s.i < (data.length : Int) ∧ readData data s.i = some x ∧ s.is_detecting_emi = true ∧
    x < (track x s).mx - delta ∧ (s.emi_peaks.length : Int) = capE ∧
    r.emi_peaks = s.emi_peaks ∧ r.absop_peaks = s.absop_peaks
  absop_full : r.exit = .ret 2 → ∃ s x, Reaches data capE capA delta s0 s ∧
    s.i < (data.length : Int) ∧ readData data s.i = some x ∧ s.is_detecting_emi = false ∧
    x > (track x s).mn + delta ∧ (s.absop_peaks.length : Int) = capA ∧
    r.emi_peaks = s.emi_peaks ∧ r.absop_peaks = s.absop_peaks

/-- While a maximum is sought, no sample scanned since the running maximum was found lies more
than `delta` below it (otherwise the maximum would have been confirmed there); and the mirror
image while a minimum is sought. -/
structure Quiet (data : List ℚ) (delta : ℚ) (s : State) : Prop where
  quiet_max : s.is_detecting_emi = true →
    ∀ j, base s ≤ j → j < s.i → s.mx - delta ≤ sample data j ∨ j < s.mx_pos
  quiet_min : s.is_detecting_emi = false →
    ∀ j, base s ≤ j → j < s.i → sample data j ≤ s.mn + delta ∨ j < s.mn_pos

/-- State left by the forward-only scan after confirming a maximum by the sample `x` at the
cursor: the running minimum restarts at the cursor. -/
def forwardEmi (t : State) (x : ℚ) : State :=
  { t with emi_peaks := t.emi_peaks ++ [t.mx_pos], is_detecting_emi := false,
           mn := x, mn_pos := t.i }

/-- State left by the forward-only scan after confirming a minimum by the sample `x` at the
cursor: the running maximum restarts at the cursor. -/
def forwardAbsop (t : State) (x : ℚ) : State :=
  { t with absop_peaks := t.absop_peaks ++ [t.mn_pos], is_detecting_emi := true,
           mx := x, mx_pos := t.i }

/-- Loop body of the single forward pass without rewind: as `body`, except that a confirmation
leaves the cursor where it is and restarts the opposite running extremum at the cursor. -/
def forward_body (data : List ℚ) (max_emi_peaks max_absop_peaks : Int) (delta : ℚ)
    (s : State) : Step :=
  match readData data s.i with
  | none => .stop ⟨.outOfBounds s.i, s.emi_peaks, s.absop_peaks⟩
  | some x =>
    let t := track x s
    if t.is_detecting_emi = true ∧ x < t.mx - delta then
      if (t.emi_peaks.length : Int) ≥ max_emi_peaks then
        .stop ⟨.ret 1, t.emi_peaks, t.absop_peaks⟩
      else .next (forwardEmi t x)
    else if t.is_detecting_emi = false ∧ x > t.mn + delta then
      if (t.absop_peaks.length : Int) ≥ max_absop_peaks then
        .stop ⟨.ret 2, t.emi_peaks, t.absop_peaks⟩
      else .next (forwardAbsop t x)
    else
      .next t

/-- The forward-only loop, running at most `fuel` iterations. -/
def forward_loop (data : List ℚ) (max_emi_peaks max_absop_peaks : Int) (delta : ℚ) :
    Nat → State → Result
  | 0, s =>
    if s.i < (data.length : Int) then ⟨.outOfFuel, s.emi_peaks, s.absop_peaks⟩
    else ⟨.ret 0, s.emi_peaks, s.absop_peaks⟩
  | fuel + 1, s =>
    if s.i < (data.length : Int) then
      match forward_body data max_emi_peaks max_absop_peaks delta s with
      | .stop r => r
      | .next t => forward_loop data max_emi_peaks max_absop_peaks delta fuel (advance t)
    else ⟨.ret 0, s.emi_peaks, s.absop_peaks⟩

/-- The single forward pass without any rewind: one iteration per sample. -/
def detect_peak_forward (data : List ℚ) (max_emi_peaks max_absop_peaks : Int) (delta : ℚ)
    (emi_first : Bool) : Result :=
  match readData data 0 with
  | none => ⟨.outOfBounds 0, [], []⟩
  | some v =>
    forward_loop data max_emi_peaks max_absop_peaks delta data.length (initState v emi_first)

/-- The state `s` with earlier peaks put in front of its two lists. -/
def withPeaks (E A : List Int) (s : State) : State :=
  { s with emi_peaks := E ++ s.emi_peaks, absop_peaks := A ++ s.absop_peaks }

/-- The state `s` with the flag `is_detecting_emi` cleared. -/
def seekMin (s : State) : State :=
  { s with is_detecting_emi := false }

/-- How the results of the two modes compare: equal lists, or one extra leading minimum in
the second, or one extra leading maximum in the first. -/
def ModeRel (rE rA : Result) : Prop :=
  (rA.emi_peaks = rE.emi_peaks ∧ rA.absop_peaks = rE.absop_peaks) ∨
  (∃ q, rA.emi_peaks = rE.emi_peaks ∧ rA.absop_peaks = q :: rE.absop_peaks) ∨
  (∃ p, rA.absop_peaks = rE.absop_peaks ∧ rE.emi_peaks = p :: rA.emi_peaks)

/-- Invariant of the scan of strictly increasing data while a maximum is sought: nothing is
recorded and the running maximum is the sample just before the cursor. -/
structure RiseEmi (data : List ℚ) (s : State) : Prop where
  flag : s.is_detecting_emi = true
  emi : s.emi_peaks = []
  absop : s.absop_peaks = []
  i_pos : 1 ≤ s.i
  mx_eq : s.mx = sample data (s.i - 1)

/-- Invariant of the scan of strictly increasing data after the minimum at index 0 has been
confirmed: a maximum is sought and the running maximum is the sample just before the cursor
(the first sample when the cursor is at 0). -/
structure RiseAfter (data : List ℚ) (s : State) : Prop where
  flag : s.is_detecting_emi = true
  emi : s.emi_peaks = []
  absop : s.absop_peaks = [0]
  i_nonneg : 0 ≤ s.i
  mx_eq : s.mx = sample data (if s.i = 0 then 0 else s.i - 1)

/-- The maximum confirmed immediately before the `k`-th recorded minimum: under
emission-first the `k`-th minimum follows the `k`-th maximum; under absorption-first it
follows the `(k-1)`-th maximum (and the first minimum is the first peak of the run, for which
the scan started at 0). -/
def prevEmi (emi_first : Bool) (emi : List Int) (k : Nat) : Int :=
  if emi_first then (emi[k]?).getD 0 else (if k = 0 then 0 else (emi[k - 1]?).getD 0)

/-- Threshold soundness of a minimum recorded at `q` when the previous peak is at `p`. -/
def SoundMin (data : List ℚ) (delta : ℚ) (p q : Int) : Prop :=
  0 ≤ p ∧ p ≤ q ∧
  (∀ j, p ≤ j → j ≤ q → ¬ sample data j < sample data q) ∧
  ∃ c, q < c ∧ c < (data.length : Int) ∧ sample data c > sample data q + delta ∧
    ∀ j, p ≤ j → j ≤ c → ¬ sample data j < sample data q

/-- Every recorded minimum is sound with respect to the maximum recorded before it. -/
def MinSound (data : List ℚ) (delta : ℚ) (emi_first : Bool) (emi absop : List Int) : Prop :=
  ∀ (k : Nat) (q : Int), absop[k]? = some q →
    SoundMin data delta (prevEmi emi_first emi k) q

/-- Lines 126-138 without the cursor rewind `i = mx_pos - 1`: every other step is kept. -/
def confirm_emi_norewind (data : List ℚ) (max_emi_peaks : Int) (s : State) : Step :=
  if (s.emi_peaks.length : Int) ≥ max_emi_peaks then
    .stop ⟨.ret 1, s.emi_peaks, s.absop_peaks⟩
  else
    let emi := s.emi_peaks ++ [s.mx_pos]
    match readData data s.mx_pos with
    | none => .stop ⟨.outOfBounds s.mx_pos, emi, s.absop_peaks⟩
    | some v =>
      .next { s with emi_peaks := emi, is_detecting_emi := false, mn := v, mn_pos := s.mx_pos }

/-- Lines 142-154 without the cursor rewind `i = mn_pos - 1`. With `keep_cast` the last
assignment is the one of the source (`mx_pos = data[mn_pos]`); without it the running maximum
is reset to the position of the confirmed minimum (`mx_pos = mn_pos`). -/
def confirm_absop_norewind (keep_cast : Bool) (data : List ℚ) (max_absop_peaks : Int)
    (s : State) : Step :=
  if (s.absop_peaks.length : Int) ≥ max_absop_peaks then
    .stop ⟨.ret 2, s.emi_peaks, s.absop_peaks⟩
  else
    let absop := s.absop_peaks ++ [s.mn_pos]
    match readData data s.mn_pos with
    | none => .stop ⟨.outOfBounds s.mn_pos, s.emi_peaks, absop⟩
    | some v =>
      .next { s with absop_peaks := absop, is_detecting_emi := true, mx := v,
                     mx_pos := if keep_cast then double_to_int v else s.mn_pos }

/-- The loop body of the variant of `detect_peak` that omits the two cursor rewinds. -/
def body_norewind (keep_cast : Bool) (data : List ℚ) (max_emi_peaks max_absop_peaks : Int)
    (delta : ℚ) (s : State) : Step :=
  match readData data s.i with
  | none => .stop ⟨.outOfBounds s.i, s.emi_peaks, s.absop_peaks⟩
  | some x =>
    let t := track x s
    if t.is_detecting_emi = true ∧ x < t.mx - delta then
      confirm_emi_norewind data max_emi_peaks t
    else if t.is_detecting_emi = false ∧ x > t.mn + delta then
      confirm_absop_norewind keep_cast data max_absop_peaks t
    else
      .next t

/-- The loop of the variant without rewinds, running at most `fuel` iterations. -/
def loop_norewind (keep_cast : Bool) (data : List ℚ) (max_emi_peaks max_absop_peaks : Int)
    (delta : ℚ) : Nat → State → Result
  | 0, s =>
    if s.i < (data.length : Int) then ⟨.outOfFuel, s.emi_peaks, s.absop_peaks⟩
    else ⟨.ret 0, s.emi_peaks, s.absop_peaks⟩
  | fuel + 1, s =>
    if s.i < (data.length : Int) then
      match body_norewind keep_cast data max_emi_peaks max_absop_peaks delta s with
      | .stop r => r
      | .next t =>
        loop_norewind keep_cast data max_emi_peaks max_absop_peaks delta fuel (advance t)
    else ⟨.ret 0, s.emi_peaks, s.absop_peaks⟩

/-- The variant of `detect_peak` that omits the two cursor rewinds; its cursor only moves
forward, so one iteration per sample suffices. -/
def detect_peak_norewind (keep_cast : Bool) (data : List ℚ)
    (max_emi_peaks max_absop_peaks : Int) (delta : ℚ) (emi_first : Bool) : Result :=
  match readData data 0 with
  | none => ⟨.outOfBounds 0, [], []⟩
  | some v =>
    loop_norewind keep_cast data max_emi_peaks max_absop_peaks delta data.length
      (initState v emi_first)

/-- The negated sample sequence. -/
def negate (data : List ℚ) : List ℚ :=
  data.map (fun x => -x)

/-- Mirror image of an exit: the two capacity failures are exchanged. -/
def mirrorExit : Exit → Exit
  | .ret 1 => .ret 2
  | .ret 2 => .ret 1
  | e => e

/-- Mirror image of a result: the two lists and the two capacity failures are exchanged. -/
def mirror (r : Result) : Result :=
  ⟨mirrorExit r.exit, r.absop_peaks, r.emi_peaks⟩

/-- Mirror image of a state: the roles of the running maximum and minimum, of the two lists
and of the two kinds sought are exchanged, the values being negated. -/
def mirrorState (s : State) : State :=
  { i := s.i, mx := -s.mn, mn := -s.mx, mx_pos := s.mn_pos, mn_pos := s.mx_pos,
    is_detecting_emi := !s.is_detecting_emi, emi_peaks := s.absop_peaks,
    absop_peaks := s.emi_peaks }

/-- Mirror image of the outcome of a loop iteration. -/
def mirrorStep : Step → Step
  | .next t => .next (mirrorState t)
  | .stop r => .stop (mirror r)

/-- Lines 142-154 with the last assignment replaced by `mx_pos = mn_pos`: the running maximum
is reset to the value and the position of the confirmed minimum. -/
def confirm_absop_fixed (data : List ℚ) (max_absop_peaks : Int) (s : State) : Step :=
  if (s.absop_peaks.length : Int) ≥ max_absop_peaks then
    .stop ⟨.ret 2, s.emi_peaks, s.absop_peaks⟩
  else
    let absop := s.absop_peaks ++ [s.mn_pos]
    match readData data s.mn_pos with
    | none => .stop ⟨.outOfBounds s.mn_pos, s.emi_peaks, absop⟩
    | some v =>
      .next { s with absop_peaks := absop, is_detecting_emi := true, i := s.mn_pos - 1,
                     mx := v, mx_pos := s.mn_pos }

/-- The loop body of the algorithm that assigns `mx_pos = mn_pos` after a confirmed
minimum. -/
def body_fixed (data : List ℚ) (max_emi_peaks max_absop_peaks : Int) (delta : ℚ)
    (s : State) : Step :=
  match readData data s.i with
  | none => .stop ⟨.outOfBounds s.i, s.emi_peaks, s.absop_peaks⟩
  | some x =>
    let t := track x s
    if t.is_detecting_emi = true ∧ x < t.mx - delta then
      confirm_emi data max_emi_peaks t
    else if t.is_detecting_emi = false ∧ x > t.mn + delta then
      confirm_absop_fixed data max_absop_peaks t
    else
      .next t

/-- The loop of the algorithm that assigns `mx_pos = mn_pos`, running at most `fuel`
iterations. -/
def loop_fixed (data : List ℚ) (max_emi_peaks max_absop_peaks : Int) (delta : ℚ) :
    Nat → State → Result
  | 0, s =>
    if s.i < (data.length : Int) then ⟨.outOfFuel, s.emi_peaks, s.absop_peaks⟩
    else ⟨.ret 0, s.emi_peaks, s.absop_peaks⟩
  | fuel + 1, s =>
    if s.i < (data.length : Int) then
      match body_fixed data max_emi_peaks max_absop_peaks delta s with
      | .stop r => r
      | .next t => loop_fixed data max_emi_peaks max_absop_peaks delta fuel (advance t)
    else ⟨.ret 0, s.emi_peaks, s.absop_peaks⟩

/-- The algorithm that assigns `mx_pos = mn_pos` after a confirmed minimum, with the
iteration budget of `detect_peak`. -/
def detect_peak_fixed (data : List ℚ) (max_emi_peaks max_absop_peaks : Int) (delta : ℚ)
    (emi_first : Bool) : Result :=
  match readData data 0 with
  | none => ⟨.outOfBounds 0, [], []⟩
  | some v =>
    loop_fixed data max_emi_peaks max_absop_peaks delta
      (iterations data max_emi_peaks max_absop_peaks) (initState v emi_first)

/-- The state `s` with another value in `mx_pos`. -/
def setMxPos (s : State) (m : Int) : State :=
  { s with mx_pos := m }

/-- The `delta` for which the exact comparison made by `body` in the state `s` is the
comparison made by `body_fp`: the distance between the running extremum that is tested and
the rounded threshold. -/
def eff_delta (data : List ℚ) (delta : ℚ) (s : State) : ℚ :=
  match readData data s.i with
  | none => delta
  | some x =>
    if s.is_detecting_emi = true then (track x s).mx - to_double ((track x s).mx - delta)
    else to_double ((track x s).mn + delta) - (track x s).mn

/-- The states in which the loop test is reached during the run in double arithmetic started
in `s0`. -/
inductive ReachesFp (data : List ℚ) (capE capA : Int) (delta : ℚ) (s0 : State) : State → Prop
  | start : ReachesFp data capE capA delta s0 s0
  | step {s t : State} : ReachesFp data capE capA delta s0 s → s.i < (data.length : Int) →
      body_fp data capE capA delta s = .next t → ReachesFp data capE capA delta s0 (advance t)

/-- Loop body of the single forward pass without rewind, in double arithmetic. -/
def forward_body_fp (data : List ℚ) (max_emi_peaks max_absop_peaks : Int) (delta : ℚ)
    (s : State) : Step :=
  match readData data s.i with
  | none => .stop ⟨.outOfBounds s.i, s.emi_peaks, s.absop_peaks⟩
  | some x =>
    let t := track x s
    if t.is_detecting_emi = true ∧ x < to_double (t.mx - delta) then
      if (t.emi_peaks.length : Int) ≥ max_emi_peaks then
        .stop ⟨.ret 1, t.emi_peaks, t.absop_peaks⟩
      else .next (forwardEmi t x)
    else if t.is_detecting_emi = false ∧ x > to_double (t.mn + delta) then
      if (t.absop_peaks.length : Int) ≥ max_absop_peaks then
        .stop ⟨.ret 2, t.emi_peaks, t.absop_peaks⟩
      else .next (forwardAbsop t x)
    else
      .next t

/-- The forward-only loop in double arithmetic, running at most `fuel` iterations. -/
def forward_loop_fp (data : List ℚ) (max_emi_peaks max_absop_peaks : Int) (delta : ℚ) :
    Nat → State → Result
  | 0, s =>
    if s.i < (data.length : Int) then ⟨.outOfFuel, s.emi_peaks, s.absop_peaks⟩
    else ⟨.ret 0, s.emi_peaks, s.absop_peaks⟩
  | fuel + 1, s =>
    if s.i < (data.length : Int) then
      match forward_body_fp data max_emi_peaks max_absop_peaks delta s with
      | .stop r => r
      | .next t => forward_loop_fp data max_emi_peaks max_absop_peaks delta fuel (advance t)
    else ⟨.ret 0, s.emi_peaks, s.absop_peaks⟩

/-- The single forward pass without any rewind, in double arithmetic: one iteration per
sample. -/
def detect_peak_forward_fp (data : List ℚ) (max_emi_peaks max_absop_peaks : Int) (delta : ℚ)
    (emi_first : Bool) : Result :=
  match readData data 0 with
  | none => ⟨.outOfBounds 0, [], []⟩
  | some v =>
    forward_loop_fp data max_emi_peaks max_absop_peaks delta data.length
      (initState v emi_first)

/-- The two running extrema are samples of the data. -/
def InData (data : List ℚ) (s : State) : Prop :=
  s.mx ∈ data ∧ s.mn ∈ data

/-- The two thresholds are computed without rounding error for every sample. -/
def ExactThresholds (data : List ℚ) (delta : ℚ) : Prop :=
  ∀ x ∈ data, to_double (x - delta) = x - delta ∧ to_double (x + delta) = x + delta

/-- Invariant of the scan of strictly increasing data in double arithmetic while a minimum is
sought and no sample seen so far exceeds the rounded threshold `data[0] + delta`: nothing is
recorded and the running minimum is the first sample. -/
structure RiseAbsopFp (data : List ℚ) (delta : ℚ) (s : State) : Prop where
  flag : s.is_detecting_emi = false
  emi : s.emi_peaks = []
  absop : s.absop_peaks = []
  i_pos : 1 ≤ s.i
  mn_eq : s.mn = sample data 0
  mn_pos_eq : s.mn_pos = 0
  seen : ∀ j, 0 ≤ j → j < s.i → sample data j ≤ to_double (sample data 0 + delta)

/-! ## Elementary facts about reads and the loop body -/

theorem readData_eq_some {data : List ℚ} {k : Int} {v : ℚ} (h : readData data k = some v) :
    0 ≤ k ∧ k < (data.length : Int) ∧ sample data k = v := by
  unfold readData at h
  split at h
  · simp at h
  · rename_i hk
    have hk0 : 0 ≤ k := not_lt.mp hk
    obtain ⟨hlt, -⟩ := List.getElem?_eq_some_iff.mp h
    refine ⟨hk0, by omega, ?_⟩
    simp [sample, readData, hk, h]

theorem readData_of_lt {data : List ℚ} {k : Int} (h0 : 0 ≤ k) (h1 : k < (data.length : Int)) :
    readData data k = some (sample data k) := by
  have hk : ¬ k < 0 := not_lt.mpr h0
  have hlt : k.toNat < data.length := by omega
  simp [sample, readData, hk, List.getElem?_eq_getElem hlt]

theorem readData_eq_none {data : List ℚ} {k : Int} (h : readData data k = none) :
    k < 0 ∨ (data.length : Int) ≤ k := by
  by_contra hc
  push_neg at hc
  rw [readData_of_lt hc.1 hc.2] at h
  simp at h

@[simp] theorem track_i (x : ℚ) (s : State) : (track x s).i = s.i := by
  unfold track; dsimp only; split_ifs <;> rfl

@[simp] theorem track_flag (x : ℚ) (s : State) :
    (track x s).is_detecting_emi = s.is_detecting_emi := by
  unfold track; dsimp only; split_ifs <;> rfl

@[simp] theorem track_emi (x : ℚ) (s : State) : (track x s).emi_peaks = s.emi_peaks := by
  unfold track; dsimp only; split_ifs <;> rfl

@[simp] theorem track_absop (x : ℚ) (s : State) : (track x s).absop_peaks = s.absop_peaks := by
  unfold track; dsimp only; split_ifs <;> rfl

theorem track_mx (x : ℚ) (s : State) : (track x s).mx = if s.mx < x then x else s.mx := by
  unfold track; dsimp only; split_ifs <;> rfl

theorem track_mx_pos (x : ℚ) (s : State) :
    (track x s).mx_pos = if s.mx < x then s.i else s.mx_pos := by
  unfold track; dsimp only; split_ifs <;> rfl

theorem track_mn (x : ℚ) (s : State) : (track x s).mn = if x < s.mn then x else s.mn := by
  unfold track; dsimp only; split_ifs <;> rfl

theorem track_mn_pos (x : ℚ) (s : State) :
    (track x s).mn_pos = if x < s.mn then s.i else s.mn_pos := by
  unfold track; dsimp only; split_ifs <;> rfl

@[simp] theorem advance_i (t : State) : (advance t).i = t.i + 1 := rfl

@[simp] theorem advance_mx (t : State) : (advance t).mx = t.mx := rfl

@[simp] theorem advance_mn (t : State) : (advance t).mn = t.mn := rfl

@[simp] theorem advance_mx_pos (t : State) : (advance t).mx_pos = t.mx_pos := rfl

@[simp] theorem advance_mn_pos (t : State) : (advance t).mn_pos = t.mn_pos := rfl

@[simp] theorem advance_is_detecting_emi (t : State) : (advance t).is_detecting_emi = t.is_detecting_emi := rfl

@[simp] theorem advance_emi_peaks (t : State) : (advance t).emi_peaks = t.emi_peaks := rfl

@[simp] theorem advance_absop_peaks (t : State) : (advance t).absop_peaks = t.absop_peaks := rfl

@[simp] theorem afterEmi_i (t : State) (v : ℚ) :
    (afterEmi t v).i = t.mx_pos - 1 := rfl

@[simp] theorem afterEmi_mx (t : State) (v : ℚ) :
    (afterEmi t v).mx = t.mx := rfl

@[simp] theorem afterEmi_mn (t : State) (v : ℚ) :
    (afterEmi t v).mn = v := rfl

@[simp] theorem afterEmi_mx_pos (t : State) (v : ℚ) :
    (afterEmi t v).mx_pos = t.mx_pos := rfl

@[simp] theorem afterEmi_mn_pos (t : State) (v : ℚ) :
    (afterEmi t v).mn_pos = t.mx_pos := rfl

@[simp] theorem afterEmi_is_detecting_emi (t : State) (v : ℚ) :
    (afterEmi t v).is_detecting_emi = false := rfl

@[simp] theorem afterEmi_emi_peaks (t : State) (v : ℚ) :
    (afterEmi t v).emi_peaks = t.emi_peaks ++ [t.mx_pos] := rfl

@[simp] theorem afterEmi_absop_peaks (t : State) (v : ℚ) :
    (afterEmi t v).absop_peaks = t.absop_peaks := rfl

@[simp] theorem afterAbsop_i (t : State) (v : ℚ) :
    (afterAbsop t v).i = t.mn_pos - 1 := rfl

@[simp] theorem afterAbsop_mx (t : State) (v : ℚ) :
    (afterAbsop t v).mx = v := rfl

@[simp] theorem afterAbsop_mn (t : State) (v : ℚ) :
    (afterAbsop t v).mn = t.mn := rfl

@[simp] theorem afterAbsop_mx_pos (t : State) (v : ℚ) :
    (afterAbsop t v).mx_pos = double_to_int v := rfl

@[simp] theorem afterAbsop_mn_pos (t : State) (v : ℚ) :
    (afterAbsop t v).mn_pos = t.mn_pos := rfl

@[simp] theorem afterAbsop_is_detecting_emi (t : State) (v : ℚ) :
    (afterAbsop t v).is_detecting_emi = true := rfl

@[simp] theorem afterAbsop_emi_peaks (t : State) (v : ℚ) :
    (afterAbsop t v).emi_peaks = t.emi_peaks := rfl

@[simp] theorem afterAbsop_absop_peaks (t : State) (v : ℚ) :
    (afterAbsop t v).absop_peaks = t.absop_peaks ++ [t.mn_pos] := rfl

/-- Every way in which the loop body can fall through to `++i`. -/
theorem body_next {data : List ℚ} {capE capA : Int} {delta : ℚ} {s t : State}
    (h : body data capE capA delta s = .next t) :
    ∃ x, readData data s.i = some x ∧
      ((¬ (s.is_detecting_emi = true ∧ x < (track x s).mx - delta) ∧
        ¬ (s.is_detecting_emi = false ∧ x > (track x s).mn + delta) ∧ t = track x s) ∨
       (s.is_detecting_emi = true ∧ x < (track x s).mx - delta ∧
        (s.emi_peaks.length : Int) < capE ∧
        ∃ v, readData data (track x s).mx_pos = some v ∧ t = afterEmi (track x s) v) ∨
       (s.is_detecting_emi = false ∧ x > (track x s).mn + delta ∧
        (s.absop_peaks.length : Int) < capA ∧
        ∃ v, readData data (track x s).mn_pos = some v ∧ t = afterAbsop (track x s) v)) := by
  unfold body at h
  split at h
  · simp at h
  · rename_i x hx
    refine ⟨x, hx, ?_⟩
    simp only [track_flag] at h
    split_ifs at h with h1 h2
    · right; left
      unfold confirm_emi at h
      simp only [track_emi] at h
      split_ifs at h with h3
      split at h
      · simp at h
      · rename_i v hv
        simp only [Step.next.injEq] at h
        exact ⟨h1.1, h1.2, not_le.mp h3, v, hv, by subst h; simp [afterEmi]⟩
    · right; right
      unfold confirm_absop at h
      simp only [track_absop] at h
      split_ifs at h with h3
      split at h
      · simp at h
      · rename_i v hv
        simp only [Step.next.injEq] at h
        exact ⟨h2.1, h2.2, not_le.mp h3, v, hv, by subst h; simp [afterAbsop]⟩
    · left
      simp only [Step.next.injEq] at h
      exact ⟨h1, h2, h.symm⟩

/-- Every way in which the loop body can leave the function. -/
theorem body_stop {data : List ℚ} {capE capA : Int} {delta : ℚ} {s : State} {r : Result}
    (h : body data capE capA delta s = .stop r) :
    (readData data s.i = none ∧ r = ⟨.outOfBounds s.i, s.emi_peaks, s.absop_peaks⟩) ∨
    ∃ x, readData data s.i = some x ∧
      ((s.is_detecting_emi = true ∧ x < (track x s).mx - delta ∧
        capE ≤ (s.emi_peaks.length : Int) ∧ r = ⟨.ret 1, s.emi_peaks, s.absop_peaks⟩) ∨
       (s.is_detecting_emi = true ∧ x < (track x s).mx - delta ∧
        (s.emi_peaks.length : Int) < capE ∧ readData data (track x s).mx_pos = none ∧
        r = ⟨.outOfBounds (track x s).mx_pos,
              s.emi_peaks ++ [(track x s).mx_pos], s.absop_peaks⟩) ∨
       (s.is_detecting_emi = false ∧ x > (track x s).mn + delta ∧
        capA ≤ (s.absop_peaks.length : Int) ∧ r = ⟨.ret 2, s.emi_peaks, s.absop_peaks⟩) ∨
       (s.is_detecting_emi = false ∧ x > (track x s).mn + delta ∧
        (s.absop_peaks.length : Int) < capA ∧ readData data (track x s).mn_pos = none ∧
        r = ⟨.outOfBounds (track x s).mn_pos,
              s.emi_peaks, s.absop_peaks ++ [(track x s).mn_pos]⟩)) := by
  unfold body at h
  split at h
  · rename_i hx
    simp only [Step.stop.injEq] at h
    exact Or.inl ⟨hx, h.symm⟩
  · rename_i x hx
    refine Or.inr ⟨x, hx, ?_⟩
    simp only [track_flag] at h
    split_ifs at h with h1 h2
    · unfold confirm_emi at h
      simp only [track_emi, track_absop] at h
      split_ifs at h with h3
      · simp only [Step.stop.injEq] at h
        exact Or.inl ⟨h1.1, h1.2, h3, h.symm⟩
      · split at h
        · rename_i hv
          simp only [Step.stop.injEq] at h
          exact Or.inr (Or.inl ⟨h1.1, h1.2, not_le.mp h3, hv, h.symm⟩)
        · simp at h
    · unfold confirm_absop at h
      simp only [track_emi, track_absop] at h
      split_ifs at h with h3
      · simp only [Step.stop.injEq] at h
        exact Or.inr (Or.inr (Or.inl ⟨h2.1, h2.2, h3, h.symm⟩))
      · split at h
        · rename_i hv
          simp only [Step.stop.injEq] at h
          exact Or.inr (Or.inr (Or.inr ⟨h2.1, h2.2, not_le.mp h3, hv, h.symm⟩))
        · simp at h

theorem body_stop_exit {data : List ℚ} {capE capA : Int} {delta : ℚ} {s : State} {r : Result}
    (h : body data capE capA delta s = .stop r) : r.exit ≠ .outOfFuel := by
  rcases body_stop h with ⟨-, rfl⟩ | ⟨x, -, h1⟩
  · simp
  · rcases h1 with ⟨-, -, -, rfl⟩ | ⟨-, -, -, -, rfl⟩ | ⟨-, -, -, rfl⟩ | ⟨-, -, -, -, rfl⟩ <;> simp

/-! ## The loop: unfolding, invariants, termination -/

section Loop

variable {data : List ℚ} {capE capA : Int} {delta : ℚ}

theorem loop_done (fuel : Nat) {s : State} (h : ¬ s.i < (data.length : Int)) :
    loop data capE capA delta fuel s = ⟨.ret 0, s.emi_peaks, s.absop_peaks⟩ := by
  cases fuel <;> simp [loop, h]

theorem loop_stop (fuel : Nat) {s : State} {r : Result} (hi : s.i < (data.length : Int))
    (hb : body data capE capA delta s = .stop r) :
    loop data capE capA delta (fuel + 1) s = r := by
  simp [loop, hi, hb]

theorem loop_next (fuel : Nat) {s t : State} (hi : s.i < (data.length : Int))
    (hb : body data capE capA delta s = .next t) :
    loop data capE capA delta (fuel + 1) s = loop data capE capA delta fuel (advance t) := by
  simp [loop, hi, hb, advance]

/-- Invariant rule for the loop: a property kept by every iteration holds of the result. -/
theorem loop_invariant (Inv : State → Prop) (Post : Result → Prop)
    (hnext : ∀ s t, Inv s → s.i < (data.length : Int) →
      body data capE capA delta s = .next t → Inv (advance t))
    (hstop : ∀ s r, Inv s → s.i < (data.length : Int) →
      body data capE capA delta s = .stop r → Post r)
    (hdone : ∀ s, Inv s → ¬ s.i < (data.length : Int) →
      Post ⟨.ret 0, s.emi_peaks, s.absop_peaks⟩)
    (hfuel : ∀ s, Inv s → Post ⟨.outOfFuel, s.emi_peaks, s.absop_peaks⟩) :
    ∀ fuel s, Inv s → Post (loop data capE capA delta fuel s) := by
  intro fuel
  induction fuel with
  | zero =>
    intro s hs
    by_cases hi : s.i < (data.length : Int)
    · simpa [loop, hi] using hfuel s hs
    · rw [loop_done 0 hi]; exact hdone s hs hi
  | succ fuel ih =>
    intro s hs
    by_cases hi : s.i < (data.length : Int)
    · cases hb : body data capE capA delta s with
      | next t => rw [loop_next fuel hi hb]; exact ih _ (hnext s t hs hi hb)
      | stop r => rw [loop_stop fuel hi hb]; exact hstop s r hs hi hb
    · rw [loop_done _ hi]; exact hdone s hs hi

/-- Termination rule for the loop: if every iteration that falls through decreases a measure,
then a budget above the measure is never used up. -/
theorem loop_returns (Inv : State → Prop) (μ : State → Nat)
    (hnext : ∀ s t, Inv s → s.i < (data.length : Int) →
      body data capE capA delta s = .next t → Inv (advance t) ∧ μ (advance t) < μ s) :
    ∀ fuel s, Inv s → μ s < fuel → (loop data capE capA delta fuel s).exit ≠ .outOfFuel := by
  intro fuel
  induction fuel with
  | zero => intro s _ h; omega
  | succ fuel ih =>
    intro s hs hμ
    by_cases hi : s.i < (data.length : Int)
    · cases hb : body data capE capA delta s with
      | next t =>
        rw [loop_next fuel hi hb]
        obtain ⟨h1, h2⟩ := hnext s t hs hi hb
        exact ih _ h1 (by omega)
      | stop r => rw [loop_stop fuel hi hb]; exact body_stop_exit hb
    · rw [loop_done _ hi]; simp

/-- A run that ended within its budget ends in the same way with any larger budget. -/
theorem loop_fuel_mono : ∀ (fuel : Nat) (s : State),
    (loop data capE capA delta fuel s).exit ≠ .outOfFuel →
    ∀ k, loop data capE capA delta (fuel + k) s = loop data capE capA delta fuel s := by
  intro fuel
  induction fuel with
  | zero =>
    intro s h k
    by_cases hi : s.i < (data.length : Int)
    · simp [loop, hi] at h
    · rw [loop_done _ hi, loop_done _ hi]
  | succ fuel ih =>
    intro s h k
    have e : fuel + 1 + k = (fuel + k) + 1 := by omega
    rw [e]
    by_cases hi : s.i < (data.length : Int)
    · cases hb : body data capE capA delta s with
      | next t =>
        rw [loop_next _ hi hb] at h
        rw [loop_next _ hi hb, loop_next _ hi hb]
        exact ih _ h k
      | stop r => rw [loop_stop _ hi hb, loop_stop _ hi hb]
    · rw [loop_done _ hi, loop_done _ hi]

theorem loop_fuel_le {fuel fuel2 : Nat} {s : State} (hle : fuel ≤ fuel2)
    (h : (loop data capE capA delta fuel s).exit ≠ .outOfFuel) :
    loop data capE capA delta fuel2 s = loop data capE capA delta fuel s := by
  obtain ⟨k, rfl⟩ := Nat.exists_eq_add_of_le hle
  exact loop_fuel_mono fuel s h k

end Loop

/-! ## `detect_peak` returns on every input -/

theorem budget_decreases {data : List ℚ} {capE capA : Int} {delta : ℚ} {s t : State}
    (hi : s.i < (data.length : Int)) (hb : body data capE capA delta s = .next t) :
    budget data capE capA (advance t) < budget data capE capA s := by
  obtain ⟨x, hx, h⟩ := body_next hb
  rcases h with ⟨-, -, rfl⟩ | ⟨-, -, hcap, v, hv, rfl⟩ | ⟨-, -, hcap, v, hv, rfl⟩
  · simp only [budget, advance, track_emi, track_absop, track_i]
    have : ((data.length : Int) - (s.i + 1)).toNat < ((data.length : Int) - s.i).toNat := by
      omega
    omega
  · obtain ⟨h0, h1, -⟩ := readData_eq_some hv
    simp only [budget, advance, afterEmi, track_emi, track_absop, List.length_append,
      List.length_singleton, Nat.cast_add, Nat.cast_one, sub_add_cancel]
    obtain ⟨a, ha⟩ : ∃ a : Nat, (capE - (s.emi_peaks.length : Int)).toNat = a + 1 :=
      ⟨(capE - (s.emi_peaks.length : Int)).toNat - 1, by omega⟩
    have ha2 : (capE - ((s.emi_peaks.length : Int) + 1)).toNat = a := by omega
    rw [ha, ha2]
    have e : (data.length + 1) * (a + 1 + (capA - (s.absop_peaks.length : Int)).toNat) =
        (data.length + 1) * (a + (capA - (s.absop_peaks.length : Int)).toNat) +
          (data.length + 1) := by ring
    rw [e]
    have : ((data.length : Int) - (track x s).mx_pos).toNat ≤ data.length := by omega
    omega
  · obtain ⟨h0, h1, -⟩ := readData_eq_some hv
    simp only [budget, advance, afterAbsop, track_emi, track_absop, List.length_append,
      List.length_singleton, Nat.cast_add, Nat.cast_one, sub_add_cancel]
    obtain ⟨a, ha⟩ : ∃ a : Nat, (capA - (s.absop_peaks.length : Int)).toNat = a + 1 :=
      ⟨(capA - (s.absop_peaks.length : Int)).toNat - 1, by omega⟩
    have ha2 : (capA - ((s.absop_peaks.length : Int) + 1)).toNat = a := by omega
    rw [ha, ha2]
    have e : (data.length + 1) * ((capE - (s.emi_peaks.length : Int)).toNat + (a + 1)) =
        (data.length + 1) * ((capE - (s.emi_peaks.length : Int)).toNat + a) +
          (data.length + 1) := by ring
    rw [e]
    have : ((data.length : Int) - (track x s).mn_pos).toNat ≤ data.length := by omega
    omega

theorem budget_init_lt (data : List ℚ) (capE capA : Int) (v : ℚ) (emi_first : Bool) :
    budget data capE capA (initState v emi_first) < iterations data capE capA := by
  simp only [budget, initState, iterations, List.length_nil, Nat.cast_zero, sub_zero]
  have e : (data.length + 2) * (capE.toNat + capA.toNat + 2) =
      (data.length + 1) * (capE.toNat + capA.toNat) + (capE.toNat + capA.toNat) +
        2 * (data.length + 2) := by ring
  rw [e]
  have : ((data.length : Int) - 1).toNat ≤ data.length := by omega
  omega

/-- The iteration budget of `detect_peak` is never used up: on every input the function
returns a code or reads outside the data. -/
theorem detect_peak_returns (data : List ℚ) (capE capA : Int) (delta : ℚ) (emi_first : Bool) :
    (detect_peak data capE capA delta emi_first).exit ≠ .outOfFuel := by
  unfold detect_peak detect_peak_fuel
  split
  · simp
  · exact loop_returns (fun _ => True) (budget data capE capA)
      (fun s t _ hi hb => ⟨trivial, budget_decreases hi hb⟩) _ _ trivial
      (budget_init_lt data capE capA _ emi_first)

/-- Any budget that suffices gives the result of `detect_peak`. -/
theorem detect_peak_fuel_eq {fuel : Nat} {data : List ℚ} {capE capA : Int} {delta : ℚ}
    {emi_first : Bool}
    (h : (detect_peak_fuel fuel data capE capA delta emi_first).exit ≠ .outOfFuel) :
    detect_peak_fuel fuel data capE capA delta emi_first =
      detect_peak data capE capA delta emi_first := by
  have h2 := detect_peak_returns data capE capA delta emi_first
  unfold detect_peak at h2 ⊢
  unfold detect_peak_fuel at h h2 ⊢
  split
  · rfl
  · rename_i v hv
    simp only [hv] at h h2
    rcases Nat.le_total fuel (iterations data capE capA) with hle | hle
    · exact (loop_fuel_le hle h).symm
    · exact loop_fuel_le hle h2

/-! ## The invariant of the scan for a positive `delta` -/

@[simp] theorem base_advance_track (x : ℚ) (s : State) : base (advance (track x s)) = base s := by
  simp [base, advance]

@[simp] theorem base_afterEmi (t : State) (v : ℚ) : base (advance (afterEmi t v)) = t.mx_pos := by
  simp [base, advance, afterEmi]

@[simp] theorem base_afterAbsop (t : State) (v : ℚ) :
    base (advance (afterAbsop t v)) = t.mn_pos := by
  simp [base, advance, afterAbsop]

theorem core_init {data : List ℚ} {delta : ℚ} {v : ℚ} (emi_first : Bool)
    (hv : readData data 0 = some v) : Core data delta (initState v emi_first) := by
  obtain ⟨-, hn, hs⟩ := readData_eq_some hv
  have hb : base (initState v emi_first) = 0 := by simp [base, initState]
  refine ⟨by rw [hb], by rw [hb]; exact hn, by rw [hb]; simp [initState], ?_, by simp [initState],
    by simp [initState], by simp [initState], by simp [initState], ?_, ?_⟩
  · simp only [initState]; omega
  · intro _
    rw [hb]
    refine ⟨by simp [initState, hs], ?_, Or.inr (Or.inl (by simp [initState, hs]))⟩
    intro j h0 h1
    have : j = 0 := by simp only [initState] at h1; omega
    subst this
    simp [initState, hs]
  · intro _
    rw [hb]
    refine ⟨by simp [initState, hs], ?_, Or.inr (Or.inl (by simp [initState, hs]))⟩
    intro j h0 h1
    have : j = 0 := by simp only [initState] at h1; omega
    subst this
    simp [initState, hs]

/-- When a maximum is confirmed for `delta > 0`, `mx_pos` holds the position of the running
maximum since the last peak: the value stored by the conversion has been overwritten. -/
theorem core_emi_trigger {data : List ℚ} {delta : ℚ} {s : State} {x : ℚ} (hd : 0 < delta)
    (hc : Core data delta s) (hx : readData data s.i = some x)
    (hf : s.is_detecting_emi = true) (ht : x < (track x s).mx - delta) :
    (track x s).mx = s.mx ∧ (track x s).mx_pos = s.mx_pos ∧ x < s.mx - delta ∧
    sample data s.mx_pos = s.mx ∧ s.mx_pos ≤ s.i ∧
    ((base s < s.mx_pos ∧ s.mx_pos < s.i) ∨
     (s.mx_pos = base s ∧ s.emi_peaks = [] ∧ s.absop_peaks = [])) := by
  obtain ⟨hi0, hin, hsx⟩ := readData_eq_some hx
  have hnot : ¬ s.mx < x := by
    intro h
    rw [track_mx, if_pos h] at ht
    linarith
  rw [track_mx, if_neg hnot] at ht
  rw [track_mx, if_neg hnot, track_mx_pos, if_neg hnot]
  obtain ⟨h1, h2, h3⟩ := hc.seek_max hf
  refine ⟨rfl, rfl, ht, ?_⟩
  rcases h3 with ⟨a, b, c⟩ | ⟨a, b, c, d⟩ | ⟨a, c, b1, b2, b3, b4⟩
  · exact ⟨c, le_of_lt b, Or.inl ⟨a, b⟩⟩
  · exact ⟨by rw [a]; exact b, by rw [a]; exact hc.base_le_i, Or.inr ⟨a, c, d⟩⟩
  · exfalso
    have := b3 s.i hc.base_le_i b1
    rw [hsx] at this
    linarith

/-- When a minimum is confirmed for `delta > 0`, `mn_pos` is the position of the running
minimum since the last peak. -/
theorem core_absop_trigger {data : List ℚ} {delta : ℚ} {s : State} {x : ℚ} (hd : 0 < delta)
    (hc : Core data delta s) (hx : readData data s.i = some x)
    (hf : s.is_detecting_emi = false) (ht : x > (track x s).mn + delta) :
    (track x s).mn = s.mn ∧ (track x s).mn_pos = s.mn_pos ∧ x > s.mn + delta ∧
    sample data s.mn_pos = s.mn ∧ s.mn_pos ≤ s.i ∧
    ((base s < s.mn_pos ∧ s.mn_pos < s.i) ∨
     (s.mn_pos = base s ∧ s.emi_peaks = [] ∧ s.absop_peaks = [])) := by
  obtain ⟨hi0, hin, hsx⟩ := readData_eq_some hx
  have hnot : ¬ x < s.mn := by
    intro h
    rw [track_mn, if_pos h] at ht
    linarith
  rw [track_mn, if_neg hnot] at ht
  rw [track_mn, if_neg hnot, track_mn_pos, if_neg hnot]
  obtain ⟨h1, h2, h3⟩ := hc.seek_min hf
  refine ⟨rfl, rfl, ht, ?_⟩
  rcases h3 with ⟨a, b, c⟩ | ⟨a, b, c, d⟩ | ⟨a, a2, c, b1, b2, b3, b4⟩
  · exact ⟨c, le_of_lt b, Or.inl ⟨a, b⟩⟩
  · exact ⟨by rw [a]; exact b, by rw [a]; exact hc.base_le_i, Or.inr ⟨a, c, d⟩⟩
  · exfalso
    have := b3 s.i hc.base_le_i b1
    rw [hsx] at this
    linarith

theorem core_track {data : List ℚ} {delta : ℚ} {s : State} {x : ℚ} (hd : 0 < delta)
    (hc : Core data delta s) (hx : readData data s.i = some x) :
    Core data delta (advance (track x s)) := by
  obtain ⟨hi0, hin, hsx⟩ := readData_eq_some hx
  refine ⟨by simpa using hc.base_nonneg, by simpa using hc.base_lt, ?_, ?_,
    by simpa [advance] using hc.emi_bound, by simpa [advance] using hc.absop_bound,
    by simpa [advance] using hc.emi_sorted, by simpa [advance] using hc.absop_sorted, ?_, ?_⟩
  · have := hc.base_le_i
    simp only [base_advance_track, advance_i, track_i]; omega
  · simp only [advance_i, track_i]; omega
  · intro hf
    have hf2 : s.is_detecting_emi = true := by simpa [advance] using hf
    obtain ⟨h1, h2, h3⟩ := hc.seek_max hf2
    simp only [base_advance_track, advance_i, advance_mx, advance_mx_pos, advance_emi_peaks,
      advance_absop_peaks, track_i, track_emi, track_absop]
    by_cases hlt : s.mx < x
    · rw [track_mx, if_pos hlt, track_mx_pos, if_pos hlt]
      refine ⟨by linarith, ?_, Or.inl ⟨?_, by omega, hsx⟩⟩
      · intro j hj1 hj2
        rcases (show j < s.i ∨ j = s.i by omega) with h | h
        · linarith [h2 j hj1 h]
        · rw [h, hsx]
      · rcases lt_or_eq_of_le hc.base_le_i with h | h
        · exact h
        · rw [h, hsx] at h1; linarith
    · rw [track_mx, if_neg hlt, track_mx_pos, if_neg hlt]
      refine ⟨h1, ?_, ?_⟩
      · intro j hj1 hj2
        rcases (show j < s.i ∨ j = s.i by omega) with h | h
        · exact h2 j hj1 h
        · rw [h, hsx]; exact not_lt.mp hlt
      · rcases h3 with ⟨a, b, c⟩ | ⟨a, b, c, d⟩ | ⟨a, c, b1, b2, b3, b4⟩
        · exact Or.inl ⟨a, by omega, c⟩
        · exact Or.inr (Or.inl ⟨a, b, c, d⟩)
        · refine Or.inr (Or.inr ⟨a, c, ?_, b2, b3, b4⟩)
          rcases lt_or_eq_of_le b1 with h | h
          · omega
          · exfalso
            rw [← h, hsx] at b4
            rw [a] at hlt
            linarith
  · intro hf
    have hf2 : s.is_detecting_emi = false := by simpa [advance] using hf
    obtain ⟨h1, h2, h3⟩ := hc.seek_min hf2
    simp only [base_advance_track, advance_i, advance_mn, advance_mn_pos, advance_emi_peaks,
      advance_absop_peaks, track_i, track_emi, track_absop]
    by_cases hlt : x < s.mn
    · rw [track_mn, if_pos hlt, track_mn_pos, if_pos hlt]
      refine ⟨by linarith, ?_, Or.inl ⟨?_, by omega, hsx⟩⟩
      · intro j hj1 hj2
        rcases (show j < s.i ∨ j = s.i by omega) with h | h
        · linarith [h2 j hj1 h]
        · rw [h, hsx]
      · rcases lt_or_eq_of_le hc.base_le_i with h | h
        · exact h
        · rw [h, hsx] at h1; linarith
    · rw [track_mn, if_neg hlt, track_mn_pos, if_neg hlt]
      refine ⟨h1, ?_, ?_⟩
      · intro j hj1 hj2
        rcases (show j < s.i ∨ j = s.i by omega) with h | h
        · exact h2 j hj1 h
        · rw [h, hsx]; exact not_lt.mp hlt
      · rcases h3 with ⟨a, b, c⟩ | ⟨a, b, c, d⟩ | ⟨a, a2, c, b1, b2, b3, b4⟩
        · exact Or.inl ⟨a, by omega, c⟩
        · exact Or.inr (Or.inl ⟨a, b, c, d⟩)
        · refine Or.inr (Or.inr ⟨a, a2, c, ?_, b2, b3, b4⟩)
          rcases lt_or_eq_of_le b1 with h | h
          · omega
          · exfalso
            rw [← h, hsx] at b4
            rw [a2] at hlt
            linarith

theorem core_afterEmi {data : List ℚ} {delta : ℚ} {s : State} {x v : ℚ} (hd : 0 < delta)
    (hc : Core data delta s) (hx : readData data s.i = some x)
    (hf : s.is_detecting_emi = true) (ht : x < (track x s).mx - delta)
    (hv : readData data (track x s).mx_pos = some v) :
    Core data delta (advance (afterEmi (track x s) v)) := by
  obtain ⟨hi0, hin, hsx⟩ := readData_eq_some hx
  obtain ⟨e1, e2, ht2, hp, hpi, hpos⟩ := core_emi_trigger hd hc hx hf ht
  obtain ⟨h1, h2, -⟩ := hc.seek_max hf
  rw [e2] at hv
  obtain ⟨hv0, hvn, hvs⟩ := readData_eq_some hv
  have hbp : base s ≤ s.mx_pos := by
    rcases hpos with ⟨a, -⟩ | ⟨a, -⟩
    · exact le_of_lt a
    · rw [a]
  have hb0 := hc.base_nonneg
  refine ⟨?_, ?_, ?_, ?_, ?_, ?_, ?_, ?_, ?_, ?_⟩
  · rw [base_afterEmi, e2]; exact hv0
  · rw [base_afterEmi, e2]; exact hvn
  · rw [base_afterEmi, e2]; simp [advance, afterEmi, e2]
  · simp only [advance, afterEmi, e2]; omega
  · rw [base_afterEmi, e2]
    intro p hpm
    simp only [advance, afterEmi, track_emi, e2, List.mem_append, List.mem_singleton] at hpm
    rcases hpm with h | h
    · have := hc.emi_bound p h
      omega
    · omega
  · rw [base_afterEmi, e2]
    intro p hpm
    simp only [advance, afterEmi, track_absop] at hpm
    have := hc.absop_bound p hpm
    omega
  · simp only [advance, afterEmi, track_emi, e2]
    rw [List.pairwise_append]
    refine ⟨hc.emi_sorted, by simp, ?_⟩
    intro a ha b hb
    rw [List.mem_singleton] at hb
    subst hb
    rcases hpos with ⟨h, -⟩ | ⟨-, h, -⟩
    · have := hc.emi_bound a ha
      omega
    · rw [h] at ha; simp at ha
  · simpa [advance, afterEmi] using hc.absop_sorted
  · intro h; simp [advance, afterEmi] at h
  · intro _
    rw [base_afterEmi, e2]
    simp only [advance, afterEmi, e2, sub_add_cancel]
    refine ⟨by rw [hvs], by intro j a b; omega, Or.inr (Or.inr ⟨trivial, hvs.symm, ?_⟩)⟩
    refine ⟨s.i, hpi, hin, ?_, by rw [hsx, hp]; exact ht2⟩
    intro j hj1 hj2
    rw [hp]
    rcases (show j < s.i ∨ j = s.i by omega) with h | h
    · exact h2 j (by omega) h
    · rw [h, hsx]; linarith

theorem core_afterAbsop {data : List ℚ} {delta : ℚ} {s : State} {x v : ℚ} (hd : 0 < delta)
    (hc : Core data delta s) (hx : readData data s.i = some x)
    (hf : s.is_detecting_emi = false) (ht : x > (track x s).mn + delta)
    (hv : readData data (track x s).mn_pos = some v) :
    Core data delta (advance (afterAbsop (track x s) v)) := by
  obtain ⟨hi0, hin, hsx⟩ := readData_eq_some hx
  obtain ⟨e1, e2, ht2, hp, hpi, hpos⟩ := core_absop_trigger hd hc hx hf ht
  obtain ⟨h1, h2, -⟩ := hc.seek_min hf
  rw [e2] at hv
  obtain ⟨hv0, hvn, hvs⟩ := readData_eq_some hv
  have hbp : base s ≤ s.mn_pos := by
    rcases hpos with ⟨a, -⟩ | ⟨a, -⟩
    · exact le_of_lt a
    · rw [a]
  have hb0 := hc.base_nonneg
  refine ⟨?_, ?_, ?_, ?_, ?_, ?_, ?_, ?_, ?_, ?_⟩
  · rw [base_afterAbsop, e2]; exact hv0
  · rw [base_afterAbsop, e2]; exact hvn
  · rw [base_afterAbsop, e2]; simp [advance, afterAbsop, e2]
  · simp only [advance, afterAbsop, e2]; omega
  · rw [base_afterAbsop, e2]
    intro p hpm
    simp only [advance, afterAbsop, track_emi] at hpm
    have := hc.emi_bound p hpm
    omega
  · rw [base_afterAbsop, e2]
    intro p hpm
    simp only [advance, afterAbsop, track_absop, e2, List.mem_append, List.mem_singleton] at hpm
    rcases hpm with h | h
    · have := hc.absop_bound p h
      omega
    · omega
  · simpa [advance, afterAbsop] using hc.emi_sorted
  · simp only [advance, afterAbsop, track_absop, e2]
    rw [List.pairwise_append]
    refine ⟨hc.absop_sorted, by simp, ?_⟩
    intro a ha b hb
    rw [List.mem_singleton] at hb
    subst hb
    rcases hpos with ⟨h, -⟩ | ⟨-, -, h⟩
    · have := hc.absop_bound a ha
      omega
    · rw [h] at ha; simp at ha
  · intro _
    rw [base_afterAbsop, e2]
    simp only [advance, afterAbsop, e2, sub_add_cancel]
    refine ⟨by rw [hvs], by intro j a b; omega, Or.inr (Or.inr ⟨hvs.symm, ?_⟩)⟩
    refine ⟨s.i, hpi, hin, ?_, by rw [hsx, hp]; exact ht2⟩
    intro j hj1 hj2
    rw [hp]
    rcases (show j < s.i ∨ j = s.i by omega) with h | h
    · exact h2 j (by omega) h
    · rw [h, hsx]; linarith
  · intro h; simp [advance, afterAbsop] at h

/-- The invariant is kept by every iteration that falls through to `++i`. -/
theorem core_next {data : List ℚ} {capE capA : Int} {delta : ℚ} {s t : State} (hd : 0 < delta)
    (hc : Core data delta s) (hb : body data capE capA delta s = .next t) :
    Core data delta (advance t) := by
  obtain ⟨x, hx, h⟩ := body_next hb
  rcases h with ⟨-, -, rfl⟩ | ⟨hf, ht, -, v, hv, rfl⟩ | ⟨hf, ht, -, v, hv, rfl⟩
  · exact core_track hd hc hx
  · exact core_afterEmi hd hc hx hf ht hv
  · exact core_afterAbsop hd hc hx hf ht hv

/-! ## From the loop to `detect_peak` -/

theorem readData_zero {data : List ℚ} (hn : 1 ≤ data.length) :
    readData data 0 = some (sample data 0) :=
  readData_of_lt (le_refl 0) (by omega)

/-- Invariant rule for `detect_peak` on non-empty data. -/
theorem detect_peak_induct {data : List ℚ} {capE capA : Int} {delta : ℚ} {emi_first : Bool}
    (Inv : State → Prop) (Post : Result → Prop) (hn : 1 ≤ data.length)
    (hinit : Inv (initState (sample data 0) emi_first))
    (hnext : ∀ s t, Inv s → s.i < (data.length : Int) →
      body data capE capA delta s = .next t → Inv (advance t))
    (hstop : ∀ s r, Inv s → s.i < (data.length : Int) →
      body data capE capA delta s = .stop r → Post r)
    (hdone : ∀ s, Inv s → ¬ s.i < (data.length : Int) →
      Post ⟨.ret 0, s.emi_peaks, s.absop_peaks⟩) :
    Post (detect_peak data capE capA delta emi_first) := by
  have hret := detect_peak_returns data capE capA delta emi_first
  unfold detect_peak detect_peak_fuel at hret ⊢
  rw [readData_zero hn] at hret ⊢
  simp only at hret ⊢
  exact loop_invariant Inv (fun r => r.exit ≠ .outOfFuel → Post r)
    hnext (fun s r a b c _ => hstop s r a b c) (fun s a b _ => hdone s a b)
    (fun s _ h => absurd rfl h) _ _ hinit hret

/-- The exit of `detect_peak` is a return code 0, 1 or 2, or a read outside the data. -/
theorem detect_peak_exit (data : List ℚ) (capE capA : Int) (delta : ℚ) (emi_first : Bool) :
    (detect_peak data capE capA delta emi_first).exit = .ret 0 ∨
    (detect_peak data capE capA delta emi_first).exit = .ret 1 ∨
    (detect_peak data capE capA delta emi_first).exit = .ret 2 ∨
    ∃ k, (detect_peak data capE capA delta emi_first).exit = .outOfBounds k := by
  by_cases hn : 1 ≤ data.length
  · refine detect_peak_induct (fun _ => True)
      (fun r => r.exit = .ret 0 ∨ r.exit = .ret 1 ∨ r.exit = .ret 2 ∨
        ∃ k, r.exit = .outOfBounds k) hn trivial (fun _ _ _ _ _ => trivial) ?_
      (fun _ _ _ => Or.inl rfl)
    intro s r _ _ hb
    rcases body_stop hb with ⟨-, rfl⟩ | ⟨x, -, h1⟩
    · exact Or.inr (Or.inr (Or.inr ⟨_, rfl⟩))
    · rcases h1 with ⟨-, -, -, rfl⟩ | ⟨-, -, -, -, rfl⟩ | ⟨-, -, -, rfl⟩ | ⟨-, -, -, -, rfl⟩
      · exact Or.inr (Or.inl rfl)
      · exact Or.inr (Or.inr (Or.inr ⟨_, rfl⟩))
      · exact Or.inr (Or.inr (Or.inl rfl))
      · exact Or.inr (Or.inr (Or.inr ⟨_, rfl⟩))
  · have h0 : data = [] := List.length_eq_zero.mp (by omega)
    subst h0
    exact Or.inr (Or.inr (Or.inr ⟨0, by simp [detect_peak, detect_peak_fuel, readData]⟩))

/-! ## Positive `delta`: every read and every recorded index is inside the data -/

theorem core_safe {data : List ℚ} {delta : ℚ} {s : State} (hc : Core data delta s)
    (e : Exit) (he : ∀ k, e ≠ .outOfBounds k) : Safe data ⟨e, s.emi_peaks, s.absop_peaks⟩ := by
  refine ⟨he, ?_, ?_, hc.emi_sorted, hc.absop_sorted⟩
  · intro p hp
    have := hc.emi_bound p hp
    have := hc.base_lt
    constructor <;> omega
  · intro p hp
    have := hc.absop_bound p hp
    have := hc.base_lt
    constructor <;> omega

theorem core_stop {data : List ℚ} {capE capA : Int} {delta : ℚ} {s : State} {r : Result}
    (hd : 0 < delta) (hc : Core data delta s) (hi : s.i < (data.length : Int))
    (hb : body data capE capA delta s = .stop r) :
    (r = ⟨.ret 1, s.emi_peaks, s.absop_peaks⟩ ∧ capE ≤ (s.emi_peaks.length : Int)) ∨
    (r = ⟨.ret 2, s.emi_peaks, s.absop_peaks⟩ ∧ capA ≤ (s.absop_peaks.length : Int)) := by
  have hb0 := hc.base_nonneg
  have hbi := hc.base_le_i
  have hbn := hc.base_lt
  rcases body_stop hb with ⟨h, -⟩ | ⟨x, hx, h1⟩
  · rcases readData_eq_none h with h | h <;> omega
  · rcases h1 with ⟨-, -, h, rfl⟩ | ⟨hf, ht, -, h, -⟩ | ⟨-, -, h, rfl⟩ | ⟨hf, ht, -, h, -⟩
    · exact Or.inl ⟨rfl, h⟩
    · exfalso
      obtain ⟨-, e2, -, -, hpi, hpos⟩ := core_emi_trigger hd hc hx hf ht
      rw [e2] at h
      rcases readData_eq_none h with h | h <;> rcases hpos with ⟨a, b⟩ | ⟨a, -⟩ <;> omega
    · exact Or.inr ⟨rfl, h⟩
    · exfalso
      obtain ⟨-, e2, -, -, hpi, hpos⟩ := core_absop_trigger hd hc hx hf ht
      rw [e2] at h
      rcases readData_eq_none h with h | h <;> rcases hpos with ⟨a, b⟩ | ⟨a, -⟩ <;> omega

/-- For `delta > 0` the result of `detect_peak` on non-empty data is safe. -/
theorem detect_peak_safe {data : List ℚ} (capE capA : Int) {delta : ℚ} (emi_first : Bool)
    (hn : 1 ≤ data.length) (hd : 0 < delta) :
    Safe data (detect_peak data capE capA delta emi_first) := by
  refine detect_peak_induct (Core data delta) (Safe data) hn
    (core_init emi_first (readData_zero hn)) (fun s t hc _ hb => core_next hd hc hb) ?_
    (fun s hc _ => core_safe hc _ (by simp))
  intro s r hc hi hb
  rcases core_stop hd hc hi hb with ⟨rfl, -⟩ | ⟨rfl, -⟩
  · exact core_safe hc _ (by simp)
  · exact core_safe hc _ (by simp)

/-! ## Alternation of the two kinds of peaks (any `delta`) -/

theorem alt_init (v : ℚ) (emi_first : Bool) : Alt emi_first (initState v emi_first) := by
  cases emi_first <;> simp [Alt, initState]

theorem alt_next {data : List ℚ} {capE capA : Int} {delta : ℚ} {emi_first : Bool}
    {s t : State} (ha : Alt emi_first s) (hb : body data capE capA delta s = .next t) :
    Alt emi_first (advance t) := by
  obtain ⟨x, hx, h⟩ := body_next hb
  rcases h with ⟨-, -, rfl⟩ | ⟨hf, -, -, v, -, rfl⟩ | ⟨hf, -, -, v, -, rfl⟩
  · simpa [Alt] using ha
  · have := ha.1 hf
    cases emi_first <;> simp [Alt] at this ⊢ <;> omega
  · have := ha.2 hf
    cases emi_first <;> simp [Alt] at this ⊢ <;> omega

theorem alt_lengths {emi_first : Bool} {s : State} (ha : Alt emi_first s) :
    AltLengths emi_first s.emi_peaks s.absop_peaks := by
  unfold AltLengths
  cases hf : s.is_detecting_emi
  · have := ha.2 hf
    cases emi_first <;> simp at this ⊢ <;> omega
  · have := ha.1 hf
    cases emi_first <;> simp at this ⊢ <;> omega

theorem alt_stop {data : List ℚ} {capE capA : Int} {delta : ℚ} {emi_first : Bool}
    {s : State} {r : Result} (ha : Alt emi_first s)
    (hb : body data capE capA delta s = .stop r) :
    AltLengths emi_first r.emi_peaks r.absop_peaks := by
  have hl := alt_lengths ha
  rcases body_stop hb with ⟨-, rfl⟩ | ⟨x, -, h1⟩
  · exact hl
  · rcases h1 with ⟨-, -, -, rfl⟩ | ⟨hf, -, -, -, rfl⟩ | ⟨-, -, -, rfl⟩ | ⟨hf, -, -, -, rfl⟩
    · exact hl
    · have := ha.1 hf
      unfold AltLengths
      cases emi_first <;> simp at this ⊢ <;> omega
    · exact hl
    · have := ha.2 hf
      unfold AltLengths
      cases emi_first <;> simp at this ⊢ <;> omega

/-- The effect of one loop iteration on the flag and the two lists: either nothing is
confirmed, or a maximum is confirmed while a maximum was sought and a minimum is sought next,
or the mirror image. -/
theorem body_alternates {data : List ℚ} {capE capA : Int} {delta : ℚ} {s t : State}
    (hb : body data capE capA delta s = .next t) :
    (t.is_detecting_emi = s.is_detecting_emi ∧ t.emi_peaks = s.emi_peaks ∧
      t.absop_peaks = s.absop_peaks) ∨
    (s.is_detecting_emi = true ∧ t.is_detecting_emi = false ∧
      (∃ p, t.emi_peaks = s.emi_peaks ++ [p]) ∧ t.absop_peaks = s.absop_peaks) ∨
    (s.is_detecting_emi = false ∧ t.is_detecting_emi = true ∧
      (∃ q, t.absop_peaks = s.absop_peaks ++ [q]) ∧ t.emi_peaks = s.emi_peaks) := by
  obtain ⟨x, hx, h⟩ := body_next hb
  rcases h with ⟨-, -, rfl⟩ | ⟨hf, -, -, v, -, rfl⟩ | ⟨hf, -, -, v, -, rfl⟩
  · exact Or.inl (by simp)
  · exact Or.inr (Or.inl ⟨hf, by simp, ⟨(track x s).mx_pos, by simp⟩, by simp⟩)
  · exact Or.inr (Or.inr ⟨hf, by simp, ⟨(track x s).mn_pos, by simp⟩, by simp⟩)

theorem detect_peak_alt (data : List ℚ) (capE capA : Int) (delta : ℚ) (emi_first : Bool) :
    AltLengths emi_first (detect_peak data capE capA delta emi_first).emi_peaks
      (detect_peak data capE capA delta emi_first).absop_peaks := by
  by_cases hn : 1 ≤ data.length
  · exact detect_peak_induct (Alt emi_first)
      (fun r => AltLengths emi_first r.emi_peaks r.absop_peaks) hn (alt_init _ _)
      (fun s t ha _ hb => alt_next ha hb) (fun s r ha _ hb => alt_stop ha hb)
      (fun s ha _ => alt_lengths ha)
  · have h0 : data = [] := List.length_eq_zero.mp (by omega)
    subst h0
    cases emi_first <;> simp [detect_peak, detect_peak_fuel, readData, AltLengths]

/-! ## Threshold soundness of the recorded maxima -/

theorem getLastD_eq_getElem? (l : List Int) : l.getLastD 0 = (l[l.length - 1]?).getD 0 := by
  rw [List.getLastD_eq_getLast?, List.getLast?_eq_getElem?]

theorem prevAbsop_append {emi_first : Bool} {emi absop : List Int} {k : Nat} (q : Int)
    (hk : k < emi.length)
    (hl : emi.length = absop.length + (if emi_first then 1 else 0)) :
    prevAbsop emi_first (absop ++ [q]) k = prevAbsop emi_first absop k := by
  unfold prevAbsop
  cases emi_first
  · simp only [Bool.false_eq_true, if_false, add_zero] at hl ⊢
    rw [List.getElem?_append_left (by omega)]
  · simp only [if_true] at hl ⊢
    by_cases h0 : k = 0
    · simp [h0]
    · simp only [h0, if_false]
      rw [List.getElem?_append_left (by omega)]

theorem prevAbsop_last {emi_first : Bool} {emi absop : List Int}
    (hl : absop.length = emi.length + (if emi_first then 0 else 1)) :
    prevAbsop emi_first absop emi.length = absop.getLastD 0 := by
  unfold prevAbsop
  rw [getLastD_eq_getElem?]
  cases emi_first
  · simp only [Bool.false_eq_true, if_false] at hl ⊢
    rw [hl]; simp
  · simp only [if_true, add_zero] at hl ⊢
    by_cases h0 : emi.length = 0
    · have : absop = [] := List.length_eq_zero.mp (by omega)
      simp [h0, this]
    · simp only [h0, if_false]
      rw [hl]

theorem maxSound_next {data : List ℚ} {capE capA : Int} {delta : ℚ} {emi_first : Bool}
    {s t : State} (hd : 0 < delta) (hc : Core data delta s) (ha : Alt emi_first s)
    (hm : MaxSound data delta emi_first s.emi_peaks s.absop_peaks)
    (hb : body data capE capA delta s = .next t) :
    MaxSound data delta emi_first (advance t).emi_peaks (advance t).absop_peaks := by
  obtain ⟨x, hx, h⟩ := body_next hb
  obtain ⟨hi0, hin, hsx⟩ := readData_eq_some hx
  rcases h with ⟨-, -, rfl⟩ | ⟨hf, ht, -, v, hv, rfl⟩ | ⟨hf, ht, -, v, hv, rfl⟩
  · simpa using hm
  · obtain ⟨e1, e2, ht2, hp, hpi, hpos⟩ := core_emi_trigger hd hc hx hf ht
    obtain ⟨h1, h2, -⟩ := hc.seek_max hf
    have hbase : base s = s.absop_peaks.getLastD 0 := by simp [base, hf]
    intro k p hk
    simp only [advance_emi_peaks, afterEmi_emi_peaks, advance_absop_peaks,
      afterEmi_absop_peaks, track_emi, track_absop, e2] at hk ⊢
    rcases lt_or_ge k s.emi_peaks.length with hlt | hge
    · rw [List.getElem?_append_left hlt] at hk
      exact hm k p hk
    · rw [List.getElem?_append_right hge] at hk
      have hk0 : k - s.emi_peaks.length = 0 := by
        by_contra hne
        obtain ⟨m, hm2⟩ := Nat.exists_eq_succ_of_ne_zero hne
        rw [hm2] at hk
        simp at hk
      rw [hk0] at hk
      simp only [List.getElem?_cons_zero, Option.some.injEq] at hk
      have hkk : k = s.emi_peaks.length := by omega
      subst hkk
      subst hk
      rw [prevAbsop_last (ha.1 hf), ← hbase]
      have hbp : base s ≤ s.mx_pos := by
        rcases hpos with ⟨a, -⟩ | ⟨a, -⟩
        · exact le_of_lt a
        · rw [a]
      have hall : ∀ j, base s ≤ j → j ≤ s.i → ¬ sample data j > sample data s.mx_pos := by
        intro j hj1 hj2
        rw [hp]
        rcases (show j < s.i ∨ j = s.i by omega) with h | h
        · exact not_lt.mpr (h2 j hj1 h)
        · rw [h, hsx]; exact not_lt.mpr (by linarith)
      have hlt : s.mx_pos < s.i := by
        rcases lt_or_eq_of_le hpi with h | h
        · exact h
        · exfalso
          rw [← h, hp] at hsx
          linarith
      exact ⟨hc.base_nonneg, hbp, fun j a b => hall j a (by omega),
        s.i, hlt, hin, by rw [hsx, hp]; exact ht2, hall⟩
  · intro k p hk
    simp only [advance_emi_peaks, afterAbsop_emi_peaks, advance_absop_peaks,
      afterAbsop_absop_peaks, track_emi, track_absop] at hk ⊢
    have hlt : k < s.emi_peaks.length := (List.getElem?_eq_some_iff.mp hk).1
    rw [prevAbsop_append _ hlt (ha.2 hf)]
    exact hm k p hk

theorem detect_peak_maxSound {data : List ℚ} (capE capA : Int) {delta : ℚ} (emi_first : Bool)
    (hn : 1 ≤ data.length) (hd : 0 < delta) :
    MaxSound data delta emi_first (detect_peak data capE capA delta emi_first).emi_peaks
      (detect_peak data capE capA delta emi_first).absop_peaks := by
  refine detect_peak_induct (SoundInv data delta emi_first)
    (fun r => MaxSound data delta emi_first r.emi_peaks r.absop_peaks) hn
    ⟨core_init emi_first (readData_zero hn), alt_init _ _, ?_⟩
    (fun s t h _ hb => ⟨core_next hd h.core hb, alt_next h.alt hb,
      maxSound_next hd h.core h.alt h.sound hb⟩) ?_ (fun s h _ => h.sound)
  · intro k p hk
    simp [initState] at hk
  · intro s r h hi hb
    rcases core_stop hd h.core hi hb with ⟨rfl, -⟩ | ⟨rfl, -⟩
    · exact h.sound
    · exact h.sound

/-! ## Ordering of the recorded indices -/

theorem getElem?_concat_cases {l : List Int} {p a : Int} {k : Nat}
    (h : (l ++ [p])[k]? = some a) : l[k]? = some a ∨ (k = l.length ∧ a = p) := by
  rcases lt_or_ge k l.length with hlt | hge
  · rw [List.getElem?_append_left hlt] at h
    exact Or.inl h
  · have hk := (List.getElem?_eq_some_iff.mp h).1
    simp only [List.length_append, List.length_singleton] at hk
    have hkk : k = l.length := by omega
    subst hkk
    rw [List.getElem?_concat_length] at h
    exact Or.inr ⟨rfl, (Option.some.inj h).symm⟩

theorem getElem?_mem_of_eq_some {l : List Int} {a : Int} {k : Nat} (h : l[k]? = some a) :
    a ∈ l := by
  obtain ⟨hk, rfl⟩ := List.getElem?_eq_some_iff.mp h
  exact List.getElem_mem hk

theorem zipped_append_first {F S : List Int} {p : Int} (hz : Zipped F S)
    (hl : S.length = F.length) (hp : ∀ a ∈ S, a < p) : Zipped (F ++ [p]) S := by
  refine ⟨?_, ?_⟩
  · intro k a b ha hb
    rcases getElem?_concat_cases ha with h | ⟨h, -⟩
    · exact hz.1 k a b h hb
    · have := (List.getElem?_eq_some_iff.mp hb).1
      omega
  · intro k a b ha hb
    rcases getElem?_concat_cases hb with h | ⟨-, h⟩
    · exact hz.2 k a b ha h
    · rw [h]; exact hp a (getElem?_mem_of_eq_some ha)

theorem zipped_append_second {F S : List Int} {q : Int} (hz : Zipped F S)
    (hl : F.length = S.length + 1) (hq : ∀ a ∈ F, a < q) : Zipped F (S ++ [q]) := by
  refine ⟨?_, ?_⟩
  · intro k a b ha hb
    rcases getElem?_concat_cases hb with h | ⟨-, h⟩
    · exact hz.1 k a b ha h
    · rw [h]; exact hq a (getElem?_mem_of_eq_some ha)
  · intro k a b ha hb
    rcases getElem?_concat_cases ha with h | ⟨h, -⟩
    · exact hz.2 k a b h hb
    · have := (List.getElem?_eq_some_iff.mp hb).1
      omega

theorem interleaved_next {data : List ℚ} {capE capA : Int} {delta : ℚ} {emi_first : Bool}
    {s t : State} (hd : 0 < delta) (hc : Core data delta s) (ha : Alt emi_first s)
    (hz : Interleaved emi_first s.emi_peaks s.absop_peaks)
    (hb : body data capE capA delta s = .next t) :
    Interleaved emi_first (advance t).emi_peaks (advance t).absop_peaks := by
  obtain ⟨x, hx, h⟩ := body_next hb
  rcases h with ⟨-, -, rfl⟩ | ⟨hf, ht, -, v, hv, rfl⟩ | ⟨hf, ht, -, v, hv, rfl⟩
  · simpa using hz
  · obtain ⟨e1, e2, ht2, hp, hpi, hpos⟩ := core_emi_trigger hd hc hx hf ht
    simp only [advance_emi_peaks, afterEmi_emi_peaks, advance_absop_peaks,
      afterEmi_absop_peaks, track_emi, track_absop, e2]
    have hlt : ∀ a ∈ s.absop_peaks, a < s.mx_pos := by
      intro a hmem
      rcases hpos with ⟨h, -⟩ | ⟨-, -, h⟩
      · have := hc.absop_bound a hmem
        omega
      · rw [h] at hmem; simp at hmem
    have hl := ha.1 hf
    unfold Interleaved at hz ⊢
    cases emi_first
    · simp only [Bool.false_eq_true, if_false] at hz hl ⊢
      exact zipped_append_second hz hl hlt
    · simp only [if_true, add_zero] at hz hl ⊢
      exact zipped_append_first hz hl hlt
  · obtain ⟨e1, e2, ht2, hp, hpi, hpos⟩ := core_absop_trigger hd hc hx hf ht
    simp only [advance_emi_peaks, afterAbsop_emi_peaks, advance_absop_peaks,
      afterAbsop_absop_peaks, track_emi, track_absop, e2]
    have hlt : ∀ a ∈ s.emi_peaks, a < s.mn_pos := by
      intro a hmem
      rcases hpos with ⟨h, -⟩ | ⟨-, h, -⟩
      · have := hc.emi_bound a hmem
        omega
      · rw [h] at hmem; simp at hmem
    have hl := ha.2 hf
    unfold Interleaved at hz ⊢
    cases emi_first
    · simp only [Bool.false_eq_true, if_false, add_zero] at hz hl ⊢
      exact zipped_append_first hz hl hlt
    · simp only [if_true] at hz hl ⊢
      exact zipped_append_second hz hl hlt

theorem detect_peak_interleaved {data : List ℚ} (capE capA : Int) {delta : ℚ}
    (emi_first : Bool) (hn : 1 ≤ data.length) (hd : 0 < delta) :
    Interleaved emi_first (detect_peak data capE capA delta emi_first).emi_peaks
      (detect_peak data capE capA delta emi_first).absop_peaks := by
  refine detect_peak_induct (OrderInv data delta emi_first)
    (fun r => Interleaved emi_first r.emi_peaks r.absop_peaks) hn
    ⟨core_init emi_first (readData_zero hn), alt_init _ _, ?_⟩
    (fun s t h _ hb => ⟨core_next hd h.core hb, alt_next h.alt hb,
      interleaved_next hd h.core h.alt h.zip hb⟩) ?_ (fun s h _ => h.zip)
  · cases emi_first <;> simp [Interleaved, Zipped, initState]
  · intro s r h hi hb
    rcases core_stop hd h.core hi hb with ⟨rfl, -⟩ | ⟨rfl, -⟩
    · exact h.zip
    · exact h.zip

/-! ## Positive `delta`: a bound on the number of iterations that ignores the capacities -/

theorem measure_lt {n B B2 r r2 : Nat} (h1 : B2 < B) (h2 : r2 ≤ n) :
    (n + 1) * B2 + r2 < (n + 1) * B + r := by
  have h3 : (n + 1) * (B2 + 1) ≤ (n + 1) * B := Nat.mul_le_mul_left _ h1
  have h4 : (n + 1) * (B2 + 1) = (n + 1) * B2 + (n + 1) := by ring
  omega

theorem progress_decreases {data : List ℚ} {capE capA : Int} {delta : ℚ} {s t : State}
    (hd : 0 < delta) (hc : Core data delta s) (hi : s.i < (data.length : Int))
    (hb : body data capE capA delta s = .next t) :
    progress data (advance t) < progress data s := by
  obtain ⟨x, hx, h⟩ := body_next hb
  have hb0 := hc.base_nonneg
  have hbn := hc.base_lt
  rcases h with ⟨-, -, rfl⟩ | ⟨hf, ht, -, v, hv, rfl⟩ | ⟨hf, ht, -, v, hv, rfl⟩
  · simp only [progress, base_advance_track, advance_i, advance_emi_peaks, advance_absop_peaks,
      track_i, track_emi, track_absop]
    have : ((data.length : Int) - (s.i + 1)).toNat < ((data.length : Int) - s.i).toNat := by
      omega
    omega
  · obtain ⟨e1, e2, ht2, hp, hpi, hpos⟩ := core_emi_trigger hd hc hx hf ht
    simp only [progress, base_afterEmi, advance_i, advance_emi_peaks, advance_absop_peaks,
      afterEmi_emi_peaks, afterEmi_absop_peaks, afterEmi_i, track_emi, track_absop, e2,
      sub_add_cancel, List.append_eq_nil, List.cons_ne_nil, and_false, false_and, if_false]
    apply measure_lt
    · split_ifs with h0
      · omega
      · rcases hpos with ⟨a, b⟩ | ⟨-, a, b⟩
        · omega
        · exact absurd ⟨a, b⟩ h0
    · omega
  · obtain ⟨e1, e2, ht2, hp, hpi, hpos⟩ := core_absop_trigger hd hc hx hf ht
    simp only [progress, base_afterAbsop, advance_i, advance_emi_peaks, advance_absop_peaks,
      afterAbsop_emi_peaks, afterAbsop_absop_peaks, afterAbsop_i, track_emi, track_absop, e2,
      sub_add_cancel, List.append_eq_nil, List.cons_ne_nil, and_false, false_and, if_false]
    apply measure_lt
    · split_ifs with h0
      · omega
      · rcases hpos with ⟨a, b⟩ | ⟨-, a, b⟩
        · omega
        · exact absurd ⟨a, b⟩ h0
    · omega

theorem progress_init_lt (data : List ℚ) (v : ℚ) (emi_first : Bool) :
    progress data (initState v emi_first) < (data.length + 2) * (data.length + 2) := by
  simp only [progress, initState, and_self, if_true]
  have e : (data.length + 2) * (data.length + 2) =
      (data.length + 1) * (data.length + 1) + 2 * data.length + 3 := by ring
  rw [e]
  have : ((data.length : Int) - 1).toNat ≤ data.length := by omega
  omega

/-- For `delta > 0` a budget of `(data_count + 2)²` iterations suffices, whatever the
capacities. -/
theorem detect_peak_fuel_returns {data : List ℚ} (capE capA : Int) {delta : ℚ}
    (emi_first : Bool) (hn : 1 ≤ data.length) (hd : 0 < delta) {fuel : Nat}
    (hfuel : (data.length + 2) * (data.length + 2) ≤ fuel) :
    (detect_peak_fuel fuel data capE capA delta emi_first).exit ≠ .outOfFuel := by
  unfold detect_peak_fuel
  rw [readData_zero hn]
  exact loop_returns (Core data delta) (progress data)
    (fun s t hc hi hb => ⟨core_next hd hc hb, progress_decreases hd hc hi hb⟩) _ _
    (core_init emi_first (readData_zero hn))
    (lt_of_lt_of_le (progress_init_lt data _ emi_first) hfuel)

/-! ## Runs and capacity failures -/

theorem reaches_loop {data : List ℚ} {capE capA : Int} {delta : ℚ} {s0 s : State}
    (h : Reaches data capE capA delta s0 s) :
    ∃ k, ∀ fuel, loop data capE capA delta (fuel + k) s0 = loop data capE capA delta fuel s := by
  induction h with
  | start => exact ⟨0, fun fuel => rfl⟩
  | step _ hi hb ih =>
    obtain ⟨k, hk⟩ := ih
    refine ⟨k + 1, fun fuel => ?_⟩
    have e : fuel + (k + 1) = (fuel + 1) + k := by omega
    rw [e, hk (fuel + 1), loop_next fuel hi hb]

/-- A state reached by the run of `detect_peak` in which the body leaves the function
determines the result. -/
theorem reaches_stop {data : List ℚ} {capE capA : Int} {delta : ℚ} {emi_first : Bool}
    {s : State} {r : Result} (hn : 1 ≤ data.length)
    (h : Reaches data capE capA delta (initState (sample data 0) emi_first) s)
    (hi : s.i < (data.length : Int)) (hb : body data capE capA delta s = .stop r) :
    detect_peak data capE capA delta emi_first = r := by
  obtain ⟨k, hk⟩ := reaches_loop h
  have h1 : detect_peak_fuel (0 + 1 + k) data capE capA delta emi_first = r := by
    unfold detect_peak_fuel
    rw [readData_zero hn]
    simp only
    rw [hk (0 + 1), loop_stop 0 hi hb]
  rw [← h1]
  exact (detect_peak_fuel_eq (by rw [h1]; exact body_stop_exit hb)).symm

theorem body_eq_stop_emi {data : List ℚ} {capE capA : Int} {delta : ℚ} {s : State} {x : ℚ}
    (hx : readData data s.i = some x) (hf : s.is_detecting_emi = true)
    (ht : x < (track x s).mx - delta) (hcap : capE ≤ (s.emi_peaks.length : Int)) :
    body data capE capA delta s = .stop ⟨.ret 1, s.emi_peaks, s.absop_peaks⟩ := by
  simp [body, hx, hf, ht, confirm_emi, hcap]

theorem body_eq_stop_absop {data : List ℚ} {capE capA : Int} {delta : ℚ} {s : State} {x : ℚ}
    (hx : readData data s.i = some x) (hf : s.is_detecting_emi = false)
    (ht : x > (track x s).mn + delta) (hcap : capA ≤ (s.absop_peaks.length : Int)) :
    body data capE capA delta s = .stop ⟨.ret 2, s.emi_peaks, s.absop_peaks⟩ := by
  simp [body, hx, hf, ht, confirm_absop, hcap]

theorem capInv_next {data : List ℚ} {capE capA : Int} {delta : ℚ} {s0 s t : State}
    (h : CapInv data capE capA delta s0 s) (hi : s.i < (data.length : Int))
    (hb : body data capE capA delta s = .next t) : CapInv data capE capA delta s0 (advance t) := by
  refine ⟨Reaches.step h.reached hi hb, ?_, ?_⟩
  · obtain ⟨x, hx, h1⟩ := body_next hb
    have := h.emi_le
    rcases h1 with ⟨-, -, rfl⟩ | ⟨-, -, hcap, v, -, rfl⟩ | ⟨-, -, hcap, v, -, rfl⟩
    · simpa using this
    · simp; omega
    · simpa using this
  · obtain ⟨x, hx, h1⟩ := body_next hb
    have := h.absop_le
    rcases h1 with ⟨-, -, rfl⟩ | ⟨-, -, hcap, v, -, rfl⟩ | ⟨-, -, hcap, v, -, rfl⟩
    · simpa using this
    · simpa using this
    · simp; omega

theorem capInv_stop {data : List ℚ} {capE capA : Int} {delta : ℚ} {s0 s : State} {r : Result}
    (h : CapInv data capE capA delta s0 s) (hi : s.i < (data.length : Int))
    (hb : body data capE capA delta s = .stop r) : CapPost data capE capA delta s0 r := by
  have h1 := h.emi_le
  have h2 := h.absop_le
  rcases body_stop hb with ⟨-, rfl⟩ | ⟨x, hx, h3⟩
  · exact ⟨h1, h2, by simp, by simp⟩
  · rcases h3 with ⟨hf, ht, hcap, rfl⟩ | ⟨-, -, hcap, -, rfl⟩ | ⟨hf, ht, hcap, rfl⟩ |
      ⟨-, -, hcap, -, rfl⟩
    · exact ⟨h1, h2, fun _ => ⟨s, x, h.reached, hi, hx, hf, ht, by omega, rfl, rfl⟩, by simp⟩
    · exact ⟨by simp; omega, h2, by simp, by simp⟩
    · exact ⟨h1, h2, by simp, fun _ => ⟨s, x, h.reached, hi, hx, hf, ht, by omega, rfl, rfl⟩⟩
    · exact ⟨h1, by simp; omega, by simp, by simp⟩

theorem detect_peak_capPost {data : List ℚ} {capE capA : Int} (delta : ℚ) (emi_first : Bool)
    (hn : 1 ≤ data.length) (hE : 0 ≤ capE) (hA : 0 ≤ capA) :
    CapPost data capE capA delta (initState (sample data 0) emi_first)
      (detect_peak data capE capA delta emi_first) := by
  refine detect_peak_induct (CapInv data capE capA delta (initState (sample data 0) emi_first))
    (CapPost data capE capA delta (initState (sample data 0) emi_first)) hn
    ⟨Reaches.start, by simpa [initState] using hE, by simpa [initState] using hA⟩
    (fun s t h hi hb => capInv_next h hi hb) (fun s r h hi hb => capInv_stop h hi hb) ?_
  intro s h _
  exact ⟨h.emi_le, h.absop_le, by simp, by simp⟩

/-! ## No reversal has been missed since the running extremum -/

theorem quiet_init (data : List ℚ) {delta : ℚ} (hd : 0 < delta) (emi_first : Bool) :
    Quiet data delta (initState (sample data 0) emi_first) := by
  have hb : base (initState (sample data 0) emi_first) = 0 := by simp [base, initState]
  constructor
  · intro _ j h0 h1
    rw [hb] at h0
    have : j = 0 := by simp only [initState] at h1; omega
    subst this
    left
    simp only [initState]
    linarith
  · intro _ j h0 h1
    rw [hb] at h0
    have : j = 0 := by simp only [initState] at h1; omega
    subst this
    left
    simp only [initState]
    linarith

theorem quiet_next {data : List ℚ} {capE capA : Int} {delta : ℚ} {s t : State}
    (hq : Quiet data delta s) (hb : body data capE capA delta s = .next t) :
    Quiet data delta (advance t) := by
  obtain ⟨x, hx, h⟩ := body_next hb
  obtain ⟨hi0, hin, hsx⟩ := readData_eq_some hx
  rcases h with ⟨hn1, hn2, rfl⟩ | ⟨hf, ht, -, v, hv, rfl⟩ | ⟨hf, ht, -, v, hv, rfl⟩
  · constructor
    · intro hf j hj1 hj2
      have hf2 : s.is_detecting_emi = true := by simpa using hf
      simp only [base_advance_track, advance_i, advance_mx, advance_mx_pos, track_i] at hj1 hj2 ⊢
      rcases (show j < s.i ∨ j = s.i by omega) with h | h
      · by_cases hlt : s.mx < x
        · right; rw [track_mx_pos, if_pos hlt]; exact h
        · rw [track_mx, if_neg hlt, track_mx_pos, if_neg hlt]
          exact hq.quiet_max hf2 j hj1 h
      · left
        rw [h, hsx]
        have := fun h2 => hn1 ⟨hf2, h2⟩
        exact not_lt.mp this
    · intro hf j hj1 hj2
      have hf2 : s.is_detecting_emi = false := by simpa using hf
      simp only [base_advance_track, advance_i, advance_mn, advance_mn_pos, track_i] at hj1 hj2 ⊢
      rcases (show j < s.i ∨ j = s.i by omega) with h | h
      · by_cases hlt : x < s.mn
        · right; rw [track_mn_pos, if_pos hlt]; exact h
        · rw [track_mn, if_neg hlt, track_mn_pos, if_neg hlt]
          exact hq.quiet_min hf2 j hj1 h
      · left
        rw [h, hsx]
        have := fun h2 => hn2 ⟨hf2, h2⟩
        exact not_lt.mp this
  · constructor
    · intro h; simp at h
    · intro _ j hj1 hj2
      rw [base_afterEmi] at hj1
      simp only [advance_i, afterEmi_i] at hj2
      omega
  · constructor
    · intro _ j hj1 hj2
      rw [base_afterAbsop] at hj1
      simp only [advance_i, afterAbsop_i] at hj2
      omega
    · intro h; simp at h

/-! ## The rescan after a confirmed peak -/

theorem body_eq_next_track {data : List ℚ} {capE capA : Int} {delta : ℚ} {s : State} {x : ℚ}
    (hx : readData data s.i = some x)
    (h1 : ¬ (s.is_detecting_emi = true ∧ x < (track x s).mx - delta))
    (h2 : ¬ (s.is_detecting_emi = false ∧ x > (track x s).mn + delta)) :
    body data capE capA delta s = .next (track x s) := by
  simp only [body, hx, track_flag]
  rw [if_neg h1, if_neg h2]

theorem body_eq_next_emi {data : List ℚ} {capE capA : Int} {delta : ℚ} {s : State} {x v : ℚ}
    (hx : readData data s.i = some x) (hf : s.is_detecting_emi = true)
    (ht : x < (track x s).mx - delta) (hcap : (s.emi_peaks.length : Int) < capE)
    (hv : readData data (track x s).mx_pos = some v) :
    body data capE capA delta s = .next (afterEmi (track x s) v) := by
  simp only [body, hx, track_flag]
  rw [if_pos ⟨hf, ht⟩]
  simp only [confirm_emi, track_emi, hv]
  rw [if_neg (by simpa using hcap)]
  simp [afterEmi]

theorem body_eq_next_absop {data : List ℚ} {capE capA : Int} {delta : ℚ} {s : State} {x v : ℚ}
    (hx : readData data s.i = some x) (hf : s.is_detecting_emi = false)
    (ht : x > (track x s).mn + delta) (hcap : (s.absop_peaks.length : Int) < capA)
    (hv : readData data (track x s).mn_pos = some v) :
    body data capE capA delta s = .next (afterAbsop (track x s) v) := by
  simp only [body, hx, track_flag]
  rw [if_neg (by simp [hf]), if_pos ⟨hf, ht⟩]
  simp only [confirm_absop, track_absop, hv]
  rw [if_neg (by simpa using hcap)]
  simp [afterAbsop]

theorem reaches_head {data : List ℚ} {capE capA : Int} {delta : ℚ} {s t u : State}
    (hi : s.i < (data.length : Int)) (hb : body data capE capA delta s = .next t)
    (h : Reaches data capE capA delta (advance t) u) : Reaches data capE capA delta s u := by
  induction h with
  | start => exact Reaches.step Reaches.start hi hb
  | step _ hi2 hb2 ih => exact Reaches.step ih hi2 hb2

theorem reaches_trans {data : List ℚ} {capE capA : Int} {delta : ℚ} {s t u : State}
    (h1 : Reaches data capE capA delta s t) (h2 : Reaches data capE capA delta t u) :
    Reaches data capE capA delta s u := by
  induction h2 with
  | start => exact h1
  | step _ hi2 hb2 ih => exact Reaches.step ih hi2 hb2

theorem track_keep_mx {x : ℚ} {s : State} (h : ¬ s.mx < x) :
    track x s = { s with mn := if x < s.mn then x else s.mn,
                         mn_pos := if x < s.mn then s.i else s.mn_pos } := by
  have h2 : ¬ x > s.mx := h
  unfold track
  simp only [h2, if_false]
  split_ifs <;> rfl

theorem track_keep_mn {x : ℚ} {s : State} (h : ¬ x < s.mn) :
    track x s = { s with mx := if s.mx < x then x else s.mx,
                         mx_pos := if s.mx < x then s.i else s.mx_pos } := by
  unfold track
  by_cases h2 : x > s.mx
  · have h3 : s.mx < x := h2
    simp only [h2, h3, if_true, h, if_false]
  · have h3 : ¬ s.mx < x := h2
    simp only [h2, h3, if_false, h]

/-- After a maximum has been confirmed at the sample of value `T` by the sample `x` at
position `i`, the rescan up to `i` confirms nothing and ends with the running minimum at
`i`. -/
theorem rescan_min {data : List ℚ} {capE capA : Int} {delta : ℚ} (hd : 0 < delta) {i : Int}
    {x T : ℚ} (hin : i < (data.length : Int)) (hx : sample data i = x)
    (hlow : x < T - delta) :
    ∀ (m : Nat) (s : State), (i - s.i).toNat = m → 0 ≤ s.i → s.i ≤ i →
      s.is_detecting_emi = false → s.mx = T → T - delta ≤ s.mn →
      (∀ j, s.i ≤ j → j < i → T - delta ≤ sample data j ∧ sample data j ≤ T) →
      Reaches data capE capA delta s { s with i := i + 1, mn := x, mn_pos := i } := by
  intro m
  induction m with
  | zero =>
    intro s hm h0 hle hf hT hmn _
    have hsi : s.i = i := by omega
    have hrd : readData data s.i = some x := by
      rw [hsi, readData_of_lt (by omega) hin, hx]
    have hkeep : ¬ s.mx < x := by rw [hT]; linarith
    have hmnlt : x < s.mn := by linarith
    have htr : track x s = { s with mn := x, mn_pos := s.i } := by
      rw [track_keep_mx hkeep]; simp [hmnlt]
    have hb : body data capE capA delta s = .next (track x s) := by
      apply body_eq_next_track hrd
      · simp [hf]
      · rw [htr]; simp only [not_and, not_lt]; intro _; linarith
    have := Reaches.step Reaches.start (by omega) hb
    rw [htr] at this
    simpa [advance, hsi] using this
  | succ m ih =>
    intro s hm h0 hle hf hT hmn hmid
    have hlt : s.i < i := by omega
    obtain ⟨hy1, hy2⟩ := hmid s.i (le_refl _) hlt
    have hrd : readData data s.i = some (sample data s.i) := readData_of_lt h0 (by omega)
    have hkeep : ¬ s.mx < sample data s.i := by rw [hT]; linarith
    have htr := track_keep_mx hkeep
    have hmn2 : T - delta ≤ (track (sample data s.i) s).mn := by
      rw [track_mn]; split_ifs <;> assumption
    have hb : body data capE capA delta s = .next (track (sample data s.i) s) := by
      apply body_eq_next_track hrd
      · simp [hf]
      · simp only [not_and, not_lt]; intro _; linarith
    have hrec := ih (advance (track (sample data s.i) s))
      (by simp only [advance_i, track_i]; omega) (by simp only [advance_i, track_i]; omega)
      (by simp only [advance_i, track_i]; omega) (by simpa using hf)
      (by rw [advance_mx, htr]; exact hT) (by simpa using hmn2)
      (fun j a b => hmid j (by simp only [advance_i, track_i] at a; omega) b)
    have hend : ({ advance (track (sample data s.i) s) with i := i + 1, mn := x, mn_pos := i } :
        State) = { s with i := i + 1, mn := x, mn_pos := i } := by
      rw [htr]; rfl
    rw [hend] at hrec
    exact reaches_head (by omega) hb hrec

/-- After a minimum has been confirmed at the sample of value `T` by the sample `x` at
position `i`, the rescan up to `i` confirms nothing and ends with the running maximum at
`i`: the value that the conversion stored in `mx_pos` is overwritten. -/
theorem rescan_max {data : List ℚ} {capE capA : Int} {delta : ℚ} (hd : 0 < delta) {i : Int}
    {x T : ℚ} (hin : i < (data.length : Int)) (hx : sample data i = x)
    (hhigh : T + delta < x) :
    ∀ (m : Nat) (s : State), (i - s.i).toNat = m → 0 ≤ s.i → s.i ≤ i →
      s.is_detecting_emi = true → s.mn = T → s.mx ≤ T + delta →
      (∀ j, s.i ≤ j → j < i → T ≤ sample data j ∧ sample data j ≤ T + delta) →
      Reaches data capE capA delta s { s with i := i + 1, mx := x, mx_pos := i } := by
  intro m
  induction m with
  | zero =>
    intro s hm h0 hle hf hT hmx _
    have hsi : s.i = i := by omega
    have hrd : readData data s.i = some x := by
      rw [hsi, readData_of_lt (by omega) hin, hx]
    have hkeep : ¬ x < s.mn := by rw [hT]; linarith
    have hmxlt : s.mx < x := by linarith
    have htr : track x s = { s with mx := x, mx_pos := s.i } := by
      rw [track_keep_mn hkeep]; simp [hmxlt]
    have hb : body data capE capA delta s = .next (track x s) := by
      apply body_eq_next_track hrd
      · rw [htr]; simp only [not_and, not_lt]; intro _; linarith
      · simp [hf]
    have := Reaches.step Reaches.start (by omega) hb
    rw [htr] at this
    simpa [advance, hsi] using this
  | succ m ih =>
    intro s hm h0 hle hf hT hmx hmid
    have hlt : s.i < i := by omega
    obtain ⟨hy1, hy2⟩ := hmid s.i (le_refl _) hlt
    have hrd : readData data s.i = some (sample data s.i) := readData_of_lt h0 (by omega)
    have hkeep : ¬ sample data s.i < s.mn := by rw [hT]; linarith
    have htr := track_keep_mn hkeep
    have hmx2 : (track (sample data s.i) s).mx ≤ T + delta := by
      rw [track_mx]; split_ifs <;> assumption
    have hb : body data capE capA delta s = .next (track (sample data s.i) s) := by
      apply body_eq_next_track hrd
      · simp only [not_and, not_lt]; intro _
        have : sample data s.i ≤ (track (sample data s.i) s).mx := by
          rw [track_mx]; split_ifs with h
          · exact le_refl _
          · exact not_lt.mp h
        linarith
      · simp [hf]
    have hrec := ih (advance (track (sample data s.i) s))
      (by simp only [advance_i, track_i]; omega) (by simp only [advance_i, track_i]; omega)
      (by simp only [advance_i, track_i]; omega) (by simpa using hf)
      (by rw [advance_mn, htr]; exact hT) (by simpa using hmx2)
      (fun j a b => hmid j (by simp only [advance_i, track_i] at a; omega) b)
    have hend : ({ advance (track (sample data s.i) s) with i := i + 1, mx := x, mx_pos := i } :
        State) = { s with i := i + 1, mx := x, mx_pos := i } := by
      rw [htr]; rfl
    rw [hend] at hrec
    exact reaches_head (by omega) hb hrec

/-! ## The forward-only scan -/

/-- Every outcome of the forward-only loop body. -/
theorem forward_body_cases (data : List ℚ) (capE capA : Int) (delta : ℚ) (s : State) :
    (readData data s.i = none ∧ forward_body data capE capA delta s =
        .stop ⟨.outOfBounds s.i, s.emi_peaks, s.absop_peaks⟩) ∨
    ∃ x, readData data s.i = some x ∧
      ((¬ (s.is_detecting_emi = true ∧ x < (track x s).mx - delta) ∧
        ¬ (s.is_detecting_emi = false ∧ x > (track x s).mn + delta) ∧
        forward_body data capE capA delta s = .next (track x s)) ∨
       (s.is_detecting_emi = true ∧ x < (track x s).mx - delta ∧
        capE ≤ (s.emi_peaks.length : Int) ∧
        forward_body data capE capA delta s = .stop ⟨.ret 1, s.emi_peaks, s.absop_peaks⟩) ∨
       (s.is_detecting_emi = true ∧ x < (track x s).mx - delta ∧
        (s.emi_peaks.length : Int) < capE ∧
        forward_body data capE capA delta s = .next (forwardEmi (track x s) x)) ∨
       (s.is_detecting_emi = false ∧ x > (track x s).mn + delta ∧
        capA ≤ (s.absop_peaks.length : Int) ∧
        forward_body data capE capA delta s = .stop ⟨.ret 2, s.emi_peaks, s.absop_peaks⟩) ∨
       (s.is_detecting_emi = false ∧ x > (track x s).mn + delta ∧
        (s.absop_peaks.length : Int) < capA ∧
        forward_body data capE capA delta s = .next (forwardAbsop (track x s) x))) := by
  cases hx : readData data s.i with
  | none => exact Or.inl ⟨rfl, by simp [forward_body, hx]⟩
  | some x =>
    refine Or.inr ⟨x, rfl, ?_⟩
    simp only [forward_body, hx, track_flag, track_emi, track_absop]
    by_cases h1 : s.is_detecting_emi = true ∧ x < (track x s).mx - delta
    · rw [if_pos h1]
      by_cases h3 : capE ≤ (s.emi_peaks.length : Int)
      · exact Or.inr (Or.inl ⟨h1.1, h1.2, h3, by rw [if_pos (by simpa using h3)]⟩)
      · exact Or.inr (Or.inr (Or.inl ⟨h1.1, h1.2, not_le.mp h3,
          by rw [if_neg (by simpa using h3)]⟩))
    · rw [if_neg h1]
      by_cases h2 : s.is_detecting_emi = false ∧ x > (track x s).mn + delta
      · rw [if_pos h2]
        by_cases h3 : capA ≤ (s.absop_peaks.length : Int)
        · exact Or.inr (Or.inr (Or.inr (Or.inl ⟨h2.1, h2.2, h3,
            by rw [if_pos (by simpa using h3)]⟩)))
        · exact Or.inr (Or.inr (Or.inr (Or.inr ⟨h2.1, h2.2, not_le.mp h3,
            by rw [if_neg (by simpa using h3)]⟩)))
      · rw [if_neg h2]
        exact Or.inl ⟨h1, h2, rfl⟩

section ForwardLoop

variable {data : List ℚ} {capE capA : Int} {delta : ℚ}

theorem forward_loop_done (fuel : Nat) {s : State} (h : ¬ s.i < (data.length : Int)) :
    forward_loop data capE capA delta fuel s = ⟨.ret 0, s.emi_peaks, s.absop_peaks⟩ := by
  cases fuel <;> simp [forward_loop, h]

theorem forward_loop_stop (fuel : Nat) {s : State} {r : Result}
    (hi : s.i < (data.length : Int)) (hb : forward_body data capE capA delta s = .stop r) :
    forward_loop data capE capA delta (fuel + 1) s = r := by
  simp [forward_loop, hi, hb]

theorem forward_loop_next (fuel : Nat) {s t : State} (hi : s.i < (data.length : Int))
    (hb : forward_body data capE capA delta s = .next t) :
    forward_loop data capE capA delta (fuel + 1) s =
      forward_loop data capE capA delta fuel (advance t) := by
  simp [forward_loop, hi, hb]

theorem forward_body_next_i {s t : State} (hb : forward_body data capE capA delta s = .next t) :
    t.i = s.i := by
  rcases forward_body_cases data capE capA delta s with ⟨-, h⟩ | ⟨x, -, h⟩
  · rw [h] at hb; simp at hb
  · rcases h with ⟨-, -, h⟩ | ⟨-, -, -, h⟩ | ⟨-, -, -, h⟩ | ⟨-, -, -, h⟩ | ⟨-, -, -, h⟩ <;>
      rw [h] at hb <;> simp at hb <;> subst hb <;> simp [forwardEmi, forwardAbsop]

theorem forward_body_stop_exit {s : State} {r : Result}
    (hb : forward_body data capE capA delta s = .stop r) :
    r.exit ≠ .outOfFuel ∧ r.exit ≠ .ret 0 := by
  rcases forward_body_cases data capE capA delta s with ⟨-, h⟩ | ⟨x, -, h⟩
  · rw [h] at hb; simp at hb; subst hb; simp
  · rcases h with ⟨-, -, h⟩ | ⟨-, -, -, h⟩ | ⟨-, -, -, h⟩ | ⟨-, -, -, h⟩ | ⟨-, -, -, h⟩ <;>
      rw [h] at hb <;> simp at hb <;> subst hb <;> simp

/-- The forward-only loop ends within as many iterations as samples remain. -/
theorem forward_loop_returns : ∀ (fuel : Nat) (s : State),
    ((data.length : Int) - s.i).toNat ≤ fuel →
    (forward_loop data capE capA delta fuel s).exit ≠ .outOfFuel := by
  intro fuel
  induction fuel with
  | zero =>
    intro s h
    have hi : ¬ s.i < (data.length : Int) := by omega
    rw [forward_loop_done 0 hi]; simp
  | succ fuel ih =>
    intro s h
    by_cases hi : s.i < (data.length : Int)
    · cases hb : forward_body data capE capA delta s with
      | next t =>
        rw [forward_loop_next fuel hi hb]
        apply ih
        have := forward_body_next_i hb
        simp only [advance_i]
        omega
      | stop r => rw [forward_loop_stop fuel hi hb]; exact (forward_body_stop_exit hb).1
    · rw [forward_loop_done _ hi]; simp

end ForwardLoop

/-! ## For a positive `delta` the rewinding scan and the forward-only scan agree -/

theorem core_reaches {data : List ℚ} {capE capA : Int} {delta : ℚ} {s u : State}
    (hd : 0 < delta) (hc : Core data delta s) (h : Reaches data capE capA delta s u) :
    Core data delta u := by
  induction h with
  | start => exact hc
  | step _ _ hb ih => exact core_next hd ih hb

theorem quiet_reaches {data : List ℚ} {capE capA : Int} {delta : ℚ} {s u : State}
    (hq : Quiet data delta s) (h : Reaches data capE capA delta s u) :
    Quiet data delta u := by
  induction h with
  | start => exact hq
  | step _ _ hb ih => exact quiet_next ih hb

/-- A confirmed maximum followed by its rescan amounts to one step of the forward-only scan. -/
theorem reaches_forwardEmi {data : List ℚ} {capE capA : Int} {delta : ℚ} {s : State} {x : ℚ}
    (hd : 0 < delta) (hc : Core data delta s) (hq : Quiet data delta s)
    (hx : readData data s.i = some x) (hf : s.is_detecting_emi = true)
    (ht : x < (track x s).mx - delta) (hcap : (s.emi_peaks.length : Int) < capE) :
    Reaches data capE capA delta s (advance (forwardEmi (track x s) x)) := by
  obtain ⟨hi0, hin, hsx⟩ := readData_eq_some hx
  obtain ⟨e1, e2, ht2, hp, hpi, hpos⟩ := core_emi_trigger hd hc hx hf ht
  obtain ⟨h1, h2, -⟩ := hc.seek_max hf
  have hb0 := hc.base_nonneg
  have hbp : base s ≤ s.mx_pos := by
    rcases hpos with ⟨a, -⟩ | ⟨a, -⟩
    · exact le_of_lt a
    · rw [a]
  have hv : readData data (track x s).mx_pos = some (sample data s.mx_pos) := by
    rw [e2]; exact readData_of_lt (by omega) (by omega)
  have hb := @body_eq_next_emi data capE capA delta s x _ hx hf ht hcap hv
  have hres := @rescan_min data capE capA delta hd s.i x s.mx hin hsx ht2
    ((s.i - s.mx_pos).toNat) (advance (afterEmi (track x s) (sample data s.mx_pos)))
    (by simp only [advance_i, afterEmi_i, e2]; congr 1; ring)
    (by simp only [advance_i, afterEmi_i, e2]; omega)
    (by simp only [advance_i, afterEmi_i, e2]; omega)
    (by simp) (by simp [e1]) (by simp [hp]; linarith)
    (by
      intro j hj1 hj2
      simp only [advance_i, afterEmi_i, e2, sub_add_cancel] at hj1
      refine ⟨?_, h2 j (by omega) hj2⟩
      rcases hq.quiet_max hf j (by omega) hj2 with h | h
      · exact h
      · omega)
  have hend : ({ advance (afterEmi (track x s) (sample data s.mx_pos)) with
      i := s.i + 1, mn := x, mn_pos := s.i } : State) = advance (forwardEmi (track x s) x) := by
    simp [advance, afterEmi, forwardEmi]
  rw [hend] at hres
  exact reaches_head (by omega) hb hres

/-- A confirmed minimum followed by its rescan amounts to one step of the forward-only scan. -/
theorem reaches_forwardAbsop {data : List ℚ} {capE capA : Int} {delta : ℚ} {s : State} {x : ℚ}
    (hd : 0 < delta) (hc : Core data delta s) (hq : Quiet data delta s)
    (hx : readData data s.i = some x) (hf : s.is_detecting_emi = false)
    (ht : x > (track x s).mn + delta) (hcap : (s.absop_peaks.length : Int) < capA) :
    Reaches data capE capA delta s (advance (forwardAbsop (track x s) x)) := by
  obtain ⟨hi0, hin, hsx⟩ := readData_eq_some hx
  obtain ⟨e1, e2, ht2, hp, hpi, hpos⟩ := core_absop_trigger hd hc hx hf ht
  obtain ⟨h1, h2, -⟩ := hc.seek_min hf
  have hb0 := hc.base_nonneg
  have hbp : base s ≤ s.mn_pos := by
    rcases hpos with ⟨a, -⟩ | ⟨a, -⟩
    · exact le_of_lt a
    · rw [a]
  have hv : readData data (track x s).mn_pos = some (sample data s.mn_pos) := by
    rw [e2]; exact readData_of_lt (by omega) (by omega)
  have hb := @body_eq_next_absop data capE capA delta s x _ hx hf ht hcap hv
  have hres := @rescan_max data capE capA delta hd s.i x s.mn hin hsx ht2
    ((s.i - s.mn_pos).toNat) (advance (afterAbsop (track x s) (sample data s.mn_pos)))
    (by simp only [advance_i, afterAbsop_i, e2]; congr 1; ring)
    (by simp only [advance_i, afterAbsop_i, e2]; omega)
    (by simp only [advance_i, afterAbsop_i, e2]; omega)
    (by simp) (by simp [e1]) (by simp [hp]; linarith)
    (by
      intro j hj1 hj2
      simp only [advance_i, afterAbsop_i, e2, sub_add_cancel] at hj1
      refine ⟨h2 j (by omega) hj2, ?_⟩
      rcases hq.quiet_min hf j (by omega) hj2 with h | h
      · exact h
      · omega)
  have hend : ({ advance (afterAbsop (track x s) (sample data s.mn_pos)) with
      i := s.i + 1, mx := x, mx_pos := s.i } : State) = advance (forwardAbsop (track x s) x) := by
    simp [advance, afterAbsop, forwardAbsop]
  rw [hend] at hres
  exact reaches_head (by omega) hb hres

/-- One step of the forward-only scan that falls through is matched by one or more steps of
the rewinding scan. -/
theorem forward_sim_next {data : List ℚ} {capE capA : Int} {delta : ℚ} {s t : State}
    (hd : 0 < delta) (hc : Core data delta s) (hq : Quiet data delta s)
    (hi : s.i < (data.length : Int))
    (hb : forward_body data capE capA delta s = .next t) :
    Reaches data capE capA delta s (advance t) := by
  rcases forward_body_cases data capE capA delta s with ⟨-, h⟩ | ⟨x, hx, h⟩
  · rw [h] at hb; simp at hb
  · rcases h with ⟨h1, h2, h⟩ | ⟨-, -, -, h⟩ | ⟨hf, ht, hcap, h⟩ | ⟨-, -, -, h⟩ |
      ⟨hf, ht, hcap, h⟩
    · rw [h] at hb; simp only [Step.next.injEq] at hb; subst hb
      exact Reaches.step Reaches.start hi (body_eq_next_track hx h1 h2)
    · rw [h] at hb; simp at hb
    · rw [h] at hb; simp only [Step.next.injEq] at hb; subst hb
      exact reaches_forwardEmi hd hc hq hx hf ht hcap
    · rw [h] at hb; simp at hb
    · rw [h] at hb; simp only [Step.next.injEq] at hb; subst hb
      exact reaches_forwardAbsop hd hc hq hx hf ht hcap

/-- A step of the forward-only scan that leaves the function is a step of the rewinding scan
that leaves it in the same way. -/
theorem forward_sim_stop {data : List ℚ} {capE capA : Int} {delta : ℚ} {s : State}
    {r : Result} (hb : forward_body data capE capA delta s = .stop r) :
    body data capE capA delta s = .stop r := by
  rcases forward_body_cases data capE capA delta s with ⟨hx, h⟩ | ⟨x, hx, h⟩
  · rw [h] at hb; simp only [Step.stop.injEq] at hb; subst hb
    simp [body, hx]
  · rcases h with ⟨-, -, h⟩ | ⟨hf, ht, hcap, h⟩ | ⟨-, -, -, h⟩ | ⟨hf, ht, hcap, h⟩ |
      ⟨-, -, -, h⟩
    · rw [h] at hb; simp at hb
    · rw [h] at hb; simp only [Step.stop.injEq] at hb; subst hb
      exact body_eq_stop_emi hx hf ht hcap
    · rw [h] at hb; simp at hb
    · rw [h] at hb; simp only [Step.stop.injEq] at hb; subst hb
      exact body_eq_stop_absop hx hf ht hcap
    · rw [h] at hb; simp at hb

theorem loop_eq_forward {data : List ℚ} {capE capA : Int} {delta : ℚ} (hd : 0 < delta) :
    ∀ (f : Nat) (s : State), Core data delta s → Quiet data delta s →
      (forward_loop data capE capA delta f s).exit ≠ .outOfFuel →
      ∃ F, loop data capE capA delta F s = forward_loop data capE capA delta f s := by
  intro f
  induction f with
  | zero =>
    intro s _ _ h
    by_cases hi : s.i < (data.length : Int)
    · simp [forward_loop, hi] at h
    · exact ⟨0, by rw [loop_done 0 hi, forward_loop_done 0 hi]⟩
  | succ f ih =>
    intro s hc hq h
    by_cases hi : s.i < (data.length : Int)
    · cases hb : forward_body data capE capA delta s with
      | next t =>
        rw [forward_loop_next f hi hb] at h ⊢
        have hr := forward_sim_next hd hc hq hi hb
        obtain ⟨F, hF⟩ := ih (advance t) (core_reaches hd hc hr) (quiet_reaches hq hr) h
        obtain ⟨k, hk⟩ := reaches_loop hr
        exact ⟨F + k, by rw [hk F, hF]⟩
      | stop r =>
        rw [forward_loop_stop f hi hb]
        exact ⟨1, loop_stop 0 hi (forward_sim_stop hb)⟩
    · exact ⟨0, by rw [loop_done 0 hi, forward_loop_done _ hi]⟩

/-- For `delta > 0`, `detect_peak` returns what the single forward pass returns. -/
theorem detect_peak_eq_forward {data : List ℚ} (capE capA : Int) {delta : ℚ}
    (emi_first : Bool) (hn : 1 ≤ data.length) (hd : 0 < delta) :
    detect_peak data capE capA delta emi_first =
      detect_peak_forward data capE capA delta emi_first := by
  have hret : (forward_loop data capE capA delta data.length
      (initState (sample data 0) emi_first)).exit ≠ .outOfFuel :=
    forward_loop_returns _ _ (by simp only [initState]; omega)
  obtain ⟨F, hF⟩ := loop_eq_forward hd data.length (initState (sample data 0) emi_first)
    (core_init emi_first (readData_zero hn)) (quiet_init data hd emi_first) hret
  have h1 : detect_peak_fuel F data capE capA delta emi_first =
      detect_peak_forward data capE capA delta emi_first := by
    unfold detect_peak_fuel detect_peak_forward
    rw [readData_zero hn]
    exact hF
  rw [← h1]
  refine (detect_peak_fuel_eq ?_).symm
  rw [h1]
  unfold detect_peak_forward
  rw [readData_zero hn]
  exact hret

/-! ## The two modes compared on the forward-only scan -/

theorem track_withPeaks (E A : List Int) (x : ℚ) (s : State) :
    track x (withPeaks E A s) = withPeaks E A (track x s) := by
  unfold track withPeaks; dsimp only; split_ifs <;> rfl

theorem track_seekMin (x : ℚ) (s : State) : track x (seekMin s) = seekMin (track x s) := by
  unfold track seekMin; dsimp only; split_ifs <;> rfl

section ForwardCompute

variable {data : List ℚ} {capE capA : Int} {delta : ℚ}

theorem forward_body_eq_track {s : State} {x : ℚ} (hx : readData data s.i = some x)
    (h1 : ¬ (s.is_detecting_emi = true ∧ x < (track x s).mx - delta))
    (h2 : ¬ (s.is_detecting_emi = false ∧ x > (track x s).mn + delta)) :
    forward_body data capE capA delta s = .next (track x s) := by
  simp only [forward_body, hx, track_flag]
  rw [if_neg h1, if_neg h2]

theorem forward_body_eq_emi {s : State} {x : ℚ} (hx : readData data s.i = some x)
    (hf : s.is_detecting_emi = true) (ht : x < (track x s).mx - delta)
    (hcap : (s.emi_peaks.length : Int) < capE) :
    forward_body data capE capA delta s = .next (forwardEmi (track x s) x) := by
  simp only [forward_body, hx, track_flag, track_emi]
  rw [if_pos ⟨hf, ht⟩, if_neg (by simpa using hcap)]

theorem forward_body_eq_stop_emi {s : State} {x : ℚ} (hx : readData data s.i = some x)
    (hf : s.is_detecting_emi = true) (ht : x < (track x s).mx - delta)
    (hcap : capE ≤ (s.emi_peaks.length : Int)) :
    forward_body data capE capA delta s = .stop ⟨.ret 1, s.emi_peaks, s.absop_peaks⟩ := by
  simp only [forward_body, hx, track_flag, track_emi, track_absop]
  rw [if_pos ⟨hf, ht⟩, if_pos (by simpa using hcap)]

theorem forward_body_eq_absop {s : State} {x : ℚ} (hx : readData data s.i = some x)
    (hf : s.is_detecting_emi = false) (ht : x > (track x s).mn + delta)
    (hcap : (s.absop_peaks.length : Int) < capA) :
    forward_body data capE capA delta s = .next (forwardAbsop (track x s) x) := by
  simp only [forward_body, hx, track_flag, track_absop]
  rw [if_neg (by simp [hf]), if_pos ⟨hf, ht⟩, if_neg (by simpa using hcap)]

theorem forward_body_eq_stop_absop {s : State} {x : ℚ} (hx : readData data s.i = some x)
    (hf : s.is_detecting_emi = false) (ht : x > (track x s).mn + delta)
    (hcap : capA ≤ (s.absop_peaks.length : Int)) :
    forward_body data capE capA delta s = .stop ⟨.ret 2, s.emi_peaks, s.absop_peaks⟩ := by
  simp only [forward_body, hx, track_flag, track_emi, track_absop]
  rw [if_neg (by simp [hf]), if_pos ⟨hf, ht⟩, if_pos (by simpa using hcap)]

/-- Two forward-only runs whose states differ only by peaks recorded earlier stay in step: if
both succeed, their results differ by the same earlier peaks. -/
theorem forward_loop_withPeaks (E A : List Int) : ∀ (f : Nat) (s : State),
    (forward_loop data capE capA delta f (withPeaks E A s)).exit = .ret 0 →
    (forward_loop data capE capA delta f s).exit = .ret 0 →
    (forward_loop data capE capA delta f (withPeaks E A s)).emi_peaks =
        E ++ (forward_loop data capE capA delta f s).emi_peaks ∧
    (forward_loop data capE capA delta f (withPeaks E A s)).absop_peaks =
        A ++ (forward_loop data capE capA delta f s).absop_peaks := by
  intro f
  induction f with
  | zero =>
    intro s h1 h2
    by_cases hi : s.i < (data.length : Int)
    · simp [forward_loop, hi] at h2
    · have hi2 : ¬ (withPeaks E A s).i < (data.length : Int) := hi
      rw [forward_loop_done 0 hi, forward_loop_done 0 hi2]
      exact ⟨rfl, rfl⟩
  | succ f ih =>
    intro s h1 h2
    by_cases hi : s.i < (data.length : Int)
    · have hi2 : (withPeaks E A s).i < (data.length : Int) := hi
      rcases forward_body_cases data capE capA delta s with ⟨-, h⟩ | ⟨x, hx, h⟩
      · rw [forward_loop_stop f hi h] at h2; simp at h2
      · have hx2 : readData data (withPeaks E A s).i = some x := hx
        rcases h with ⟨c1, c2, h⟩ | ⟨-, -, -, h⟩ | ⟨hf, ht, hcap, h⟩ | ⟨-, -, -, h⟩ |
          ⟨hf, ht, hcap, h⟩
        · have hb2 : forward_body data capE capA delta (withPeaks E A s) =
              .next (withPeaks E A (track x s)) := by
            rw [← track_withPeaks]
            apply forward_body_eq_track hx2
            · rw [track_withPeaks]; exact c1
            · rw [track_withPeaks]; exact c2
          rw [forward_loop_next f hi h] at h2 ⊢
          rw [forward_loop_next f hi2 hb2] at h1 ⊢
          exact ih (advance (track x s)) h1 h2
        · rw [forward_loop_stop f hi h] at h2; simp at h2
        · by_cases hc2 : capE ≤ ((withPeaks E A s).emi_peaks.length : Int)
          · have hb2 := @forward_body_eq_stop_emi data capE capA delta _ x hx2 hf
              (by rw [track_withPeaks]; exact ht) hc2
            rw [forward_loop_stop f hi2 hb2] at h1; simp at h1
          · have hb2 := @forward_body_eq_emi data capE capA delta _ x hx2 hf
              (by rw [track_withPeaks]; exact ht) (not_le.mp hc2)
            have e : advance (forwardEmi (track x (withPeaks E A s)) x) =
                withPeaks E A (advance (forwardEmi (track x s) x)) := by
              rw [track_withPeaks]; simp [advance, forwardEmi, withPeaks]
            rw [forward_loop_next f hi h] at h2 ⊢
            rw [forward_loop_next f hi2 hb2, e] at h1 ⊢
            exact ih _ h1 h2
        · rw [forward_loop_stop f hi h] at h2; simp at h2
        · by_cases hc2 : capA ≤ ((withPeaks E A s).absop_peaks.length : Int)
          · have hb2 := @forward_body_eq_stop_absop data capE capA delta _ x hx2 hf
              (by rw [track_withPeaks]; exact ht) hc2
            rw [forward_loop_stop f hi2 hb2] at h1; simp at h1
          · have hb2 := @forward_body_eq_absop data capE capA delta _ x hx2 hf
              (by rw [track_withPeaks]; exact ht) (not_le.mp hc2)
            have e : advance (forwardAbsop (track x (withPeaks E A s)) x) =
                withPeaks E A (advance (forwardAbsop (track x s) x)) := by
              rw [track_withPeaks]; simp [advance, forwardAbsop, withPeaks]
            rw [forward_loop_next f hi h] at h2 ⊢
            rw [forward_loop_next f hi2 hb2, e] at h1 ⊢
            exact ih _ h1 h2
    · have hi2 : ¬ (withPeaks E A s).i < (data.length : Int) := hi
      rw [forward_loop_done _ hi, forward_loop_done _ hi2]
      exact ⟨rfl, rfl⟩

end ForwardCompute

/-- Before the first confirmation the two modes scan in step with the same running extrema,
which are at most `delta` apart; the first confirmation in either mode puts the two runs in
the same state up to that one peak. -/
theorem forward_loop_modes {data : List ℚ} {capE capA : Int} {delta : ℚ} (hd : 0 < delta) :
    ∀ (f : Nat) (s : State), s.is_detecting_emi = true → s.emi_peaks = [] →
      s.absop_peaks = [] → s.mx - s.mn ≤ delta →
      (forward_loop data capE capA delta f s).exit = .ret 0 →
      (forward_loop data capE capA delta f (seekMin s)).exit = .ret 0 →
      ModeRel (forward_loop data capE capA delta f s)
        (forward_loop data capE capA delta f (seekMin s)) := by
  intro f
  induction f with
  | zero =>
    intro s _ _ _ _ h1 _
    by_cases hi : s.i < (data.length : Int)
    · simp [forward_loop, hi] at h1
    · have hi2 : ¬ (seekMin s).i < (data.length : Int) := hi
      rw [forward_loop_done 0 hi, forward_loop_done 0 hi2]
      exact Or.inl ⟨rfl, rfl⟩
  | succ f ih =>
    intro s hf hE hA hJ h1 h2
    by_cases hi : s.i < (data.length : Int)
    · have hi2 : (seekMin s).i < (data.length : Int) := hi
      have hf2 : (seekMin s).is_detecting_emi = false := rfl
      rcases forward_body_cases data capE capA delta s with ⟨-, h⟩ | ⟨x, hx, h⟩
      · rw [forward_loop_stop f hi h] at h1; simp at h1
      · have hx2 : readData data (seekMin s).i = some x := hx
        have hmx2 : (track x (seekMin s)).mx = (track x s).mx := by rw [track_seekMin]; rfl
        have hmn2 : (track x (seekMin s)).mn = (track x s).mn := by rw [track_seekMin]; rfl
        rcases h with ⟨c1, -, h⟩ | ⟨-, -, -, h⟩ | ⟨-, ht, -, h⟩ | ⟨hf3, -, -, -⟩ |
          ⟨hf3, -, -, -⟩
        · have c1b : (track x s).mx - delta ≤ x := not_lt.mp (fun h3 => c1 ⟨hf, h3⟩)
          by_cases c2 : x > (track x s).mn + delta
          · have hmn : ¬ x < s.mn := by
              intro h3
              rw [track_mn, if_pos h3] at c2
              linarith
            have hmx : s.mx < x := by
              rw [track_mn, if_neg hmn] at c2
              linarith
            by_cases hc2 : capA ≤ ((seekMin s).absop_peaks.length : Int)
            · have hb2 := @forward_body_eq_stop_absop data capE capA delta _ x hx2 hf2
                (by rw [hmn2]; exact c2) hc2
              rw [forward_loop_stop f hi2 hb2] at h2; simp at h2
            · have hb2 := @forward_body_eq_absop data capE capA delta _ x hx2 hf2
                (by rw [hmn2]; exact c2) (not_le.mp hc2)
              have e : advance (forwardAbsop (track x (seekMin s)) x) =
                  withPeaks [] [(track x s).mn_pos] (advance (track x s)) := by
                rw [track_seekMin, track_keep_mn hmn]
                simp [advance, forwardAbsop, withPeaks, seekMin, hmx, hf, hE, hA]
              rw [forward_loop_next f hi h] at h1 ⊢
              rw [forward_loop_next f hi2 hb2, e] at h2 ⊢
              obtain ⟨r1, r2⟩ := forward_loop_withPeaks [] [(track x s).mn_pos] f _ h2 h1
              exact Or.inr (Or.inl ⟨(track x s).mn_pos, by simpa using r1, by simpa using r2⟩)
          · have hb2 : forward_body data capE capA delta (seekMin s) =
                .next (track x (seekMin s)) := by
              apply forward_body_eq_track hx2
              · simp [hf2]
              · rw [hmn2]; exact fun h3 => c2 h3.2
            have e : advance (track x (seekMin s)) = seekMin (advance (track x s)) := by
              rw [track_seekMin]; rfl
            rw [forward_loop_next f hi h] at h1 ⊢
            rw [forward_loop_next f hi2 hb2, e] at h2 ⊢
            refine ih (advance (track x s)) (by simpa using hf) (by simpa using hE)
              (by simpa using hA) ?_ h1 h2
            simp only [advance_mx, advance_mn]
            rw [track_mx, track_mn] at *
            split_ifs at * <;> linarith
        · rw [forward_loop_stop f hi h] at h1; simp at h1
        · have hmx : ¬ s.mx < x := by
            intro h3
            rw [track_mx, if_pos h3] at ht
            linarith
          have hmn : x < s.mn := by
            rw [track_mx, if_neg hmx] at ht
            linarith
          have hb2 : forward_body data capE capA delta (seekMin s) =
              .next (track x (seekMin s)) := by
            apply forward_body_eq_track hx2
            · simp [hf2]
            · rw [hmn2, track_mn, if_pos hmn]
              simp only [not_and, not_lt]; intro _; linarith
          have e : advance (forwardEmi (track x s) x) =
              withPeaks [(track x s).mx_pos] [] (advance (track x (seekMin s))) := by
            rw [track_seekMin, track_keep_mx hmx]
            simp [advance, forwardEmi, withPeaks, seekMin, hmn, hE, hA]
          rw [forward_loop_next f hi h, e] at h1 ⊢
          rw [forward_loop_next f hi2 hb2] at h2 ⊢
          obtain ⟨r1, r2⟩ := forward_loop_withPeaks [(track x s).mx_pos] [] f _ h1 h2
          exact Or.inr (Or.inr ⟨(track x s).mx_pos, by simpa using r2.symm, by simpa using r1⟩)
        · rw [hf] at hf3; simp at hf3
        · rw [hf] at hf3; simp at hf3
    · have hi2 : ¬ (seekMin s).i < (data.length : Int) := hi
      rw [forward_loop_done _ hi, forward_loop_done _ hi2]
      exact Or.inl ⟨rfl, rfl⟩

/-- For `delta > 0`, when both modes succeed their results agree up to one leading peak. -/
theorem detect_peak_modes {data : List ℚ} (capE capA : Int) {delta : ℚ}
    (hn : 1 ≤ data.length) (hd : 0 < delta)
    (h1 : (detect_peak data capE capA delta true).exit = .ret 0)
    (h2 : (detect_peak data capE capA delta false).exit = .ret 0) :
    ModeRel (detect_peak data capE capA delta true) (detect_peak data capE capA delta false) := by
  rw [detect_peak_eq_forward capE capA true hn hd] at h1 ⊢
  rw [detect_peak_eq_forward capE capA false hn hd] at h2 ⊢
  unfold detect_peak_forward at h1 h2 ⊢
  rw [readData_zero hn] at h1 h2 ⊢
  exact forward_loop_modes hd data.length (initState (sample data 0) true) rfl rfl rfl
    (by simp only [initState]; linarith) h1 h2

/-! ## Capacities only decide whether a run fails -/

theorem body_stop_exit_ne_zero {data : List ℚ} {capE capA : Int} {delta : ℚ} {s : State}
    {r : Result} (h : body data capE capA delta s = .stop r) : r.exit ≠ .ret 0 := by
  rcases body_stop h with ⟨-, rfl⟩ | ⟨x, -, h1⟩
  · simp
  · rcases h1 with ⟨-, -, -, rfl⟩ | ⟨-, -, -, -, rfl⟩ | ⟨-, -, -, rfl⟩ | ⟨-, -, -, -, rfl⟩ <;> simp

theorem body_cap_mono {data : List ℚ} {capE capA capE2 capA2 : Int} {delta : ℚ} {s t : State}
    (hE : capE ≤ capE2) (hA : capA ≤ capA2) (hb : body data capE capA delta s = .next t) :
    body data capE2 capA2 delta s = .next t := by
  obtain ⟨x, hx, h⟩ := body_next hb
  rcases h with ⟨h1, h2, rfl⟩ | ⟨hf, ht, hcap, v, hv, rfl⟩ | ⟨hf, ht, hcap, v, hv, rfl⟩
  · exact body_eq_next_track hx h1 h2
  · exact body_eq_next_emi hx hf ht (by omega) hv
  · exact body_eq_next_absop hx hf ht (by omega) hv

theorem loop_cap_mono {data : List ℚ} {capE capA capE2 capA2 : Int} {delta : ℚ}
    (hE : capE ≤ capE2) (hA : capA ≤ capA2) : ∀ (fuel : Nat) (s : State),
    (loop data capE capA delta fuel s).exit = .ret 0 →
    loop data capE2 capA2 delta fuel s = loop data capE capA delta fuel s := by
  intro fuel
  induction fuel with
  | zero =>
    intro s h
    by_cases hi : s.i < (data.length : Int)
    · simp [loop, hi] at h
    · rw [loop_done 0 hi, loop_done 0 hi]
  | succ fuel ih =>
    intro s h
    by_cases hi : s.i < (data.length : Int)
    · cases hb : body data capE capA delta s with
      | next t =>
        rw [loop_next fuel hi hb] at h
        rw [loop_next fuel hi hb, loop_next fuel hi (body_cap_mono hE hA hb)]
        exact ih _ h
      | stop r =>
        rw [loop_stop fuel hi hb] at h
        exact absurd h (body_stop_exit_ne_zero hb)
    · rw [loop_done _ hi, loop_done _ hi]

/-- A successful run returns the same result with any larger capacities. -/
theorem detect_peak_cap_mono {data : List ℚ} {capE capA capE2 capA2 : Int} {delta : ℚ}
    {emi_first : Bool} (hE : capE ≤ capE2) (hA : capA ≤ capA2)
    (h : (detect_peak data capE capA delta emi_first).exit = .ret 0) :
    detect_peak data capE2 capA2 delta emi_first = detect_peak data capE capA delta emi_first := by
  have key : detect_peak_fuel (iterations data capE capA) data capE2 capA2 delta emi_first =
      detect_peak data capE capA delta emi_first := by
    unfold detect_peak detect_peak_fuel at h ⊢
    split
    · rfl
    · rename_i v hv
      simp only [hv] at h
      exact loop_cap_mono hE hA _ _ h
  rw [← key]
  refine (detect_peak_fuel_eq ?_).symm
  rw [key, h]
  simp

/-! ## Strictly increasing data -/

theorem sample_eq_getElem {data : List ℚ} {k : Nat} (h : k < data.length) :
    sample data (k : Int) = data[k] := by
  have h0 : ¬ ((k : Int) < 0) := by omega
  simp [sample, readData, h0, List.getElem?_eq_getElem h]

theorem sample_lt_of_pairwise {data : List ℚ} (hinc : data.Pairwise (· < ·)) {a b : Int}
    (ha : 0 ≤ a) (hab : a < b) (hb : b < (data.length : Int)) :
    sample data a < sample data b := by
  obtain ⟨k, rfl⟩ := Int.eq_ofNat_of_zero_le ha
  obtain ⟨m, rfl⟩ := Int.eq_ofNat_of_zero_le (by omega : 0 ≤ b)
  have hk : k < data.length := by omega
  have hm : m < data.length := by omega
  rw [sample_eq_getElem hk, sample_eq_getElem hm]
  exact List.pairwise_iff_getElem.mp hinc k m hk hm (by omega)

theorem sample_mem {data : List ℚ} {a : Int} (ha : 0 ≤ a) (hb : a < (data.length : Int)) :
    sample data a ∈ data := by
  obtain ⟨k, rfl⟩ := Int.eq_ofNat_of_zero_le ha
  have hk : k < data.length := by omega
  rw [sample_eq_getElem hk]
  exact List.getElem_mem hk

theorem exists_sample_of_mem {data : List ℚ} {x : ℚ} (h : x ∈ data) :
    ∃ j : Int, 0 ≤ j ∧ j < (data.length : Int) ∧ sample data j = x := by
  obtain ⟨k, hk, rfl⟩ := List.getElem_of_mem h
  exact ⟨(k : Int), by omega, by omega, sample_eq_getElem hk⟩

/-! ## Threshold soundness of the recorded minima -/

theorem prevEmi_append {emi_first : Bool} {emi absop : List Int} {k : Nat} (p : Int)
    (hk : k < absop.length)
    (hl : absop.length = emi.length + (if emi_first then 0 else 1)) :
    prevEmi emi_first (emi ++ [p]) k = prevEmi emi_first emi k := by
  unfold prevEmi
  cases emi_first
  · simp only [Bool.false_eq_true, if_false] at hl ⊢
    by_cases h0 : k = 0
    · simp [h0]
    · simp only [h0, if_false]
      rw [List.getElem?_append_left (by omega)]
  · simp only [if_true, add_zero] at hl ⊢
    rw [List.getElem?_append_left (by omega)]

theorem prevEmi_last {emi_first : Bool} {emi absop : List Int}
    (hl : emi.length = absop.length + (if emi_first then 1 else 0)) :
    prevEmi emi_first emi absop.length = emi.getLastD 0 := by
  unfold prevEmi
  rw [getLastD_eq_getElem?]
  cases emi_first
  · simp only [Bool.false_eq_true, if_false, add_zero] at hl ⊢
    by_cases h0 : absop.length = 0
    · have : emi = [] := List.length_eq_zero.mp (by omega)
      simp [h0, this]
    · simp only [h0, if_false]
      rw [hl]
  · simp only [if_true] at hl ⊢
    rw [hl]; simp

theorem minSound_next {data : List ℚ} {capE capA : Int} {delta : ℚ} {emi_first : Bool}
    {s t : State} (hd : 0 < delta) (hc : Core data delta s) (ha : Alt emi_first s)
    (hm : MinSound data delta emi_first s.emi_peaks s.absop_peaks)
    (hb : body data capE capA delta s = .next t) :
    MinSound data delta emi_first (advance t).emi_peaks (advance t).absop_peaks := by
  obtain ⟨x, hx, h⟩ := body_next hb
  obtain ⟨hi0, hin, hsx⟩ := readData_eq_some hx
  rcases h with ⟨-, -, rfl⟩ | ⟨hf, ht, -, v, hv, rfl⟩ | ⟨hf, ht, -, v, hv, rfl⟩
  · simpa using hm
  · intro k q hk
    simp only [advance_emi_peaks, afterEmi_emi_peaks, advance_absop_peaks,
      afterEmi_absop_peaks, track_emi, track_absop] at hk ⊢
    have hlt : k < s.absop_peaks.length := (List.getElem?_eq_some_iff.mp hk).1
    rw [prevEmi_append _ hlt (ha.1 hf)]
    exact hm k q hk
  · obtain ⟨e1, e2, ht2, hp, hpi, hpos⟩ := core_absop_trigger hd hc hx hf ht
    obtain ⟨h1, h2, -⟩ := hc.seek_min hf
    have hbase : base s = s.emi_peaks.getLastD 0 := by simp [base, hf]
    intro k q hk
    simp only [advance_emi_peaks, afterAbsop_emi_peaks, advance_absop_peaks,
      afterAbsop_absop_peaks, track_emi, track_absop, e2] at hk ⊢
    rcases getElem?_concat_cases hk with hk2 | ⟨hkk, hq⟩
    · exact hm k q hk2
    · subst hkk
      subst hq
      rw [prevEmi_last (ha.2 hf), ← hbase]
      have hbp : base s ≤ s.mn_pos := by
        rcases hpos with ⟨a, -⟩ | ⟨a, -⟩
        · exact le_of_lt a
        · rw [a]
      have hall : ∀ j, base s ≤ j → j ≤ s.i → ¬ sample data j < sample data s.mn_pos := by
        intro j hj1 hj2
        rw [hp]
        rcases (show j < s.i ∨ j = s.i by omega) with h | h
        · exact not_lt.mpr (h2 j hj1 h)
        · rw [h, hsx]; exact not_lt.mpr (by linarith)
      have hlt : s.mn_pos < s.i := by
        rcases lt_or_eq_of_le hpi with h | h
        · exact h
        · exfalso
          rw [← h, hp] at hsx
          linarith
      exact ⟨hc.base_nonneg, hbp, fun j a b => hall j a (by omega),
        s.i, hlt, hin, by rw [hsx, hp]; exact ht2, hall⟩

theorem detect_peak_minSound {data : List ℚ} (capE capA : Int) {delta : ℚ} (emi_first : Bool)
    (hn : 1 ≤ data.length) (hd : 0 < delta) :
    MinSound data delta emi_first (detect_peak data capE capA delta emi_first).emi_peaks
      (detect_peak data capE capA delta emi_first).absop_peaks := by
  refine detect_peak_induct
    (fun s => Core data delta s ∧ Alt emi_first s ∧
      MinSound data delta emi_first s.emi_peaks s.absop_peaks)
    (fun r => MinSound data delta emi_first r.emi_peaks r.absop_peaks) hn
    ⟨core_init emi_first (readData_zero hn), alt_init _ _, ?_⟩
    (fun s t h _ hb => ⟨core_next hd h.1 hb, alt_next h.2.1 hb,
      minSound_next hd h.1 h.2.1 h.2.2 hb⟩) ?_ (fun s h _ => h.2.2)
  · intro k q hk
    simp [initState] at hk
  · intro s r h hi hb
    rcases core_stop hd h.1 hi hb with ⟨rfl, -⟩ | ⟨rfl, -⟩
    · exact h.2.2
    · exact h.2.2

theorem prevEmi_spec {emi_first : Bool} {emi absop : List Int} {k : Nat}
    (hk : k < absop.length) (hl : AltLengths emi_first emi absop) :
    (emi_first = false ∧ k = 0 ∧ prevEmi emi_first emi k = 0) ∨
    (emi_first = false ∧ 0 < k ∧ emi[k - 1]? = some (prevEmi emi_first emi k)) ∨
    (emi_first = true ∧ emi[k]? = some (prevEmi emi_first emi k)) := by
  unfold AltLengths at hl
  unfold prevEmi
  cases emi_first
  · simp only [Bool.false_eq_true, if_false] at hl ⊢
    by_cases h0 : k = 0
    · simp [h0]
    · have h : k - 1 < emi.length := by omega
      simp [h0, List.getElem?_eq_getElem h, Nat.pos_of_ne_zero h0]
  · simp only [if_true] at hl ⊢
    have h : k < emi.length := by omega
    simp [List.getElem?_eq_getElem h]

/-! ## The capacity boundary -/

/-- The lists of a result extend the lists of the state in which the loop is entered. -/
theorem loop_lists_extend {data : List ℚ} {capE capA : Int} {delta : ℚ} :
    ∀ (fuel : Nat) (s : State), ∃ e a,
      (loop data capE capA delta fuel s).emi_peaks = s.emi_peaks ++ e ∧
      (loop data capE capA delta fuel s).absop_peaks = s.absop_peaks ++ a := by
  intro fuel
  induction fuel with
  | zero =>
    intro s
    refine ⟨[], [], ?_, ?_⟩ <;> by_cases hi : s.i < (data.length : Int) <;> simp [loop, hi]
  | succ fuel ih =>
    intro s
    by_cases hi : s.i < (data.length : Int)
    · cases hb : body data capE capA delta s with
      | next t =>
        rw [loop_next fuel hi hb]
        obtain ⟨e, a, he, ha⟩ := ih (advance t)
        rcases body_alternates hb with ⟨-, h1, h2⟩ | ⟨-, -, ⟨p, h1⟩, h2⟩ | ⟨-, -, ⟨q, h1⟩, h2⟩
        · exact ⟨e, a, by rw [he, advance_emi_peaks, h1], by rw [ha, advance_absop_peaks, h2]⟩
        · exact ⟨p :: e, a, by rw [he, advance_emi_peaks, h1]; simp,
            by rw [ha, advance_absop_peaks, h2]⟩
        · exact ⟨e, q :: a, by rw [he, advance_emi_peaks, h2],
            by rw [ha, advance_absop_peaks, h1]; simp⟩
      | stop r =>
        rw [loop_stop fuel hi hb]
        rcases body_stop hb with ⟨-, rfl⟩ | ⟨x, -, h1⟩
        · exact ⟨[], [], by simp, by simp⟩
        · rcases h1 with ⟨-, -, -, rfl⟩ | ⟨-, -, -, -, rfl⟩ | ⟨-, -, -, rfl⟩ | ⟨-, -, -, -, rfl⟩
          · exact ⟨[], [], by simp, by simp⟩
          · exact ⟨[(track x s).mx_pos], [], by simp, by simp⟩
          · exact ⟨[], [], by simp, by simp⟩
          · exact ⟨[], [(track x s).mn_pos], by simp, by simp⟩
    · rw [loop_done _ hi]
      exact ⟨[], [], by simp, by simp⟩

/-- A run that succeeds with `k + 1` maxima under the emission capacity `k + 1` returns 1
under the emission capacity `k`, with lists that the successful run extends. -/
theorem loop_cap_boundary {data : List ℚ} {capA : Int} {delta : ℚ} (k : Nat) :
    ∀ (fuel : Nat) (s : State), s.emi_peaks.length ≤ k →
      (loop data ((k : Int) + 1) capA delta fuel s).exit = .ret 0 →
      (loop data ((k : Int) + 1) capA delta fuel s).emi_peaks.length = k + 1 →
      (loop data (k : Int) capA delta fuel s).exit = .ret 1 ∧
      ∃ e a, (loop data ((k : Int) + 1) capA delta fuel s).emi_peaks =
          (loop data (k : Int) capA delta fuel s).emi_peaks ++ e ∧
        (loop data ((k : Int) + 1) capA delta fuel s).absop_peaks =
          (loop data (k : Int) capA delta fuel s).absop_peaks ++ a := by
  intro fuel
  induction fuel with
  | zero =>
    intro s hs h0 hl
    by_cases hi : s.i < (data.length : Int)
    · simp [loop, hi] at h0
    · rw [loop_done 0 hi] at hl
      simp only at hl
      omega
  | succ fuel ih =>
    intro s hs h0 hl
    by_cases hi : s.i < (data.length : Int)
    · cases hb : body data ((k : Int) + 1) capA delta s with
      | next t =>
        rw [loop_next fuel hi hb] at h0 hl ⊢
        obtain ⟨x, hx, h⟩ := body_next hb
        rcases h with ⟨h1, h2, rfl⟩ | ⟨hf, ht, hcap, v, hv, rfl⟩ | ⟨hf, ht, hcap, v, hv, rfl⟩
        · rw [loop_next fuel hi (body_eq_next_track hx h1 h2)]
          exact ih _ (by simpa using hs) h0 hl
        · by_cases hk : s.emi_peaks.length < k
          · rw [loop_next fuel hi (body_eq_next_emi hx hf ht (by omega) hv)]
            exact ih _ (by simp; omega) h0 hl
          · rw [loop_stop fuel hi (body_eq_stop_emi hx hf ht (by omega))]
            obtain ⟨e, a, he, ha⟩ := @loop_lists_extend data ((k : Int) + 1) capA delta fuel
              (advance (afterEmi (track x s) v))
            refine ⟨rfl, (track x s).mx_pos :: e, a, ?_, ?_⟩
            · rw [he]; simp
            · rw [ha]; simp
        · rw [loop_next fuel hi (body_eq_next_absop hx hf ht hcap hv)]
          exact ih _ (by simpa using hs) h0 hl
      | stop r =>
        rw [loop_stop fuel hi hb] at h0
        exact absurd h0 (body_stop_exit_ne_zero hb)
    · rw [loop_done _ hi] at hl
      simp only at hl
      omega

theorem detect_peak_cap_boundary {data : List ℚ} {capA : Int} {delta : ℚ} {emi_first : Bool}
    (k : Nat)
    (hok : (detect_peak data ((k : Int) + 1) capA delta emi_first).exit = .ret 0)
    (hlen : (detect_peak data ((k : Int) + 1) capA delta emi_first).emi_peaks.length = k + 1) :
    (detect_peak data (k : Int) capA delta emi_first).exit = .ret 1 ∧
    ∃ e a, (detect_peak data ((k : Int) + 1) capA delta emi_first).emi_peaks =
        (detect_peak data (k : Int) capA delta emi_first).emi_peaks ++ e ∧
      (detect_peak data ((k : Int) + 1) capA delta emi_first).absop_peaks =
        (detect_peak data (k : Int) capA delta emi_first).absop_peaks ++ a := by
  have key : (detect_peak_fuel (iterations data ((k : Int) + 1) capA) data (k : Int) capA delta
      emi_first).exit = .ret 1 ∧
      ∃ e a, (detect_peak data ((k : Int) + 1) capA delta emi_first).emi_peaks =
        (detect_peak_fuel (iterations data ((k : Int) + 1) capA) data (k : Int) capA delta
          emi_first).emi_peaks ++ e ∧
      (detect_peak data ((k : Int) + 1) capA delta emi_first).absop_peaks =
        (detect_peak_fuel (iterations data ((k : Int) + 1) capA) data (k : Int) capA delta
          emi_first).absop_peaks ++ a := by
    unfold detect_peak detect_peak_fuel at hok hlen ⊢
    split
    · rename_i hv
      simp [hv] at hok
    · rename_i v hv
      simp only [hv] at hok hlen
      exact loop_cap_boundary k _ _ (by simp [initState]) hok hlen
  have e := @detect_peak_fuel_eq (iterations data ((k : Int) + 1) capA) data (k : Int) capA
    delta emi_first (by rw [key.1]; simp)
  rw [e] at key
  exact key

/-! ## Negated samples and the opposite mode -/

theorem readData_negate (data : List ℚ) (k : Int) :
    readData (negate data) k = (readData data k).map (fun x => -x) := by
  unfold readData negate
  split_ifs
  · rfl
  · simp [List.getElem?_map]

theorem length_negate (data : List ℚ) : (negate data).length = data.length := by
  simp [negate]

theorem track_mirror (x : ℚ) (s : State) :
    track (-x) (mirrorState s) = mirrorState (track x s) := by
  by_cases h1 : s.mx < x <;> by_cases h2 : x < s.mn
  · have a : -x < -s.mx := by linarith
    have b : -s.mn < -x := by linarith
    simp [track, mirrorState, h1, h2, a, b]
  · have a : -x < -s.mx := by linarith
    have b : ¬ -s.mn < -x := by intro h; exact h2 (by linarith)
    simp [track, mirrorState, h1, h2, a, b]
  · have a : ¬ -x < -s.mx := by intro h; exact h1 (by linarith)
    have b : -s.mn < -x := by linarith
    simp [track, mirrorState, h1, h2, a, b]
  · have a : ¬ -x < -s.mx := by intro h; exact h1 (by linarith)
    have b : ¬ -s.mn < -x := by intro h; exact h2 (by linarith)
    simp [track, mirrorState, h1, h2, a, b]

theorem forward_body_mirror (data : List ℚ) (capE capA : Int) (delta : ℚ) (s : State) :
    forward_body (negate data) capA capE delta (mirrorState s) =
      mirrorStep (forward_body data capE capA delta s) := by
  rcases forward_body_cases data capE capA delta s with ⟨hx, h⟩ | ⟨x, hx, h⟩
  · rw [h]
    have hx2 : readData (negate data) (mirrorState s).i = none := by
      rw [readData_negate]; simp [mirrorState, hx]
    have e : forward_body (negate data) capA capE delta (mirrorState s) =
        .stop ⟨.outOfBounds (mirrorState s).i, (mirrorState s).emi_peaks,
          (mirrorState s).absop_peaks⟩ := by
      simp only [forward_body, hx2]
    rw [e]
    rfl
  · have hx2 : readData (negate data) (mirrorState s).i = some (-x) := by
      rw [readData_negate]; simp [mirrorState, hx]
    have hmx : (track (-x) (mirrorState s)).mx = -(track x s).mn := by
      rw [track_mirror]; rfl
    have hmn : (track (-x) (mirrorState s)).mn = -(track x s).mx := by
      rw [track_mirror]; rfl
    rcases h with ⟨c1, c2, h⟩ | ⟨hf, ht, hcap, h⟩ | ⟨hf, ht, hcap, h⟩ | ⟨hf, ht, hcap, h⟩ |
      ⟨hf, ht, hcap, h⟩
    · rw [h, forward_body_eq_track hx2, track_mirror]
      · rfl
      · rw [hmx]
        simp only [mirrorState, Bool.not_eq_true', not_and, not_lt]
        intro hf
        have := fun h3 => c2 ⟨hf, h3⟩
        have := not_lt.mp this
        linarith
      · rw [hmn]
        simp only [mirrorState, Bool.not_eq_false', not_and, not_lt, gt_iff_lt]
        intro hf
        have := fun h3 => c1 ⟨hf, h3⟩
        have := not_lt.mp this
        linarith
    · rw [h, forward_body_eq_stop_absop hx2 (by simp [mirrorState, hf])
        (by rw [hmn]; linarith) (by simpa [mirrorState] using hcap)]
      simp [mirrorStep, mirror, mirrorExit, mirrorState]
    · rw [h, forward_body_eq_absop hx2 (by simp [mirrorState, hf])
        (by rw [hmn]; linarith) (by simpa [mirrorState] using hcap), track_mirror]
      simp [mirrorStep, mirrorState, forwardAbsop, forwardEmi]
    · rw [h, forward_body_eq_stop_emi hx2 (by simp [mirrorState, hf])
        (by rw [hmx]; linarith) (by simpa [mirrorState] using hcap)]
      simp [mirrorStep, mirror, mirrorExit, mirrorState]
    · rw [h, forward_body_eq_emi hx2 (by simp [mirrorState, hf])
        (by rw [hmx]; linarith) (by simpa [mirrorState] using hcap), track_mirror]
      simp [mirrorStep, mirrorState, forwardAbsop, forwardEmi]

theorem forward_loop_mirror (data : List ℚ) (capE capA : Int) (delta : ℚ) :
    ∀ (f : Nat) (s : State),
      forward_loop (negate data) capA capE delta f (mirrorState s) =
        mirror (forward_loop data capE capA delta f s) := by
  intro f
  induction f with
  | zero =>
    intro s
    by_cases hi : s.i < (data.length : Int)
    · have hi2 : (mirrorState s).i < ((negate data).length : Int) := by
        rw [length_negate]; exact hi
      simp [forward_loop, hi, length_negate, mirror, mirrorExit, mirrorState]
    · have hi2 : ¬ (mirrorState s).i < ((negate data).length : Int) := by
        rw [length_negate]; exact hi
      rw [forward_loop_done 0 hi, forward_loop_done 0 hi2]
      simp [mirror, mirrorExit, mirrorState]
  | succ f ih =>
    intro s
    by_cases hi : s.i < (data.length : Int)
    · have hi2 : (mirrorState s).i < ((negate data).length : Int) := by
        rw [length_negate]; exact hi
      have hm := forward_body_mirror data capE capA delta s
      cases hb : forward_body data capE capA delta s with
      | next t =>
        rw [hb] at hm
        rw [forward_loop_next f hi hb, forward_loop_next f hi2 hm]
        exact ih (advance t)
      | stop r =>
        rw [hb] at hm
        rw [forward_loop_stop f hi hb, forward_loop_stop f hi2 hm]
    · have hi2 : ¬ (mirrorState s).i < ((negate data).length : Int) := by
        rw [length_negate]; exact hi
      rw [forward_loop_done _ hi, forward_loop_done _ hi2]
      simp [mirror, mirrorExit, mirrorState]

/-- For `delta > 0`, negating the samples, taking the opposite mode and exchanging the
capacities gives the mirror image of the result. -/
theorem detect_peak_negate {data : List ℚ} (capE capA : Int) {delta : ℚ} (emi_first : Bool)
    (hn : 1 ≤ data.length) (hd : 0 < delta) :
    detect_peak (negate data) capA capE delta (!emi_first) =
      mirror (detect_peak data capE capA delta emi_first) := by
  have hn2 : 1 ≤ (negate data).length := by rw [length_negate]; exact hn
  rw [detect_peak_eq_forward capA capE (!emi_first) hn2 hd,
    detect_peak_eq_forward capE capA emi_first hn hd]
  unfold detect_peak_forward
  have h0 : readData (negate data) 0 = some (-(sample data 0)) := by
    rw [readData_negate, readData_zero hn]; rfl
  rw [h0, readData_zero hn, length_negate]
  have e : initState (-(sample data 0)) (!emi_first) =
      mirrorState (initState (sample data 0) emi_first) := by
    simp [initState, mirrorState]
  simp only [e]
  exact forward_loop_mirror data capE capA delta _ _

/-! ## The position stored after a confirmed minimum is not observable for a positive `delta` -/

section Fixed

variable {data : List ℚ} {capE capA : Int} {delta : ℚ}

theorem body_fixed_eq_none {s : State} (hx : readData data s.i = none) :
    body_fixed data capE capA delta s =
      .stop ⟨.outOfBounds s.i, s.emi_peaks, s.absop_peaks⟩ := by
  simp only [body_fixed, hx]

theorem body_fixed_eq_track {s : State} {x : ℚ} (hx : readData data s.i = some x)
    (h1 : ¬ (s.is_detecting_emi = true ∧ x < (track x s).mx - delta))
    (h2 : ¬ (s.is_detecting_emi = false ∧ x > (track x s).mn + delta)) :
    body_fixed data capE capA delta s = .next (track x s) := by
  simp only [body_fixed, hx, track_flag]
  rw [if_neg h1, if_neg h2]

theorem body_fixed_eq_emi {s : State} {x v : ℚ} (hx : readData data s.i = some x)
    (hf : s.is_detecting_emi = true) (ht : x < (track x s).mx - delta)
    (hcap : (s.emi_peaks.length : Int) < capE)
    (hv : readData data (track x s).mx_pos = some v) :
    body_fixed data capE capA delta s = .next (afterEmi (track x s) v) := by
  simp only [body_fixed, hx, track_flag]
  rw [if_pos ⟨hf, ht⟩]
  simp only [confirm_emi, track_emi, hv]
  rw [if_neg (by simpa using hcap)]
  simp [afterEmi]

theorem body_fixed_eq_stop_emi {s : State} {x : ℚ} (hx : readData data s.i = some x)
    (hf : s.is_detecting_emi = true) (ht : x < (track x s).mx - delta)
    (hcap : capE ≤ (s.emi_peaks.length : Int)) :
    body_fixed data capE capA delta s = .stop ⟨.ret 1, s.emi_peaks, s.absop_peaks⟩ := by
  simp [body_fixed, hx, hf, ht, confirm_emi, hcap]

theorem body_fixed_eq_absop {s : State} {x v : ℚ} (hx : readData data s.i = some x)
    (hf : s.is_detecting_emi = false) (ht : x > (track x s).mn + delta)
    (hcap : (s.absop_peaks.length : Int) < capA)
    (hv : readData data (track x s).mn_pos = some v) :
    body_fixed data capE capA delta s =
      .next (setMxPos (afterAbsop (track x s) v) (track x s).mn_pos) := by
  simp only [body_fixed, hx, track_flag]
  rw [if_neg (by simp [hf]), if_pos ⟨hf, ht⟩]
  simp only [confirm_absop_fixed, track_absop, hv]
  rw [if_neg (by simpa using hcap)]
  simp [afterAbsop, setMxPos]

theorem body_fixed_eq_stop_absop {s : State} {x : ℚ} (hx : readData data s.i = some x)
    (hf : s.is_detecting_emi = false) (ht : x > (track x s).mn + delta)
    (hcap : capA ≤ (s.absop_peaks.length : Int)) :
    body_fixed data capE capA delta s = .stop ⟨.ret 2, s.emi_peaks, s.absop_peaks⟩ := by
  simp [body_fixed, hx, hf, ht, confirm_absop_fixed, hcap]

theorem loop_fixed_done (fuel : Nat) {s : State} (h : ¬ s.i < (data.length : Int)) :
    loop_fixed data capE capA delta fuel s = ⟨.ret 0, s.emi_peaks, s.absop_peaks⟩ := by
  cases fuel <;> simp [loop_fixed, h]

theorem loop_fixed_stop (fuel : Nat) {s : State} {r : Result}
    (hi : s.i < (data.length : Int)) (hb : body_fixed data capE capA delta s = .stop r) :
    loop_fixed data capE capA delta (fuel + 1) s = r := by
  simp [loop_fixed, hi, hb]

theorem loop_fixed_next (fuel : Nat) {s t : State} (hi : s.i < (data.length : Int))
    (hb : body_fixed data capE capA delta s = .next t) :
    loop_fixed data capE capA delta (fuel + 1) s =
      loop_fixed data capE capA delta fuel (advance t) := by
  simp [loop_fixed, hi, hb]

theorem track_setMxPos (x : ℚ) (s : State) (m : Int) :
    track x (setMxPos s m) = setMxPos (track x s) (if s.mx < x then s.i else m) := by
  unfold track setMxPos
  dsimp only
  by_cases h1 : x > s.mx
  · have h2 : s.mx < x := h1
    simp only [h1, h2, if_true]
    split_ifs <;> rfl
  · have h2 : ¬ s.mx < x := h1
    simp only [h1, h2, if_false]
    split_ifs <;> rfl

/-- While a maximum is sought right after a confirmed minimum, the rescan is pending. -/
theorem core_pending_after_absop {s : State} (hc : Core data delta s)
    (hf : s.is_detecting_emi = true) (hi : s.i = base s) (hne : s.absop_peaks ≠ []) :
    s.mx = sample data (base s) ∧ PendingMax data delta (base s) s.i := by
  obtain ⟨-, -, h3⟩ := hc.seek_max hf
  rcases h3 with ⟨a, b, -⟩ | ⟨-, -, -, d⟩ | h
  · omega
  · exact absurd d hne
  · exact h

/-- Lock-step comparison of the two algorithms: the states differ at most in `mx_pos`, and
only while the rescan after a confirmed minimum is pending. -/
theorem loop_fixed_eq (hd : 0 < delta) : ∀ (fuel : Nat) (s : State) (m : Int),
    Core data delta s →
    (m = s.mx_pos ∨ (s.is_detecting_emi = true ∧ s.mx = sample data (base s) ∧
      PendingMax data delta (base s) s.i)) →
    loop_fixed data capE capA delta fuel (setMxPos s m) = loop data capE capA delta fuel s := by
  intro fuel
  induction fuel with
  | zero =>
    intro s m _ _
    by_cases hi : s.i < (data.length : Int)
    · have hi2 : (setMxPos s m).i < (data.length : Int) := hi
      simp [loop, loop_fixed, hi, hi2]
      exact ⟨rfl, rfl⟩
    · have hi2 : ¬ (setMxPos s m).i < (data.length : Int) := hi
      rw [loop_done 0 hi, loop_fixed_done 0 hi2]
      rfl
  | succ fuel ih =>
    intro s m hc hR
    by_cases hi : s.i < (data.length : Int)
    · have hi2 : (setMxPos s m).i < (data.length : Int) := hi
      have hmx : ∀ x, (track x (setMxPos s m)).mx = (track x s).mx := by
        intro x; rw [track_setMxPos]; rfl
      have hmn : ∀ x, (track x (setMxPos s m)).mn = (track x s).mn := by
        intro x; rw [track_setMxPos]; rfl
      cases hb : body data capE capA delta s with
      | next t =>
        rw [loop_next fuel hi hb]
        have hcn := core_next hd hc hb
        obtain ⟨x, hx, h⟩ := body_next hb
        obtain ⟨hi0, hin, hsx⟩ := readData_eq_some hx
        have hx2 : readData data (setMxPos s m).i = some x := hx
        rcases h with ⟨h1, h2, rfl⟩ | ⟨hf, ht, hcap, v, hv, rfl⟩ | ⟨hf, ht, hcap, v, hv, rfl⟩
        · have hb2 : body_fixed data capE capA delta (setMxPos s m) =
              .next (track x (setMxPos s m)) :=
            body_fixed_eq_track hx2 (by rw [hmx]; exact h1) (by rw [hmn]; exact h2)
          rw [loop_fixed_next fuel hi2 hb2, track_setMxPos]
          refine ih (advance (track x s)) _ hcn ?_
          by_cases hlt : s.mx < x
          · left; rw [if_pos hlt, advance_mx_pos, track_mx_pos, if_pos hlt]; rfl
          · rw [if_neg hlt]
            rcases hR with h | ⟨hf, hmxb, c, c1, c2, c3, c4⟩
            · left; rw [advance_mx_pos, track_mx_pos, if_neg hlt]; exact h
            · right
              refine ⟨by simpa using hf, ?_, ?_⟩
              · rw [base_advance_track, advance_mx, track_mx, if_neg hlt]; exact hmxb
              · rw [base_advance_track, advance_i, track_i]
                refine ⟨c, ?_, c2, c3, c4⟩
                rcases lt_or_eq_of_le c1 with h | h
                · omega
                · exfalso
                  rw [← h, hsx] at c4
                  rw [hmxb] at hlt
                  linarith
        · obtain ⟨e1, e2, ht2, hp, hpi, hpos⟩ := core_emi_trigger hd hc hx hf ht
          have hm : m = s.mx_pos := by
            rcases hR with h | ⟨-, hmxb, c, c1, c2, c3, c4⟩
            · exact h
            · exfalso
              have := c3 s.i hc.base_le_i c1
              rw [hsx] at this
              linarith
          subst hm
          have hself : setMxPos s s.mx_pos = s := rfl
          rw [hself]
          rw [loop_fixed_next fuel hi (body_fixed_eq_emi hx hf ht hcap hv)]
          exact ih (advance (afterEmi (track x s) v)) _ hcn (Or.inl rfl)
        · have hb2 : body_fixed data capE capA delta (setMxPos s m) =
              .next (setMxPos (afterAbsop (track x s) v) (track x s).mn_pos) := by
            have := @body_fixed_eq_absop data capE capA delta (setMxPos s m) x v hx2 hf
              (by rw [hmn]; exact ht) hcap (by rw [track_setMxPos]; exact hv)
            rw [this, track_setMxPos]
            rfl
          rw [loop_fixed_next fuel hi2 hb2]
          refine ih (advance (afterAbsop (track x s) v)) _ hcn (Or.inr ?_)
          have := core_pending_after_absop hcn (by simp)
            (by rw [base_afterAbsop]; simp) (by simp)
          exact ⟨by simp, this.1, this.2⟩
      | stop r =>
        rw [loop_stop fuel hi hb]
        rcases body_stop hb with ⟨hx, rfl⟩ | ⟨x, hx, h1⟩
        · exact loop_fixed_stop fuel hi2 (body_fixed_eq_none hx)
        · have hx2 : readData data (setMxPos s m).i = some x := hx
          rcases core_stop hd hc hi hb with ⟨hr, -⟩ | ⟨hr, -⟩ <;>
            rcases h1 with ⟨hf, ht, hcap, rfl⟩ | ⟨hf, ht, hcap, -, rfl⟩ | ⟨hf, ht, hcap, rfl⟩ |
              ⟨hf, ht, hcap, -, rfl⟩ <;>
            first
            | exact loop_fixed_stop fuel hi2
                (body_fixed_eq_stop_emi hx2 hf (by rw [hmx]; exact ht) hcap)
            | exact loop_fixed_stop fuel hi2
                (body_fixed_eq_stop_absop hx2 hf (by rw [hmn]; exact ht) hcap)
            | simp at hr
    · have hi2 : ¬ (setMxPos s m).i < (data.length : Int) := hi
      rw [loop_done _ hi, loop_fixed_done _ hi2]
      rfl

/-- For `delta > 0` the algorithm that assigns `mx_pos = mn_pos` returns what `detect_peak`
returns. -/
theorem detect_peak_fixed_eq (data : List ℚ) (capE capA : Int) {delta : ℚ}
    (emi_first : Bool) (hd : 0 < delta) :
    detect_peak_fixed data capE capA delta emi_first =
      detect_peak data capE capA delta emi_first := by
  unfold detect_peak_fixed detect_peak detect_peak_fuel
  cases hv : readData data 0 with
  | none => rfl
  | some v =>
    simp only
    exact loop_fixed_eq hd _ (initState v emi_first) _ (core_init emi_first hv) (Or.inl rfl)

end Fixed

/-! ## The gap between adjacent peaks -/

/-- A sound maximum followed by a sound minimum lies more than `delta` above it. -/
theorem gap_max_then_min {data : List ℚ} {delta : ℚ} {r p q : Int}
    (hM : SoundMax data delta r p) (hm : SoundMin data delta p q) :
    sample data p - sample data q > delta := by
  obtain ⟨-, hrp, -, c, hpc, -, hc, hcmax⟩ := hM
  obtain ⟨-, hpq, -, c', hqc, -, hc', hcmin⟩ := hm
  rcases le_or_lt c c' with h | h
  · have := hcmin c (by omega) h
    linarith
  · have := hcmax c' (by omega) (by omega)
    linarith

/-- A sound minimum followed by a sound maximum lies more than `delta` below it. -/
theorem gap_min_then_max {data : List ℚ} {delta : ℚ} {r p q : Int}
    (hm : SoundMin data delta r q) (hM : SoundMax data delta q p) :
    sample data p - sample data q > delta := by
  obtain ⟨-, hrq, -, c', hqc, -, hc', hcmin⟩ := hm
  obtain ⟨-, hqp, -, c, hpc, -, hc, hcmax⟩ := hM
  rcases le_or_lt c' c with h | h
  · have := hcmax c' (by omega) h
    linarith
  · have := hcmin c (by omega) (by omega)
    linarith

/-- The gap for the pairs of consecutive peaks, by their places in the two lists. -/
theorem gap_by_index {data : List ℚ} {delta : ℚ} {emi_first : Bool} {E A : List Int}
    (hM : MaxSound data delta emi_first E A) (hm : MinSound data delta emi_first E A) :
    (∀ (k : Nat) (p q : Int), E[k]? = some p →
      A[if emi_first then k else k + 1]? = some q → sample data p - sample data q > delta) ∧
    (∀ (k : Nat) (p q : Int), A[k]? = some q →
      E[if emi_first then k + 1 else k]? = some p → sample data p - sample data q > delta) := by
  cases emi_first
  · simp only [Bool.false_eq_true, if_false]
    constructor
    · intro k p q hp hq
      have h1 := hM k p hp
      have h2 := hm (k + 1) q hq
      simp [prevEmi, hp] at h2
      exact gap_max_then_min h1 h2
    · intro k p q hq hp
      have h1 := hM k p hp
      have h2 := hm k q hq
      simp [prevAbsop, hq] at h1
      exact gap_min_then_max h2 h1
  · simp only [if_true]
    constructor
    · intro k p q hp hq
      have h1 := hM k p hp
      have h2 := hm k q hq
      simp [prevEmi, hp] at h2
      exact gap_max_then_min h1 h2
    · intro k p q hq hp
      have h1 := hM (k + 1) p hp
      have h2 := hm k q hq
      simp [prevAbsop, hq] at h1
      exact gap_min_then_max h2 h1

theorem sorted_getElem?_lt {l : List Int} (h : l.Pairwise (· < ·)) {i j : Nat} {a b : Int}
    (hi : l[i]? = some a) (hj : l[j]? = some b) (hij : i < j) : a < b := by
  obtain ⟨hi1, rfl⟩ := List.getElem?_eq_some_iff.mp hi
  obtain ⟨hj1, rfl⟩ := List.getElem?_eq_some_iff.mp hj
  exact List.pairwise_iff_getElem.mp h i j hi1 hj1 hij

/-- In two strictly interleaved increasing lists, two entries with no entry strictly between
them are consecutive. -/
theorem zipped_adjacent {F S : List Int} (hz : Zipped F S) (hF : F.Pairwise (· < ·))
    (hS : S.Pairwise (· < ·)) {k k2 : Nat} {a b : Int} (ha : F[k]? = some a)
    (hb : S[k2]? = some b)
    (hno : ∀ r, r ∈ F ∨ r ∈ S → ¬ (a < r ∧ r < b) ∧ ¬ (b < r ∧ r < a)) :
    k2 = k ∨ k = k2 + 1 := by
  rcases lt_trichotomy k k2 with h | h | h
  · exfalso
    have hk2 : k2 < S.length := (List.getElem?_eq_some_iff.mp hb).1
    have hc : S[k]? = some (S[k]) := List.getElem?_eq_getElem (by omega)
    have h1 := hz.1 k _ _ ha hc
    have h2 := sorted_getElem?_lt hS hc hb h
    exact (hno _ (Or.inr (getElem?_mem_of_eq_some hc))).1 ⟨h1, h2⟩
  · exact Or.inl h.symm
  · by_cases h1 : k = k2 + 1
    · exact Or.inr h1
    · exfalso
      have hk : k < F.length := (List.getElem?_eq_some_iff.mp ha).1
      have hc : F[k2 + 1]? = some (F[k2 + 1]) := List.getElem?_eq_getElem (by omega)
      have h2 := hz.2 k2 _ _ hb hc
      have h3 := sorted_getElem?_lt hF hc ha (by omega)
      exact (hno _ (Or.inl (getElem?_mem_of_eq_some hc))).2 ⟨h2, h3⟩

/-- The gap for a maximum and a minimum that are neighbours in the index-sorted union. -/
theorem gap_of_neighbours {data : List ℚ} {delta : ℚ} {emi_first : Bool} {E A : List Int}
    (hM : MaxSound data delta emi_first E A) (hm : MinSound data delta emi_first E A)
    (hz : Interleaved emi_first E A) (hE : E.Pairwise (· < ·)) (hA : A.Pairwise (· < ·))
    {p q : Int} (hp : p ∈ E) (hq : q ∈ A)
    (hno : ∀ r, r ∈ E ∨ r ∈ A → ¬ (p < r ∧ r < q) ∧ ¬ (q < r ∧ r < p)) :
    sample data p - sample data q > delta := by
  obtain ⟨k, hk⟩ := List.mem_iff_getElem?.mp hp
  obtain ⟨k2, hk2⟩ := List.mem_iff_getElem?.mp hq
  obtain ⟨g1, g2⟩ := gap_by_index hM hm
  cases emi_first
  · simp only [Interleaved, Bool.false_eq_true, if_false] at hz g1 g2
    have hno2 : ∀ r, r ∈ A ∨ r ∈ E → ¬ (q < r ∧ r < p) ∧ ¬ (p < r ∧ r < q) :=
      fun r hr => ⟨(hno r hr.symm).2, (hno r hr.symm).1⟩
    rcases zipped_adjacent hz hA hE hk2 hk hno2 with h | h
    · subst h
      exact g2 k p q hk2 hk
    · subst h
      exact g1 k p q hk hk2
  · simp only [Interleaved, if_true] at hz g1 g2
    rcases zipped_adjacent hz hE hA hk hk2 hno with h | h
    · subst h
      exact g1 k2 p q hk hk2
    · subst h
      exact g2 k2 p q hk2 hk

/-! ## Rounding to double is monotone -/

theorem pow2_eq (k : Int) : pow2 k = (2 : ℚ) ^ k := by
  unfold pow2
  split_ifs with h
  · obtain ⟨n, rfl⟩ := Int.eq_ofNat_of_zero_le h
    simp
  · obtain ⟨n, hn⟩ : ∃ n : Nat, k = -(n : Int) := ⟨(-k).toNat, by omega⟩
    subst hn
    simp

theorem pow2_pos (k : Int) : 0 < pow2 k := by
  rw [pow2_eq]; positivity

theorem pow2_le_pow2 {i j : Int} (h : i ≤ j) : pow2 i ≤ pow2 j := by
  rw [pow2_eq, pow2_eq]
  exact zpow_le_zpow_right₀ (by norm_num) h

theorem lt_of_pow2_lt {i j : Int} (h : pow2 i < pow2 j) : i < j := by
  by_contra hc
  exact absurd (pow2_le_pow2 (not_lt.mp hc)) (not_le.mpr h)

theorem pow2_add (i j : Int) : pow2 (i + j) = pow2 i * pow2 j := by
  rw [pow2_eq, pow2_eq, pow2_eq, zpow_add₀ (by norm_num)]

theorem pow2_natCast (n : Nat) : pow2 (n : Int) = (2 : ℚ) ^ n := by
  rw [pow2_eq, zpow_natCast]

theorem ilog2Fuel_spec : ∀ (fuel n : Nat), n ≤ fuel → 0 < n →
    2 ^ ilog2Fuel fuel n ≤ n ∧ n < 2 ^ (ilog2Fuel fuel n + 1) := by
  intro fuel
  induction fuel with
  | zero => intro n h1 h2; omega
  | succ fuel ih =>
    intro n h1 h2
    unfold ilog2Fuel
    split_ifs with h
    · have : n = 1 := by omega
      subst this
      simp
    · obtain ⟨a, b⟩ := ih (n / 2) (by omega) (by omega)
      rw [pow_succ, pow_succ]
      rw [pow_succ] at b
      constructor <;> omega

theorem ilog2_spec {n : Nat} (h : 0 < n) : 2 ^ ilog2 n ≤ n ∧ n < 2 ^ (ilog2 n + 1) :=
  ilog2Fuel_spec n n (le_refl n) h

theorem binade_spec {a : ℚ} (ha : 0 < a) : pow2 (binade a) ≤ a ∧ a < pow2 (binade a + 1) := by
  have hnum : 0 < a.num := Rat.num_pos.mpr ha
  obtain ⟨N, hN⟩ := Int.eq_ofNat_of_zero_le (le_of_lt hnum)
  have hN0 : 0 < N := by omega
  have hnat : a.num.natAbs = N := by rw [hN]; rfl
  have hd0 : 0 < a.den := a.den_pos
  obtain ⟨n1, n2⟩ := ilog2_spec hN0
  obtain ⟨d1, d2⟩ := ilog2_spec hd0
  have hD : (0 : ℚ) < (a.den : ℚ) := by exact_mod_cast hd0
  have hmul : a * (a.den : ℚ) = (N : ℚ) := by
    have := Rat.mul_den_eq_num a
    rw [this, hN]
    simp
  have n1q : (2 : ℚ) ^ ilog2 N ≤ (N : ℚ) := by exact_mod_cast n1
  have n2q : (N : ℚ) < (2 : ℚ) ^ (ilog2 N + 1) := by exact_mod_cast n2
  have d1q : (2 : ℚ) ^ ilog2 a.den ≤ (a.den : ℚ) := by exact_mod_cast d1
  have d2q : (a.den : ℚ) < (2 : ℚ) ^ (ilog2 a.den + 1) := by exact_mod_cast d2
  have hq : (0 : ℚ) < (2 : ℚ) ^ ilog2 a.den := by positivity
  have hq1 : (0 : ℚ) < (2 : ℚ) ^ (ilog2 a.den + 1) := by positivity
  have up : a < pow2 ((ilog2 N : Int) - (ilog2 a.den : Int) + 1) := by
    have e : pow2 ((ilog2 N : Int) - (ilog2 a.den : Int) + 1) * (2 : ℚ) ^ ilog2 a.den =
        (2 : ℚ) ^ (ilog2 N + 1) := by
      rw [← pow2_natCast, ← pow2_natCast, ← pow2_add]
      congr 1
      push_cast
      ring
    have h1 : a * (2 : ℚ) ^ ilog2 a.den ≤ a * (a.den : ℚ) :=
      mul_le_mul_of_nonneg_left d1q (le_of_lt ha)
    have h2 : a * (2 : ℚ) ^ ilog2 a.den <
        pow2 ((ilog2 N : Int) - (ilog2 a.den : Int) + 1) * (2 : ℚ) ^ ilog2 a.den := by
      rw [e]; linarith
    exact lt_of_mul_lt_mul_right h2 (le_of_lt hq)
  have lo : pow2 ((ilog2 N : Int) - (ilog2 a.den : Int) - 1) ≤ a := by
    have e : pow2 ((ilog2 N : Int) - (ilog2 a.den : Int) - 1) * (2 : ℚ) ^ (ilog2 a.den + 1) =
        (2 : ℚ) ^ ilog2 N := by
      rw [← pow2_natCast, ← pow2_natCast, ← pow2_add]
      congr 1
      push_cast
      ring
    have h1 : a * (a.den : ℚ) ≤ a * (2 : ℚ) ^ (ilog2 a.den + 1) :=
      mul_le_mul_of_nonneg_left (le_of_lt d2q) (le_of_lt ha)
    have h2 : pow2 ((ilog2 N : Int) - (ilog2 a.den : Int) - 1) * (2 : ℚ) ^ (ilog2 a.den + 1) ≤
        a * (2 : ℚ) ^ (ilog2 a.den + 1) := by
      rw [e]; linarith
    exact le_of_mul_le_mul_right h2 hq1
  unfold binade
  simp only [hnat]
  split_ifs with h
  · exact ⟨h, up⟩
  · refine ⟨lo, ?_⟩
    rw [sub_add_cancel]
    exact not_le.mp h

theorem binade_mono {a b : ℚ} (ha : 0 < a) (hab : a ≤ b) : binade a ≤ binade b := by
  have h1 := (binade_spec ha).1
  have h2 := (binade_spec (lt_of_lt_of_le ha hab)).2
  have := lt_of_pow2_lt (lt_of_le_of_lt (le_trans h1 hab) h2)
  omega

theorem roundEven_intCast (n : Int) : roundEven (n : ℚ) = n := by
  simp [roundEven]

theorem roundEven_mono {m k : ℚ} (h : m ≤ k) : roundEven m ≤ roundEven k := by
  have hf : ⌊m⌋ ≤ ⌊k⌋ := Int.floor_mono h
  unfold roundEven
  simp only
  rcases lt_or_eq_of_le hf with h1 | h1
  · split_ifs <;> omega
  · rw [← h1]
    split_ifs <;> first | omega | linarith

theorem quantum_pos (a : ℚ) : 0 < quantum a :=
  pow2_pos _

theorem roundEven_near (m : ℚ) : |(roundEven m : ℚ) - m| ≤ 1 / 2 := by
  have h1 := Int.floor_le m
  have h2 := Int.lt_floor_add_one m
  unfold roundEven
  simp only
  rw [abs_le]
  split_ifs <;> push_cast <;> constructor <;> linarith

/-- The rounded value of a non-negative rational is an integer multiple of the spacing and
differs from it by at most half the spacing. -/
theorem to_double_abs_near (a : ℚ) :
    |to_double_abs a - a| ≤ quantum a / 2 := by
  have hq := quantum_pos a
  have h := roundEven_near (a / quantum a)
  have e : to_double_abs a - a = ((roundEven (a / quantum a) : ℚ) - a / quantum a) * quantum a := by
    unfold to_double_abs
    field_simp
  rw [e, abs_mul, abs_of_pos hq]
  calc |(roundEven (a / quantum a) : ℚ) - a / quantum a| * quantum a
      ≤ 1 / 2 * quantum a := mul_le_mul_of_nonneg_right h (le_of_lt hq)
    _ = quantum a / 2 := by ring

theorem to_double_abs_zero : to_double_abs 0 = 0 := by
  simp [to_double_abs, roundEven]

theorem to_double_abs_nonneg {a : ℚ} (ha : 0 ≤ a) : 0 ≤ to_double_abs a := by
  unfold to_double_abs
  have h1 : (0 : ℚ) ≤ a / quantum a := div_nonneg ha (le_of_lt (quantum_pos a))
  have h2 := roundEven_mono h1
  rw [show (0 : ℚ) = ((0 : Int) : ℚ) by simp, roundEven_intCast] at h2
  exact mul_nonneg (by exact_mod_cast h2) (le_of_lt (quantum_pos a))

/-- A positive rational does not round above the upper end of its binade. -/
theorem to_double_abs_le {a : ℚ} (ha : 0 < a) :
    to_double_abs a ≤ pow2 (max (binade a) (-1022) + 1) := by
  have hlt : a ≤ pow2 (max (binade a) (-1022) + 1) :=
    le_trans (le_of_lt (binade_spec ha).2) (pow2_le_pow2 (by omega))
  have e53 : pow2 53 = ((2 ^ 53 : Int) : ℚ) := by rw [pow2_eq]; norm_num
  have e : pow2 (max (binade a) (-1022) + 1) = ((2 ^ 53 : Int) : ℚ) * quantum a := by
    unfold quantum
    rw [← e53, ← pow2_add]
    congr 1
    ring
  unfold to_double_abs
  rw [e]
  refine mul_le_mul_of_nonneg_right ?_ (le_of_lt (quantum_pos a))
  have h1 : a / quantum a ≤ ((2 ^ 53 : Int) : ℚ) := by
    rw [div_le_iff₀ (quantum_pos a)]
    rw [e] at hlt
    exact hlt
  have h2 := roundEven_mono h1
  rw [roundEven_intCast] at h2
  exact_mod_cast h2

/-- A normal positive rational does not round below the lower end of its binade. -/
theorem le_to_double_abs {a : ℚ} (ha : 0 < a) (hn : -1022 ≤ binade a) :
    pow2 (binade a) ≤ to_double_abs a := by
  have hmax : max (binade a) (-1022) = binade a := max_eq_left hn
  have e52 : pow2 52 = ((2 ^ 52 : Int) : ℚ) := by rw [pow2_eq]; norm_num
  have e : pow2 (binade a) = ((2 ^ 52 : Int) : ℚ) * quantum a := by
    unfold quantum
    rw [hmax, ← e52, ← pow2_add]
    congr 1
    ring
  have hge := (binade_spec ha).1
  unfold to_double_abs
  rw [e]
  refine mul_le_mul_of_nonneg_right ?_ (le_of_lt (quantum_pos a))
  have h1 : ((2 ^ 52 : Int) : ℚ) ≤ a / quantum a := by
    rw [le_div_iff₀ (quantum_pos a)]
    rw [e] at hge
    exact hge
  have h2 := roundEven_mono h1
  rw [roundEven_intCast] at h2
  exact_mod_cast h2

theorem to_double_abs_mono {a b : ℚ} (ha : 0 ≤ a) (hab : a ≤ b) :
    to_double_abs a ≤ to_double_abs b := by
  rcases eq_or_lt_of_le ha with h0 | h0
  · rw [← h0, to_double_abs_zero]
    exact to_double_abs_nonneg (le_trans ha hab)
  · have hb : 0 < b := lt_of_lt_of_le h0 hab
    have hm := binade_mono h0 hab
    rcases eq_or_lt_of_le (show max (binade a) (-1022) ≤ max (binade b) (-1022) from
      max_le_max hm (le_refl _)) with he | he
    · have hq : quantum a = quantum b := by unfold quantum; rw [he]
      unfold to_double_abs
      rw [hq]
      refine mul_le_mul_of_nonneg_right ?_ (le_of_lt (quantum_pos b))
      exact_mod_cast roundEven_mono (div_le_div_of_nonneg_right hab (le_of_lt (quantum_pos b)))
    · have hbn : -1022 ≤ binade b := by
        by_contra hc
        rw [max_eq_right (by omega : binade b ≤ -1022)] at he
        have := le_max_right (binade a) (-1022)
        omega
      have hmb : max (binade b) (-1022) = binade b := max_eq_left hbn
      rw [hmb] at he
      exact le_trans (to_double_abs_le h0)
        (le_trans (pow2_le_pow2 (by omega)) (le_to_double_abs hb hbn))

/-- Rounding to the nearest double is monotone. -/
theorem to_double_mono {x y : ℚ} (h : x ≤ y) : to_double x ≤ to_double y := by
  unfold to_double
  split_ifs with hx hy hy
  · exact to_double_abs_mono hx h
  · linarith
  · have h1 := to_double_abs_nonneg (show (0 : ℚ) ≤ -x by linarith)
    have h2 := to_double_abs_nonneg hy
    linarith
  · have := to_double_abs_mono (show (0 : ℚ) ≤ -y by linarith) (show -y ≤ -x by linarith)
    linarith

/-- A comparison of a double with a rounded threshold that holds also holds with the exact
threshold. -/
theorem lt_of_lt_to_double {x y : ℚ} (hx : to_double x = x) (h : x < to_double y) : x < y := by
  by_contra hc
  have := to_double_mono (not_lt.mp hc)
  rw [hx] at this
  linarith

theorem gt_of_gt_to_double {x y : ℚ} (hx : to_double x = x) (h : to_double y < x) : y < x := by
  by_contra hc
  have := to_double_mono (not_lt.mp hc)
  rw [hx] at this
  linarith

/-! ## The loop in double arithmetic -/

section Fp

variable {data : List ℚ} {capE capA : Int} {delta : ℚ}

/-- One iteration in double arithmetic is one exact iteration for the `delta` that separates
the tested running extremum from the rounded threshold. -/
theorem body_fp_eq_body (s : State) :
    body_fp data capE capA delta s = body data capE capA (eff_delta data delta s) s := by
  unfold body_fp body eff_delta
  cases hx : readData data s.i with
  | none => rfl
  | some x =>
    simp only [track_flag]
    cases hf : s.is_detecting_emi <;> simp

theorem body_fp_eq_none {s : State} (hx : readData data s.i = none) :
    body_fp data capE capA delta s =
      .stop ⟨.outOfBounds s.i, s.emi_peaks, s.absop_peaks⟩ := by
  simp only [body_fp, hx]

theorem body_fp_eq_next_track {s : State} {x : ℚ} (hx : readData data s.i = some x)
    (h1 : ¬ (s.is_detecting_emi = true ∧ x < to_double ((track x s).mx - delta)))
    (h2 : ¬ (s.is_detecting_emi = false ∧ x > to_double ((track x s).mn + delta))) :
    body_fp data capE capA delta s = .next (track x s) := by
  simp only [body_fp, hx, track_flag]
  rw [if_neg h1, if_neg h2]

theorem body_fp_eq_next_emi {s : State} {x v : ℚ} (hx : readData data s.i = some x)
    (hf : s.is_detecting_emi = true) (ht : x < to_double ((track x s).mx - delta))
    (hcap : (s.emi_peaks.length : Int) < capE)
    (hv : readData data (track x s).mx_pos = some v) :
    body_fp data capE capA delta s = .next (afterEmi (track x s) v) := by
  simp only [body_fp, hx, track_flag]
  rw [if_pos ⟨hf, ht⟩]
  simp only [confirm_emi, track_emi, hv]
  rw [if_neg (by simpa using hcap)]
  simp [afterEmi]

theorem body_fp_eq_next_absop {s : State} {x v : ℚ} (hx : readData data s.i = some x)
    (hf : s.is_detecting_emi = false) (ht : x > to_double ((track x s).mn + delta))
    (hcap : (s.absop_peaks.length : Int) < capA)
    (hv : readData data (track x s).mn_pos = some v) :
    body_fp data capE capA delta s = .next (afterAbsop (track x s) v) := by
  simp only [body_fp, hx, track_flag]
  rw [if_neg (by simp [hf]), if_pos ⟨hf, ht⟩]
  simp only [confirm_absop, track_absop, hv]
  rw [if_neg (by simpa using hcap)]
  simp [afterAbsop]

theorem body_fp_eq_stop_absop {s : State} {x : ℚ} (hx : readData data s.i = some x)
    (hf : s.is_detecting_emi = false) (ht : x > to_double ((track x s).mn + delta))
    (hcap : capA ≤ (s.absop_peaks.length : Int)) :
    body_fp data capE capA delta s = .stop ⟨.ret 2, s.emi_peaks, s.absop_peaks⟩ := by
  simp [body_fp, hx, hf, ht, confirm_absop, hcap]

theorem loop_fp_done (fuel : Nat) {s : State} (h : ¬ s.i < (data.length : Int)) :
    loop_fp data capE capA delta fuel s = ⟨.ret 0, s.emi_peaks, s.absop_peaks⟩ := by
  cases fuel <;> simp [loop_fp, h]

theorem loop_fp_stop (fuel : Nat) {s : State} {r : Result} (hi : s.i < (data.length : Int))
    (hb : body_fp data capE capA delta s = .stop r) :
    loop_fp data capE capA delta (fuel + 1) s = r := by
  simp [loop_fp, hi, hb]

theorem loop_fp_next (fuel : Nat) {s t : State} (hi : s.i < (data.length : Int))
    (hb : body_fp data capE capA delta s = .next t) :
    loop_fp data capE capA delta (fuel + 1) s =
      loop_fp data capE capA delta fuel (advance t) := by
  simp [loop_fp, hi, hb, advance]

/-- Invariant rule for the loop in double arithmetic. -/
theorem loop_fp_invariant (Inv : State → Prop) (Post : Result → Prop)
    (hnext : ∀ s t, Inv s → s.i < (data.length : Int) →
      body_fp data capE capA delta s = .next t → Inv (advance t))
    (hstop : ∀ s r, Inv s → s.i < (data.length : Int) →
      body_fp data capE capA delta s = .stop r → Post r)
    (hdone : ∀ s, Inv s → ¬ s.i < (data.length : Int) →
      Post ⟨.ret 0, s.emi_peaks, s.absop_peaks⟩)
    (hfuel : ∀ s, Inv s → Post ⟨.outOfFuel, s.emi_peaks, s.absop_peaks⟩) :
    ∀ fuel s, Inv s → Post (loop_fp data capE capA delta fuel s) := by
  intro fuel
  induction fuel with
  | zero =>
    intro s hs
    by_cases hi : s.i < (data.length : Int)
    · simpa [loop_fp, hi] using hfuel s hs
    · rw [loop_fp_done 0 hi]; exact hdone s hs hi
  | succ fuel ih =>
    intro s hs
    by_cases hi : s.i < (data.length : Int)
    · cases hb : body_fp data capE capA delta s with
      | next t => rw [loop_fp_next fuel hi hb]; exact ih _ (hnext s t hs hi hb)
      | stop r => rw [loop_fp_stop fuel hi hb]; exact hstop s r hs hi hb
    · rw [loop_fp_done _ hi]; exact hdone s hs hi

/-- The measure `budget` decreases at every iteration, whatever the arithmetic. -/
theorem loop_fp_within_budget : ∀ (fuel : Nat) (s : State), budget data capE capA s < fuel →
    (loop_fp data capE capA delta fuel s).exit ≠ .outOfFuel := by
  intro fuel
  induction fuel with
  | zero => intro s h; omega
  | succ fuel ih =>
    intro s hμ
    by_cases hi : s.i < (data.length : Int)
    · cases hb : body_fp data capE capA delta s with
      | next t =>
        rw [loop_fp_next fuel hi hb]
        rw [body_fp_eq_body] at hb
        have := budget_decreases hi hb
        exact ih _ (by omega)
      | stop r =>
        rw [loop_fp_stop fuel hi hb]
        rw [body_fp_eq_body] at hb
        exact body_stop_exit hb
    · rw [loop_fp_done _ hi]; simp

end Fp

/-- The iteration budget of `detect_peak_fp` is never used up: on every input the function
returns a code or reads outside the data. -/
theorem detect_peak_fp_returns (data : List ℚ) (capE capA : Int) (delta : ℚ)
    (emi_first : Bool) :
    (detect_peak_fp data capE capA delta emi_first).exit ≠ .outOfFuel := by
  unfold detect_peak_fp
  split
  · simp
  · exact loop_fp_within_budget _ _ (budget_init_lt data capE capA _ emi_first)

/-- Invariant rule for `detect_peak_fp` on non-empty data. -/
theorem detect_peak_fp_induct {data : List ℚ} {capE capA : Int} {delta : ℚ}
    {emi_first : Bool} (Inv : State → Prop) (Post : Result → Prop) (hn : 1 ≤ data.length)
    (hinit : Inv (initState (sample data 0) emi_first))
    (hnext : ∀ s t, Inv s → s.i < (data.length : Int) →
      body_fp data capE capA delta s = .next t → Inv (advance t))
    (hstop : ∀ s r, Inv s → s.i < (data.length : Int) →
      body_fp data capE capA delta s = .stop r → Post r)
    (hdone : ∀ s, Inv s → ¬ s.i < (data.length : Int) →
      Post ⟨.ret 0, s.emi_peaks, s.absop_peaks⟩) :
    Post (detect_peak_fp data capE capA delta emi_first) := by
  have hret := detect_peak_fp_returns data capE capA delta emi_first
  unfold detect_peak_fp at hret ⊢
  rw [readData_zero hn] at hret ⊢
  simp only at hret ⊢
  exact loop_fp_invariant Inv (fun r => r.exit ≠ .outOfFuel → Post r)
    hnext (fun s r a b c _ => hstop s r a b c) (fun s a b _ => hdone s a b)
    (fun s _ h => absurd rfl h) _ _ hinit hret

/-! ## Strictly increasing data in double arithmetic -/

/-- A threshold below a sample that is a double is not above it after rounding. -/
theorem to_double_sub_le {x delta : ℚ} (hx : to_double x = x) (hd : 0 ≤ delta) :
    to_double (x - delta) ≤ x := by
  have := @to_double_mono (x - delta) x (by linarith)
  rwa [hx] at this

/-- A threshold above a sample that is a double is not below it after rounding. -/
theorem le_to_double_add {x delta : ℚ} (hx : to_double x = x) (hd : 0 ≤ delta) :
    x ≤ to_double (x + delta) := by
  have := @to_double_mono x (x + delta) (by linarith)
  rwa [hx] at this

theorem riseEmi_body_fp {data : List ℚ} {capE capA : Int} {delta : ℚ} {s : State}
    (hinc : data.Pairwise (· < ·)) (hd : 0 < delta) (hdbl : ∀ x ∈ data, to_double x = x)
    (h : RiseEmi data s) (hi : s.i < (data.length : Int)) :
    body_fp data capE capA delta s = .next (track (sample data s.i) s) ∧
      RiseEmi data (advance (track (sample data s.i) s)) := by
  have hpos := h.i_pos
  have hlt : s.mx < sample data s.i := by
    rw [h.mx_eq]; exact sample_lt_of_pairwise hinc (by omega) (by omega) hi
  have hrd : readData data s.i = some (sample data s.i) := readData_of_lt (by omega) hi
  have hmx : (track (sample data s.i) s).mx = sample data s.i := by rw [track_mx, if_pos hlt]
  have hle := to_double_sub_le (hdbl _ (sample_mem (by omega) hi)) (le_of_lt hd)
  refine ⟨body_fp_eq_next_track hrd ?_ ?_, ⟨by simpa using h.flag, by simpa using h.emi,
    by simpa using h.absop, by simp only [advance_i, track_i]; omega, ?_⟩⟩
  · rw [hmx]; simp only [not_and, not_lt]; intro _; exact hle
  · simp [h.flag]
  · simp only [advance_mx, advance_i, track_i, add_sub_cancel_right]; exact hmx

theorem riseAbsopFp_quiet {data : List ℚ} {capE capA : Int} {delta : ℚ} {s : State}
    (hinc : data.Pairwise (· < ·)) (h : RiseAbsopFp data delta s)
    (hi : s.i < (data.length : Int))
    (hx : sample data s.i ≤ to_double (sample data 0 + delta)) :
    body_fp data capE capA delta s = .next (track (sample data s.i) s) ∧
      RiseAbsopFp data delta (advance (track (sample data s.i) s)) := by
  have hpos := h.i_pos
  have hlt : ¬ sample data s.i < s.mn := by
    rw [h.mn_eq]
    exact not_lt.mpr (le_of_lt (sample_lt_of_pairwise hinc (le_refl 0) (by omega) hi))
  have hrd : readData data s.i = some (sample data s.i) := readData_of_lt (by omega) hi
  have hmn : (track (sample data s.i) s).mn = sample data 0 := by
    rw [track_mn, if_neg hlt, h.mn_eq]
  refine ⟨body_fp_eq_next_track hrd ?_ ?_, ⟨by simpa using h.flag, by simpa using h.emi,
    by simpa using h.absop, by simp only [advance_i, track_i]; omega, ?_, ?_, ?_⟩⟩
  · simp [h.flag]
  · rw [hmn]; simp only [not_and, not_lt, gt_iff_lt]; intro _
    exact hx
  · simp only [advance_mn]; exact hmn
  · simp only [advance_mn_pos]; rw [track_mn_pos, if_neg hlt]; exact h.mn_pos_eq
  · intro j hj0 hj1
    simp only [advance_i, track_i] at hj1
    rcases (show j < s.i ∨ j = s.i by omega) with h2 | h2
    · exact h.seen j hj0 h2
    · rw [h2]; exact hx

theorem riseAbsopFp_trigger {data : List ℚ} {delta : ℚ} {s : State}
    (hinc : data.Pairwise (· < ·)) (h : RiseAbsopFp data delta s)
    (hi : s.i < (data.length : Int))
    (hx : to_double (sample data 0 + delta) < sample data s.i) :
    readData data s.i = some (sample data s.i) ∧
    sample data s.i > to_double ((track (sample data s.i) s).mn + delta) ∧
    (track (sample data s.i) s).mn_pos = 0 := by
  have hpos := h.i_pos
  have hlt : ¬ sample data s.i < s.mn := by
    rw [h.mn_eq]
    exact not_lt.mpr (le_of_lt (sample_lt_of_pairwise hinc (le_refl 0) (by omega) hi))
  refine ⟨readData_of_lt (by omega) hi, ?_, ?_⟩
  · rw [track_mn, if_neg hlt, h.mn_eq]; exact hx
  · rw [track_mn_pos, if_neg hlt]; exact h.mn_pos_eq

theorem riseAbsopFp_confirm_stop {data : List ℚ} {capE capA : Int} {delta : ℚ} {s : State}
    (hinc : data.Pairwise (· < ·)) (h : RiseAbsopFp data delta s)
    (hi : s.i < (data.length : Int))
    (hx : to_double (sample data 0 + delta) < sample data s.i) (hcap : capA ≤ 0) :
    body_fp data capE capA delta s = .stop ⟨.ret 2, [], []⟩ := by
  obtain ⟨hrd, ht, -⟩ := riseAbsopFp_trigger hinc h hi hx
  have := @body_fp_eq_stop_absop data capE capA delta s _ hrd h.flag ht
    (by rw [h.absop]; simpa using hcap)
  rw [h.emi, h.absop] at this
  exact this

theorem riseAbsopFp_confirm_next {data : List ℚ} {capE capA : Int} {delta : ℚ} {s : State}
    (hn : 1 ≤ data.length) (hinc : data.Pairwise (· < ·)) (h : RiseAbsopFp data delta s)
    (hi : s.i < (data.length : Int))
    (hx : to_double (sample data 0 + delta) < sample data s.i) (hcap : 0 < capA) :
    body_fp data capE capA delta s =
        .next (afterAbsop (track (sample data s.i) s) (sample data 0)) ∧
      RiseAfter data (advance (afterAbsop (track (sample data s.i) s) (sample data 0))) := by
  obtain ⟨hrd, ht, hpos⟩ := riseAbsopFp_trigger hinc h hi hx
  refine ⟨body_fp_eq_next_absop hrd h.flag ht (by rw [h.absop]; simpa using hcap)
    (by rw [hpos]; exact readData_zero hn), ⟨by simp, by simpa using h.emi, ?_, ?_, ?_⟩⟩
  · simp [h.absop, hpos]
  · simp [hpos]
  · simp [hpos]

theorem riseAfter_body_fp {data : List ℚ} {capE capA : Int} {delta : ℚ} {s : State}
    (hinc : data.Pairwise (· < ·)) (hd : 0 < delta) (hdbl : ∀ x ∈ data, to_double x = x)
    (h : RiseAfter data s) (hi : s.i < (data.length : Int)) :
    body_fp data capE capA delta s = .next (track (sample data s.i) s) ∧
      RiseAfter data (advance (track (sample data s.i) s)) := by
  have hpos := h.i_nonneg
  have hrd : readData data s.i = some (sample data s.i) := readData_of_lt hpos hi
  have hmx : (track (sample data s.i) s).mx = sample data s.i := by
    rw [track_mx, h.mx_eq]
    by_cases h0 : s.i = 0
    · simp [h0]
    · rw [if_neg h0, if_pos (sample_lt_of_pairwise hinc (by omega) (by omega) hi)]
  have hle := to_double_sub_le (hdbl _ (sample_mem hpos hi)) (le_of_lt hd)
  refine ⟨body_fp_eq_next_track hrd ?_ ?_, ⟨by simpa using h.flag, by simpa using h.emi,
    by simpa using h.absop, by simp only [advance_i, track_i]; omega, ?_⟩⟩
  · rw [hmx]; simp only [not_and, not_lt]; intro _; exact hle
  · simp [h.flag]
  · simp only [advance_mx, advance_i, track_i, add_sub_cancel_right]
    rw [if_neg (by omega)]; exact hmx

theorem riseAbsopFp_init {data : List ℚ} {delta : ℚ} (hn : 1 ≤ data.length) (hd : 0 < delta)
    (hdbl : ∀ x ∈ data, to_double x = x) :
    RiseAbsopFp data delta (initState (sample data 0) false) := by
  refine ⟨rfl, rfl, rfl, by simp [initState], by simp [initState], by simp [initState], ?_⟩
  intro j h0 h1
  have : j = 0 := by simp only [initState] at h1; omega
  subst this
  exact le_to_double_add (hdbl _ (sample_mem (le_refl 0) (by omega))) (le_of_lt hd)

/-- On strictly increasing data nothing is recorded when a maximum is sought first. -/
theorem detect_peak_fp_rise_emi {data : List ℚ} (capE capA : Int) {delta : ℚ}
    (hn : 1 ≤ data.length) (hinc : data.Pairwise (· < ·)) (hd : 0 < delta)
    (hdbl : ∀ x ∈ data, to_double x = x) :
    detect_peak_fp data capE capA delta true = ⟨.ret 0, [], []⟩ := by
  refine detect_peak_fp_induct (RiseEmi data) (fun r => r = ⟨.ret 0, [], []⟩) hn
    ⟨rfl, rfl, rfl, by simp [initState], by simp [initState]⟩ ?_ ?_ ?_
  · intro s t h hi hb
    obtain ⟨h1, h2⟩ := @riseEmi_body_fp data capE capA delta s hinc hd hdbl h hi
    rw [h1] at hb; simp only [Step.next.injEq] at hb; subst hb; exact h2
  · intro s r h hi hb
    obtain ⟨h1, -⟩ := @riseEmi_body_fp data capE capA delta s hinc hd hdbl h hi
    rw [h1] at hb; simp at hb
  · intro s h _
    rw [h.emi, h.absop]

/-- On strictly increasing data nothing is recorded when a minimum is sought first and no
sample exceeds the rounded threshold `data[0] + delta`. -/
theorem detect_peak_fp_rise_absop {data : List ℚ} (capE capA : Int) {delta : ℚ}
    (hn : 1 ≤ data.length) (hinc : data.Pairwise (· < ·)) (hd : 0 < delta)
    (hdbl : ∀ x ∈ data, to_double x = x)
    (hle : ∀ x ∈ data, x ≤ to_double (sample data 0 + delta)) :
    detect_peak_fp data capE capA delta false = ⟨.ret 0, [], []⟩ := by
  refine detect_peak_fp_induct (RiseAbsopFp data delta) (fun r => r = ⟨.ret 0, [], []⟩) hn
    (riseAbsopFp_init hn hd hdbl) ?_ ?_ ?_
  · intro s t h hi hb
    obtain ⟨h1, h2⟩ := @riseAbsopFp_quiet data capE capA delta s hinc h hi
      (hle _ (sample_mem (by have := h.i_pos; omega) hi))
    rw [h1] at hb; simp only [Step.next.injEq] at hb; subst hb; exact h2
  · intro s r h hi hb
    obtain ⟨h1, -⟩ := @riseAbsopFp_quiet data capE capA delta s hinc h hi
      (hle _ (sample_mem (by have := h.i_pos; omega) hi))
    rw [h1] at hb; simp at hb
  · intro s h _
    rw [h.emi, h.absop]

/-- On strictly increasing data, when a minimum is sought first, some sample exceeds the
rounded threshold `data[0] + delta` and the absorption list has room, the only peak recorded
is a minimum at index 0. -/
theorem detect_peak_fp_rise_confirm {data : List ℚ} (capE : Int) {capA : Int} {delta : ℚ}
    (hn : 1 ≤ data.length) (hinc : data.Pairwise (· < ·)) (hd : 0 < delta)
    (hdbl : ∀ x ∈ data, to_double x = x)
    (hex : ∃ x ∈ data, to_double (sample data 0 + delta) < x) (hcap : 0 < capA) :
    detect_peak_fp data capE capA delta false = ⟨.ret 0, [], [0]⟩ := by
  refine detect_peak_fp_induct (fun s => RiseAbsopFp data delta s ∨ RiseAfter data s)
    (fun r => r = ⟨.ret 0, [], [0]⟩) hn (Or.inl (riseAbsopFp_init hn hd hdbl)) ?_ ?_ ?_
  · intro s t h hi hb
    rcases h with h | h
    · rcases le_or_lt (sample data s.i) (to_double (sample data 0 + delta)) with hx | hx
      · obtain ⟨h1, h2⟩ := @riseAbsopFp_quiet data capE capA delta s hinc h hi hx
        rw [h1] at hb; simp only [Step.next.injEq] at hb; subst hb; exact Or.inl h2
      · obtain ⟨h1, h2⟩ :=
          @riseAbsopFp_confirm_next data capE capA delta s hn hinc h hi hx hcap
        rw [h1] at hb; simp only [Step.next.injEq] at hb; subst hb; exact Or.inr h2
    · obtain ⟨h1, h2⟩ := @riseAfter_body_fp data capE capA delta s hinc hd hdbl h hi
      rw [h1] at hb; simp only [Step.next.injEq] at hb; subst hb; exact Or.inr h2
  · intro s r h hi hb
    rcases h with h | h
    · rcases le_or_lt (sample data s.i) (to_double (sample data 0 + delta)) with hx | hx
      · obtain ⟨h1, -⟩ := @riseAbsopFp_quiet data capE capA delta s hinc h hi hx
        rw [h1] at hb; simp at hb
      · obtain ⟨h1, -⟩ :=
          @riseAbsopFp_confirm_next data capE capA delta s hn hinc h hi hx hcap
        rw [h1] at hb; simp at hb
    · obtain ⟨h1, -⟩ := @riseAfter_body_fp data capE capA delta s hinc hd hdbl h hi
      rw [h1] at hb; simp at hb
  · intro s h hi
    rcases h with h | h
    · exfalso
      obtain ⟨x, hx, hbig⟩ := hex
      obtain ⟨j, hj0, hj1, rfl⟩ := exists_sample_of_mem hx
      have := h.seen j hj0 (by omega)
      linarith
    · rw [h.emi, h.absop]

/-- On strictly increasing data, when a minimum is sought first, some sample exceeds the
rounded threshold `data[0] + delta` and the absorption list has no room, the run returns 2. -/
theorem detect_peak_fp_rise_full {data : List ℚ} (capE : Int) {capA : Int} {delta : ℚ}
    (hn : 1 ≤ data.length) (hinc : data.Pairwise (· < ·)) (hd : 0 < delta)
    (hdbl : ∀ x ∈ data, to_double x = x)
    (hex : ∃ x ∈ data, to_double (sample data 0 + delta) < x) (hcap : capA ≤ 0) :
    detect_peak_fp data capE capA delta false = ⟨.ret 2, [], []⟩ := by
  refine detect_peak_fp_induct (RiseAbsopFp data delta) (fun r => r = ⟨.ret 2, [], []⟩) hn
    (riseAbsopFp_init hn hd hdbl) ?_ ?_ ?_
  · intro s t h hi hb
    rcases le_or_lt (sample data s.i) (to_double (sample data 0 + delta)) with hx | hx
    · obtain ⟨h1, h2⟩ := @riseAbsopFp_quiet data capE capA delta s hinc h hi hx
      rw [h1] at hb; simp only [Step.next.injEq] at hb; subst hb; exact h2
    · rw [@riseAbsopFp_confirm_stop data capE capA delta s hinc h hi hx hcap] at hb
      simp at hb
  · intro s r h hi hb
    rcases le_or_lt (sample data s.i) (to_double (sample data 0 + delta)) with hx | hx
    · obtain ⟨h1, -⟩ := @riseAbsopFp_quiet data capE capA delta s hinc h hi hx
      rw [h1] at hb; simp at hb
    · rw [@riseAbsopFp_confirm_stop data capE capA delta s hinc h hi hx hcap] at hb
      simp only [Step.stop.injEq] at hb
      exact hb.symm
  · intro s h hi
    exfalso
    obtain ⟨x, hx, hbig⟩ := hex
    obtain ⟨j, hj0, hj1, rfl⟩ := exists_sample_of_mem hx
    have := h.seen j hj0 (by omega)
    linarith

/-! ## Double arithmetic without rounding error -/

section Exact

variable {data : List ℚ} {capE capA : Int} {delta : ℚ}

theorem mem_of_readData {k : Int} {v : ℚ} (h : readData data k = some v) : v ∈ data := by
  obtain ⟨h0, h1, rfl⟩ := readData_eq_some h
  exact sample_mem h0 h1

theorem inData_track {s : State} {x : ℚ} (h : InData data s) (hx : x ∈ data) :
    InData data (track x s) := by
  unfold InData
  rw [track_mx, track_mn]
  constructor
  · split_ifs
    · exact hx
    · exact h.1
  · split_ifs
    · exact hx
    · exact h.2

theorem inData_init {v : ℚ} (emi_first : Bool) (hv : readData data 0 = some v) :
    InData data (initState v emi_first) :=
  ⟨mem_of_readData hv, mem_of_readData hv⟩

/-- When the thresholds are computed without rounding error, an iteration in double arithmetic
is the exact iteration. -/
theorem body_fp_eq_exact (hex : ExactThresholds data delta) {s : State}
    (hin : InData data s) :
    body_fp data capE capA delta s = body data capE capA delta s := by
  unfold body_fp body
  cases hx : readData data s.i with
  | none => rfl
  | some x =>
    have ht := inData_track hin (mem_of_readData hx)
    simp only [(hex _ ht.1).1, (hex _ ht.2).2]

theorem forward_body_fp_eq_exact (hex : ExactThresholds data delta) {s : State}
    (hin : InData data s) :
    forward_body_fp data capE capA delta s = forward_body data capE capA delta s := by
  unfold forward_body_fp forward_body
  cases hx : readData data s.i with
  | none => rfl
  | some x =>
    have ht := inData_track hin (mem_of_readData hx)
    simp only [(hex _ ht.1).1, (hex _ ht.2).2]

theorem inData_next {s t : State} (hin : InData data s)
    (hb : body data capE capA delta s = .next t) : InData data (advance t) := by
  obtain ⟨x, hx, h⟩ := body_next hb
  have ht := inData_track hin (mem_of_readData hx)
  rcases h with ⟨-, -, rfl⟩ | ⟨-, -, -, v, hv, rfl⟩ | ⟨-, -, -, v, hv, rfl⟩
  · exact ht
  · exact ⟨ht.1, mem_of_readData hv⟩
  · exact ⟨mem_of_readData hv, ht.2⟩

theorem inData_forward_next {s t : State} (hin : InData data s)
    (hb : forward_body data capE capA delta s = .next t) : InData data (advance t) := by
  rcases forward_body_cases data capE capA delta s with ⟨-, h⟩ | ⟨x, hx, h⟩
  · rw [h] at hb; simp at hb
  · have ht := inData_track hin (mem_of_readData hx)
    rcases h with ⟨-, -, h⟩ | ⟨-, -, -, h⟩ | ⟨-, -, -, h⟩ | ⟨-, -, -, h⟩ | ⟨-, -, -, h⟩ <;>
      rw [h] at hb
    · simp only [Step.next.injEq] at hb
      subst hb; exact ht
    · simp at hb
    · simp only [Step.next.injEq] at hb
      subst hb; exact ⟨ht.1, mem_of_readData hx⟩
    · simp at hb
    · simp only [Step.next.injEq] at hb
      subst hb; exact ⟨mem_of_readData hx, ht.2⟩

theorem loop_fp_eq_exact (hex : ExactThresholds data delta) : ∀ (fuel : Nat) (s : State),
    InData data s →
    loop_fp data capE capA delta fuel s = loop data capE capA delta fuel s := by
  intro fuel
  induction fuel with
  | zero => intro s _; rfl
  | succ fuel ih =>
    intro s hin
    by_cases hi : s.i < (data.length : Int)
    · have e := @body_fp_eq_exact data capE capA delta hex s hin
      cases hb : body data capE capA delta s with
      | next t =>
        rw [loop_next fuel hi hb, loop_fp_next fuel hi (e.trans hb)]
        exact ih _ (inData_next hin hb)
      | stop r => rw [loop_stop fuel hi hb, loop_fp_stop fuel hi (e.trans hb)]
    · rw [loop_done _ hi, loop_fp_done _ hi]

theorem forward_loop_fp_eq_exact (hex : ExactThresholds data delta) :
    ∀ (fuel : Nat) (s : State), InData data s →
    forward_loop_fp data capE capA delta fuel s = forward_loop data capE capA delta fuel s := by
  intro fuel
  induction fuel with
  | zero => intro s _; rfl
  | succ fuel ih =>
    intro s hin
    by_cases hi : s.i < (data.length : Int)
    · have e := @forward_body_fp_eq_exact data capE capA delta hex s hin
      cases hb : forward_body data capE capA delta s with
      | next t =>
        rw [forward_loop_next fuel hi hb]
        simp only [forward_loop_fp, hi, if_true, e, hb]
        exact ih _ (inData_forward_next hin hb)
      | stop r =>
        rw [forward_loop_stop fuel hi hb]
        simp only [forward_loop_fp, hi, if_true, e, hb]
    · rw [forward_loop_done _ hi]
      simp [forward_loop_fp, hi]

/-- When the thresholds are computed without rounding error, `detect_peak` in double
arithmetic returns what the exact `detect_peak` returns. -/
theorem detect_peak_fp_eq_exact (capE capA : Int) (emi_first : Bool)
    (hex : ExactThresholds data delta) :
    detect_peak_fp data capE capA delta emi_first =
      detect_peak data capE capA delta emi_first := by
  unfold detect_peak_fp detect_peak detect_peak_fuel
  cases hv : readData data 0 with
  | none => rfl
  | some v => exact loop_fp_eq_exact hex _ _ (inData_init emi_first hv)

theorem detect_peak_forward_fp_eq_exact (capE capA : Int) (emi_first : Bool)
    (hex : ExactThresholds data delta) :
    detect_peak_forward_fp data capE capA delta emi_first =
      detect_peak_forward data capE capA delta emi_first := by
  unfold detect_peak_forward_fp detect_peak_forward
  cases hv : readData data 0 with
  | none => rfl
  | some v => exact forward_loop_fp_eq_exact hex _ _ (inData_init emi_first hv)

theorem reaches_of_reachesFp (hex : ExactThresholds data delta) {s0 s : State}
    (h0 : InData data s0) (h : ReachesFp data capE capA delta s0 s) :
    Reaches data capE capA delta s0 s ∧ InData data s := by
  induction h with
  | start => exact ⟨Reaches.start, h0⟩
  | step _ hi hb ih =>
    rw [body_fp_eq_exact hex ih.2] at hb
    exact ⟨Reaches.step ih.1 hi hb, inData_next ih.2 hb⟩

theorem reachesFp_of_reaches (hex : ExactThresholds data delta) {s0 s : State}
    (h0 : InData data s0) (h : Reaches data capE capA delta s0 s) :
    ReachesFp data capE capA delta s0 s ∧ InData data s := by
  induction h with
  | start => exact ⟨ReachesFp.start, h0⟩
  | step _ hi hb ih =>
    exact ⟨ReachesFp.step ih.1 hi ((body_fp_eq_exact hex ih.2).trans hb), inData_next ih.2 hb⟩

end Exact

/-! ## The specification's claims -/

theorem prevAbsop_spec {emi_first : Bool} {emi absop : List Int} {k : Nat}
    (hk : k < emi.length) (hl : AltLengths emi_first emi absop) :
    (emi_first = true ∧ k = 0 ∧ prevAbsop emi_first absop k = 0) ∨
    (emi_first = true ∧ 0 < k ∧ absop[k - 1]? = some (prevAbsop emi_first absop k)) ∨
    (emi_first = false ∧ absop[k]? = some (prevAbsop emi_first absop k)) := by
  unfold AltLengths at hl
  unfold prevAbsop
  cases emi_first
  · simp only [Bool.false_eq_true, if_false] at hl ⊢
    have h : k < absop.length := by omega
    simp [List.getElem?_eq_getElem h]
  · simp only [if_true] at hl ⊢
    by_cases h0 : k = 0
    · simp [h0]
    · have h : k - 1 < absop.length := by omega
      simp [h0, List.getElem?_eq_getElem h, Nat.pos_of_ne_zero h0]

/-- C4. Capacity failure: for every input with capacities `≥ 0` (any data, any `delta`),
`detect_peak` returns 1 exactly when its run reaches an iteration in which a maximum is
confirmed (the test of line 124 holds after the updates of lines 113-122) while the emission
list already holds `max_emi_peaks` entries, and returns 2 exactly when a minimum is confirmed
while the absorption list already holds `max_absop_peaks` entries; the lists returned are the
lists of that instant (nothing is appended); in every outcome the counts do not exceed the
capacities, with equality for the list that overflowed. -/
theorem C4_capacity_failure (data : List ℚ) (capE capA : Int) (delta : ℚ) (emi_first : Bool)
    (hE : 0 ≤ capE) (hA : 0 ≤ capA) :
    ((detect_peak data capE capA delta emi_first).exit = .ret 1 ↔
      ∃ s x, Reaches data capE capA delta (initState (sample data 0) emi_first) s ∧
        s.i < (data.length : Int) ∧ readData data s.i = some x ∧
        s.is_detecting_emi = true ∧ x < (track x s).mx - delta ∧
        (s.emi_peaks.length : Int) = capE ∧
        (detect_peak data capE capA delta emi_first).emi_peaks = s.emi_peaks ∧
        (detect_peak data capE capA delta emi_first).absop_peaks = s.absop_peaks) ∧
    ((detect_peak data capE capA delta emi_first).exit = .ret 2 ↔
      ∃ s x, Reaches data capE capA delta (initState (sample data 0) emi_first) s ∧
        s.i < (data.length : Int) ∧ readData data s.i = some x ∧
        s.is_detecting_emi = false ∧ x > (track x s).mn + delta ∧
        (s.absop_peaks.length : Int) = capA ∧
        (detect_peak data capE capA delta emi_first).emi_peaks = s.emi_peaks ∧
        (detect_peak data capE capA delta emi_first).absop_peaks = s.absop_peaks) ∧
    ((detect_peak data capE capA delta emi_first).emi_peaks.length : Int) ≤ capE ∧
    ((detect_peak data capE capA delta emi_first).absop_peaks.length : Int) ≤ capA ∧
    ((detect_peak data capE capA delta emi_first).exit = .ret 1 →
      ((detect_peak data capE capA delta emi_first).emi_peaks.length : Int) = capE) ∧
    ((detect_peak data capE capA delta emi_first).exit = .ret 2 →
      ((detect_peak data capE capA delta emi_first).absop_peaks.length : Int) = capA) := by
  by_cases hn : 1 ≤ data.length
  swap
  · have h0 : data = [] := List.length_eq_zero.mp (by omega)
    subst h0
    have hr : detect_peak [] capE capA delta emi_first = ⟨.outOfBounds 0, [], []⟩ := by
      simp [detect_peak, detect_peak_fuel, readData]
    rw [hr]
    refine ⟨⟨by simp, ?_⟩, ⟨by simp, ?_⟩, by simpa using hE, by simpa using hA, by simp,
      by simp⟩
    · rintro ⟨s, x, -, -, hx, -⟩
      have := (readData_eq_some hx).2.1
      have := (readData_eq_some hx).1
      simp only [List.length_nil, Nat.cast_zero] at *
      omega
    · rintro ⟨s, x, -, -, hx, -⟩
      have := (readData_eq_some hx).2.1
      have := (readData_eq_some hx).1
      simp only [List.length_nil, Nat.cast_zero] at *
      omega
  have hp := detect_peak_capPost delta emi_first hn hE hA
  refine ⟨⟨hp.emi_full, ?_⟩, ⟨hp.absop_full, ?_⟩, hp.emi_le, hp.absop_le, ?_, ?_⟩
  · rintro ⟨s, x, hr, hi, hx, hf, ht, hlen, -, -⟩
    rw [reaches_stop hn hr hi (body_eq_stop_emi hx hf ht (le_of_eq hlen.symm))]
  · rintro ⟨s, x, hr, hi, hx, hf, ht, hlen, -, -⟩
    rw [reaches_stop hn hr hi (body_eq_stop_absop hx hf ht (le_of_eq hlen.symm))]
  · intro h
    obtain ⟨s, x, -, -, -, -, -, hlen, he, -⟩ := hp.emi_full h
    rw [he]; exact hlen
  · intro h
    obtain ⟨s, x, -, -, -, -, -, hlen, -, ha⟩ := hp.absop_full h
    rw [ha]; exact hlen

/-- Witness of C4 on the data `[0, 5, 0, 5, 0]` with `delta = 1`, emission first and room for
one maximum: the second maximum makes the run return 1 with one recorded maximum. -/
theorem C4_witness :
    (0 : Int) ≤ 1 ∧ (0 : Int) ≤ 3 ∧
    detect_peak [0, 5, 0, 5, 0] 1 3 1 true = ⟨.ret 1, [1], [2]⟩ ∧
    (((detect_peak [0, 5, 0, 5, 0] 1 3 1 true).emi_peaks.length : Int) ≤ 1 ∧
     ((detect_peak [0, 5, 0, 5, 0] 1 3 1 true).absop_peaks.length : Int) ≤ 3 ∧
     ((detect_peak [0, 5, 0, 5, 0] 1 3 1 true).exit = .ret 1 →
       ((detect_peak [0, 5, 0, 5, 0] 1 3 1 true).emi_peaks.length : Int) = 1) ∧
     ((detect_peak [0, 5, 0, 5, 0] 1 3 1 true).exit = .ret 2 →
       ((detect_peak [0, 5, 0, 5, 0] 1 3 1 true).absop_peaks.length : Int) = 3)) :=
  ⟨by decide, by decide, by decide!,
    (C4_capacity_failure [0, 5, 0, 5, 0] 1 3 1 true (by decide) (by decide)).2.2⟩

/-- C6, counterexample. On the samples `[0, 1, 0.5, 2, 1, 3, 0.5]` with `delta = 0.8`,
absorption first and capacities 7, `detect_peak` succeeds but index 2 is not in the returned
absorption list. -/
theorem C6_counterexample :
    (detect_peak [0, 1, 0.5, 2, 1, 3, 0.5] 7 7 0.8 false).exit = .ret 0 ∧
    (2 : Int) ∉ (detect_peak [0, 1, 0.5, 2, 1, 3, 0.5] 7 7 0.8 false).absop_peaks := by
  decide!

/-- C6, amended. On the samples `[0, 1, 0.5, 2, 1, 3, 0.5]` with `delta = 0.8`, absorption
first and capacities of at least 7, `detect_peak` succeeds with the minima confirmed at
indices 0 and 4 (values 0 and 1) and the maxima confirmed at indices 3 and 5. -/
theorem C6_scenario_amended (capE capA : Int) (hE : 7 ≤ capE) (hA : 7 ≤ capA) :
    detect_peak [0, 1, 0.5, 2, 1, 3, 0.5] capE capA 0.8 false = ⟨.ret 0, [3, 5], [0, 4]⟩ := by
  have h7 : detect_peak [0, 1, 0.5, 2, 1, 3, 0.5] 7 7 0.8 false = ⟨.ret 0, [3, 5], [0, 4]⟩ := by
    decide!
  rw [detect_peak_cap_mono hE hA (by rw [h7]), h7]

/-- Witness of the amended C6 with the capacities 200 of the command-line tool. -/
theorem C6_witness :
    (7 : Int) ≤ 200 ∧ (7 : Int) ≤ 200 ∧
    detect_peak [0, 1, 0.5, 2, 1, 3, 0.5] 200 200 0.8 false = ⟨.ret 0, [3, 5], [0, 4]⟩ :=
  ⟨by decide, by decide, C6_scenario_amended 200 200 (by decide) (by decide)⟩

/-- C7, counterexample. On the strictly increasing samples `[0, 5]` with `delta = 1` and
absorption first, `detect_peak` (in double arithmetic, where every operation on these values
is exact) records a minimum at index 0. -/
theorem C7_counterexample :
    ([0, 5] : List ℚ).Pairwise (· < ·) ∧
    detect_peak_fp [0, 5] 1 1 1 false = ⟨.ret 0, [], [0]⟩ ∧
    detect_peak_fp [0, 5] 1 1 1 false ≠ ⟨.ret 0, [], []⟩ := by
  refine ⟨by simp, by decide!, by decide!⟩

/-- C7, amended. For strictly increasing non-empty data of doubles, `delta > 0` and capacities
`≥ 0`, in double arithmetic: when a maximum is sought first `detect_peak` succeeds with two
empty lists; when a minimum is sought first it succeeds with two empty lists provided no
sample exceeds the threshold `data[0] + delta` as the machine computes it (the sum rounded to
double), and otherwise the only peak confirmed is a minimum at index 0 (success with the
minima list `[0]` when `max_absop_peaks ≥ 1`, return code 2 when it is 0). -/
theorem C7_monotonic_amended (data : List ℚ) (capE capA : Int) (delta : ℚ) (emi_first : Bool)
    (hn : 1 ≤ data.length) (hinc : data.Pairwise (· < ·)) (hd : 0 < delta)
    (hdbl : ∀ x ∈ data, to_double x = x) (_hE : 0 ≤ capE) (_hA : 0 ≤ capA) :
    (emi_first = true → detect_peak_fp data capE capA delta emi_first = ⟨.ret 0, [], []⟩) ∧
    (emi_first = false → (∀ x ∈ data, x ≤ to_double (sample data 0 + delta)) →
      detect_peak_fp data capE capA delta emi_first = ⟨.ret 0, [], []⟩) ∧
    (emi_first = false → (∃ x ∈ data, to_double (sample data 0 + delta) < x) → 1 ≤ capA →
      detect_peak_fp data capE capA delta emi_first = ⟨.ret 0, [], [0]⟩) ∧
    (emi_first = false → (∃ x ∈ data, to_double (sample data 0 + delta) < x) → capA = 0 →
      detect_peak_fp data capE capA delta emi_first = ⟨.ret 2, [], []⟩) := by
  refine ⟨?_, ?_, ?_, ?_⟩
  · intro he; subst he; exact detect_peak_fp_rise_emi capE capA hn hinc hd hdbl
  · intro he hle; subst he; exact detect_peak_fp_rise_absop capE capA hn hinc hd hdbl hle
  · intro he hex hcap; subst he
    exact detect_peak_fp_rise_confirm capE hn hinc hd hdbl hex (by omega)
  · intro he hex hcap; subst he
    exact detect_peak_fp_rise_full capE hn hinc hd hdbl hex (by omega)

/-- Witness of the amended C7 on the data `[2^53, 2^53 + 4]` with `delta = 3`, absorption
first, capacities 0: the threshold `2^53 + 3` rounds to `2^53 + 4`, which the second sample
does not exceed, and nothing is recorded. -/
theorem C7_witness :
    1 ≤ ([9007199254740992, 9007199254740996] : List ℚ).length ∧
    ([9007199254740992, 9007199254740996] : List ℚ).Pairwise (· < ·) ∧ (0 : ℚ) < 3 ∧
    (∀ x ∈ ([9007199254740992, 9007199254740996] : List ℚ), to_double x = x) ∧
    (0 : Int) ≤ 0 ∧
    to_double (sample [9007199254740992, 9007199254740996] 0 + 3) = 9007199254740996 ∧
    detect_peak_fp [9007199254740992, 9007199254740996] 0 0 3 false = ⟨.ret 0, [], []⟩ :=
  ⟨by decide, by decide!, by norm_num, by decide!, by decide, by decide!,
    (C7_monotonic_amended [9007199254740992, 9007199254740996] 0 0 3 false (by decide)
      (by decide!) (by norm_num) (by decide!) (by decide) (by decide)).2.1 rfl (by decide!)⟩

/-- C9, the code at a failing input. On the samples `[5, 7]` with `delta = -1`, absorption
first and capacities 1, the minimum confirmed at index 0 stores the sample value 5 in `mx_pos`;
the next iteration confirms a maximum, records the index 5 and reads `data[5]`, outside the
two-element array. -/
theorem C9_degenerate_delta_out_of_bounds :
    detect_peak [5, 7] 1 1 (-1) false = ⟨.outOfBounds 5, [5], [0]⟩ := by
  decide!

/-- C10. Alternation invariant: on every input on which `detect_peak` returns success the list
lengths satisfy `|minima| ≤ |maxima| ≤ |minima| + 1` with emission first and
`|maxima| ≤ |minima| ≤ |maxima| + 1` with absorption first; the scan starts seeking the kind
the mode selects, and each loop iteration either confirms nothing and keeps the kind sought,
or confirms a peak of the kind sought and switches to seeking the other kind, so that no two
peaks of the same kind are confirmed consecutively. -/
theorem C10_alternation (data : List ℚ) (capE capA : Int) (delta : ℚ) (emi_first : Bool)
    (_hok : (detect_peak data capE capA delta emi_first).exit = .ret 0) :
    (emi_first = true →
      (detect_peak data capE capA delta emi_first).absop_peaks.length ≤
        (detect_peak data capE capA delta emi_first).emi_peaks.length ∧
      (detect_peak data capE capA delta emi_first).emi_peaks.length ≤
        (detect_peak data capE capA delta emi_first).absop_peaks.length + 1) ∧
    (emi_first = false →
      (detect_peak data capE capA delta emi_first).emi_peaks.length ≤
        (detect_peak data capE capA delta emi_first).absop_peaks.length ∧
      (detect_peak data capE capA delta emi_first).absop_peaks.length ≤
        (detect_peak data capE capA delta emi_first).emi_peaks.length + 1) ∧
    (∀ v, (initState v emi_first).is_detecting_emi = emi_first) ∧
    (∀ s t, body data capE capA delta s = .next t →
      (t.is_detecting_emi = s.is_detecting_emi ∧ t.emi_peaks = s.emi_peaks ∧
        t.absop_peaks = s.absop_peaks) ∨
      (s.is_detecting_emi = true ∧ t.is_detecting_emi = false ∧
        (∃ p, t.emi_peaks = s.emi_peaks ++ [p]) ∧ t.absop_peaks = s.absop_peaks) ∨
      (s.is_detecting_emi = false ∧ t.is_detecting_emi = true ∧
        (∃ q, t.absop_peaks = s.absop_peaks ++ [q]) ∧ t.emi_peaks = s.emi_peaks)) := by
  have hl := detect_peak_alt data capE capA delta emi_first
  refine ⟨?_, ?_, fun _ => rfl, fun s t hb => body_alternates hb⟩
  · intro he; subst he; simpa [AltLengths] using hl
  · intro he; subst he; simpa [AltLengths] using hl

/-- Witness of C10 on the samples of the specification's scenario, absorption first: two
maxima and two minima are returned. -/
theorem C10_witness :
    (detect_peak [0, 1, 0.5, 2, 1, 3, 0.5] 7 7 0.8 false).exit = .ret 0 ∧
    (false = false →
      (detect_peak [0, 1, 0.5, 2, 1, 3, 0.5] 7 7 0.8 false).emi_peaks.length ≤
        (detect_peak [0, 1, 0.5, 2, 1, 3, 0.5] 7 7 0.8 false).absop_peaks.length ∧
      (detect_peak [0, 1, 0.5, 2, 1, 3, 0.5] 7 7 0.8 false).absop_peaks.length ≤
        (detect_peak [0, 1, 0.5, 2, 1, 3, 0.5] 7 7 0.8 false).emi_peaks.length + 1) :=
  ⟨by decide!,
    (C10_alternation [0, 1, 0.5, 2, 1, 3, 0.5] 7 7 0.8 false (by decide!)).2.1⟩

/-- C12. Capacity boundary: for non-empty data and `delta > 0`, if `detect_peak` with
`max_emi_peaks = k + 1` succeeds and returns exactly `k + 1` maxima, then with
`max_emi_peaks = k` (all else equal) it returns 1, having recorded peaks that the successful
run also records, and with any `max_emi_peaks ≥ k + 1` it returns the same result. -/
theorem C12_capacity_boundary (data : List ℚ) (capA : Int) (delta : ℚ) (emi_first : Bool)
    (k : Nat) (_hn : 1 ≤ data.length) (_hd : 0 < delta)
    (hok : (detect_peak data ((k : Int) + 1) capA delta emi_first).exit = .ret 0)
    (hlen : (detect_peak data ((k : Int) + 1) capA delta emi_first).emi_peaks.length = k + 1) :
    (detect_peak data (k : Int) capA delta emi_first).exit = .ret 1 ∧
    (∃ e a, (detect_peak data ((k : Int) + 1) capA delta emi_first).emi_peaks =
        (detect_peak data (k : Int) capA delta emi_first).emi_peaks ++ e ∧
      (detect_peak data ((k : Int) + 1) capA delta emi_first).absop_peaks =
        (detect_peak data (k : Int) capA delta emi_first).absop_peaks ++ a) ∧
    (∀ capE : Int, (k : Int) + 1 ≤ capE →
      detect_peak data capE capA delta emi_first =
        detect_peak data ((k : Int) + 1) capA delta emi_first) := by
  obtain ⟨h1, h2⟩ := detect_peak_cap_boundary k hok hlen
  exact ⟨h1, h2, fun capE hE => detect_peak_cap_mono hE (le_refl capA) hok⟩

/-- Witness of C12 on the data `[0, 5, 0, 5, 0]` with `delta = 1`, emission first: two
maxima fit the capacity 2, and the capacity 1 makes the run return 1. -/
theorem C12_witness :
    1 ≤ ([0, 5, 0, 5, 0] : List ℚ).length ∧ (0 : ℚ) < 1 ∧
    detect_peak [0, 5, 0, 5, 0] (((1 : Nat) : Int) + 1) 3 1 true = ⟨.ret 0, [1, 3], [2]⟩ ∧
    (detect_peak [0, 5, 0, 5, 0] ((1 : Nat) : Int) 3 1 true).exit = .ret 1 :=
  ⟨by decide, by norm_num, by decide!,
    (C12_capacity_boundary [0, 5, 0, 5, 0] 3 1 true 1 (by decide) (by norm_num) (by decide!)
      (by decide!)).1⟩

/-- C13. Single sample: for every one-element sample sequence, every `delta`, either mode and
any capacities `≥ 0`, `detect_peak` returns success with two empty lists; the loop test fails
at once, so that no loop iteration is executed (the result is reached with a budget of zero
iterations, and the only state of the run is the initial one) and the only read is
`data[0]`. -/
theorem C13_single_sample (data : List ℚ) (capE capA : Int) (delta : ℚ) (emi_first : Bool)
    (hn : data.length = 1) (_hE : 0 ≤ capE) (_hA : 0 ≤ capA) :
    detect_peak data capE capA delta emi_first = ⟨.ret 0, [], []⟩ ∧
    detect_peak_fuel 0 data capE capA delta emi_first = ⟨.ret 0, [], []⟩ ∧
    readData data 0 = some (sample data 0) ∧
    ¬ (initState (sample data 0) emi_first).i < (data.length : Int) ∧
    (∀ s, Reaches data capE capA delta (initState (sample data 0) emi_first) s →
      s = initState (sample data 0) emi_first) := by
  have hrd := @readData_zero data (by omega)
  have hi : ¬ (initState (sample data 0) emi_first).i < (data.length : Int) := by
    simp only [initState]; omega
  have hf : ∀ fuel, detect_peak_fuel fuel data capE capA delta emi_first = ⟨.ret 0, [], []⟩ := by
    intro fuel
    unfold detect_peak_fuel
    rw [hrd]
    exact loop_done fuel hi
  refine ⟨hf _, hf 0, hrd, hi, ?_⟩
  intro s hs
  induction hs with
  | start => rfl
  | step _ hlt _ ih => rw [ih] at hlt; exact absurd hlt hi

/-- Witness of C13 on the data `[3]` with `delta = -1`, absorption first, capacities 0. -/
theorem C13_witness :
    ([3] : List ℚ).length = 1 ∧ (0 : Int) ≤ 0 ∧ (0 : Int) ≤ 0 ∧
    detect_peak [3] 0 0 (-1) false = ⟨.ret 0, [], []⟩ :=
  ⟨by decide, by decide, by decide,
    (C13_single_sample [3] 0 0 (-1) false (by decide) (by decide) (by decide)).1⟩

/-- C14, counterexample. On the samples `[0, 1]` with emission first and capacities 1 (every
operation on these values is exact in double arithmetic): with `delta = 0` the first loop step
(cursor 1) confirms nothing, and with `delta = -1` it confirms a maximum and records the
index 1, not the initial position 0. -/
theorem C14_counterexample :
    body_fp [0, 1] 1 1 0 (initState 0 true) = .next ⟨1, 1, 0, 1, 0, true, [], []⟩ ∧
    body_fp [0, 1] 1 1 (-1) (initState 0 true) = .next ⟨0, 1, 1, 1, 1, false, [1], []⟩ := by
  decide!

/-- C14, amended. For data of doubles of length at least 2, `delta ≤ 0` and capacities `≥ 1`,
the first loop step (cursor 1, from the initial state) in double arithmetic. With emission
first it confirms a maximum when `data[1] < data[0]`, recording the initial position 0, and
when `data[1] ≥ data[0]` and the threshold `data[1] - delta` as the machine computes it
exceeds `data[1]`, recording the index 1 if `data[1] > data[0]` and 0 otherwise; it confirms
nothing when `data[1] ≥ data[0]` and `delta = 0` or the computed threshold does not exceed
`data[1]` (a `delta` absorbed by the rounding). With absorption first it confirms a minimum
when `data[1] > data[0]`, recording 0, and when `data[1] ≤ data[0]` and the computed
threshold `data[1] + delta` is below `data[1]`, recording the index 1 if `data[1] < data[0]`
and 0 otherwise; it confirms nothing when `data[1] ≤ data[0]` and `delta = 0` or the
computed threshold is not below `data[1]`. -/
theorem C14_first_step_amended (data : List ℚ) (capE capA : Int) (delta : ℚ)
    (hn : 2 ≤ data.length) (hd : delta ≤ 0) (hdbl : ∀ x ∈ data, to_double x = x)
    (hE : 1 ≤ capE) (hA : 1 ≤ capA) :
    ((sample data 1 < sample data 0 ∨
        (sample data 0 ≤ sample data 1 ∧ sample data 1 < to_double (sample data 1 - delta))) →
      ∃ t, body_fp data capE capA delta (initState (sample data 0) true) = .next t ∧
        t.emi_peaks = [if sample data 0 < sample data 1 then 1 else 0] ∧
        t.absop_peaks = []) ∧
    ((sample data 0 ≤ sample data 1 ∧
        (delta = 0 ∨ to_double (sample data 1 - delta) ≤ sample data 1)) →
      ∃ t, body_fp data capE capA delta (initState (sample data 0) true) = .next t ∧
        t.emi_peaks = [] ∧ t.absop_peaks = []) ∧
    ((sample data 0 < sample data 1 ∨
        (sample data 1 ≤ sample data 0 ∧ to_double (sample data 1 + delta) < sample data 1)) →
      ∃ t, body_fp data capE capA delta (initState (sample data 0) false) = .next t ∧
        t.absop_peaks = [if sample data 1 < sample data 0 then 1 else 0] ∧
        t.emi_peaks = []) ∧
    ((sample data 1 ≤ sample data 0 ∧
        (delta = 0 ∨ sample data 1 ≤ to_double (sample data 1 + delta))) →
      ∃ t, body_fp data capE capA delta (initState (sample data 0) false) = .next t ∧
        t.emi_peaks = [] ∧ t.absop_peaks = []) := by
  have hrd : ∀ ef, readData data (initState (sample data 0) ef).i = some (sample data 1) :=
    fun ef => readData_of_lt (by simp [initState]) (by simp only [initState]; omega)
  have hpos : ∀ b : Prop, ∀ [Decidable b], readData data (if b then 1 else 0) =
      some (sample data (if b then 1 else 0)) := by
    intro b _
    split_ifs
    · exact readData_of_lt (by omega) (by omega)
    · exact readData_of_lt (by omega) (by omega)
  have hd0 : to_double (sample data 0) = sample data 0 :=
    hdbl _ (sample_mem (le_refl 0) (by omega))
  have hd1 : to_double (sample data 1) = sample data 1 :=
    hdbl _ (sample_mem (by omega) (by omega))
  have hup0 : sample data 0 ≤ to_double (sample data 0 - delta) := by
    have := @to_double_mono (sample data 0) (sample data 0 - delta) (by linarith)
    rwa [hd0] at this
  have hdn0 : to_double (sample data 0 + delta) ≤ sample data 0 := by
    have := @to_double_mono (sample data 0 + delta) (sample data 0) (by linarith)
    rwa [hd0] at this
  refine ⟨?_, ?_, ?_, ?_⟩
  · intro h
    have hmp : (track (sample data 1) (initState (sample data 0) true)).mx_pos =
        if sample data 0 < sample data 1 then 1 else 0 := by
      rw [track_mx_pos]; rfl
    refine ⟨_, body_fp_eq_next_emi (hrd true) rfl ?_ (by simpa [initState] using hE)
      (by rw [hmp]; exact hpos _), by rw [afterEmi_emi_peaks, hmp, track_emi]; rfl,
      by simp [initState]⟩
    rw [track_mx]
    simp only [initState]
    split_ifs with h1
    · rcases h with h | h
      · linarith
      · exact h.2
    · rcases h with h | h
      · linarith
      · have e : sample data 1 = sample data 0 := le_antisymm (not_lt.mp h1) h.1
        rw [← e]; exact h.2
  · rintro ⟨h0, h1⟩
    have h2 : to_double (sample data 1 - delta) ≤ sample data 1 := by
      rcases h1 with h1 | h1
      · rw [h1, sub_zero, hd1]
      · exact h1
    refine ⟨_, body_fp_eq_next_track (hrd true) ?_ (by simp [initState]),
      by simp [initState], by simp [initState]⟩
    rw [track_mx]
    simp only [initState, not_and, not_lt]
    intro _
    split_ifs with h3
    · exact h2
    · have e : sample data 1 = sample data 0 := le_antisymm (not_lt.mp h3) h0
      rw [← e]; exact h2
  · intro h
    have hmp : (track (sample data 1) (initState (sample data 0) false)).mn_pos =
        if sample data 1 < sample data 0 then 1 else 0 := by
      rw [track_mn_pos]; rfl
    refine ⟨_, body_fp_eq_next_absop (hrd false) rfl ?_ (by simpa [initState] using hA)
      (by rw [hmp]; exact hpos _), by rw [afterAbsop_absop_peaks, hmp, track_absop]; rfl,
      by simp [initState]⟩
    rw [track_mn]
    simp only [initState]
    split_ifs with h1
    · rcases h with h | h
      · linarith
      · exact h.2
    · rcases h with h | h
      · linarith
      · have e : sample data 1 = sample data 0 := le_antisymm h.1 (not_lt.mp h1)
        rw [← e]; exact h.2
  · rintro ⟨h0, h1⟩
    have h2 : sample data 1 ≤ to_double (sample data 1 + delta) := by
      rcases h1 with h1 | h1
      · rw [h1, add_zero, hd1]
      · exact h1
    refine ⟨_, body_fp_eq_next_track (hrd false) (by simp [initState]) ?_,
      by simp [initState], by simp [initState]⟩
    rw [track_mn]
    simp only [initState, not_and, not_lt, gt_iff_lt]
    intro _
    split_ifs with h3
    · exact h2
    · have e : sample data 1 = sample data 0 := le_antisymm h0 (not_lt.mp h3)
      rw [← e]; exact h2

/-- Witness of the amended C14 on the data `[1, 1]` with `delta = -2^(-60)`, emission first:
the threshold `1 + 2^(-60)` rounds to 1, and the first step confirms nothing. -/
theorem C14_witness :
    2 ≤ ([1, 1] : List ℚ).length ∧ (-(1 / 1152921504606846976) : ℚ) ≤ 0 ∧
    (∀ x ∈ ([1, 1] : List ℚ), to_double x = x) ∧ (1 : Int) ≤ 1 ∧
    to_double (sample [1, 1] 1 - -(1 / 1152921504606846976)) = 1 ∧
    ∃ t, body_fp [1, 1] 1 1 (-(1 / 1152921504606846976)) (initState (sample [1, 1] 0) true) =
        .next t ∧ t.emi_peaks = [] ∧ t.absop_peaks = [] :=
  ⟨by decide, by norm_num, by decide!, by decide, by decide!,
    (C14_first_step_amended [1, 1] 1 1 (-(1 / 1152921504606846976)) (by decide)
      (by norm_num) (by decide!) (by decide) (by decide)).2.1
      ⟨by decide!, Or.inr (by decide!)⟩⟩

/-- C15, the code at a failing input. On the samples `[5, 7]` with `delta = 1`, absorption
first and capacities 1, the first loop step confirms the minimum at `mn_pos = 0` and leaves
`mx = 5 = data[0]` but `mx_pos = 5`, the sample value converted to `int`, not the index 0 of
the confirmed minimum. -/
theorem C15_reset_after_minimum_stores_value :
    body [5, 7] 1 1 1 (initState 5 false) = .next ⟨-1, 5, 5, 5, 0, true, [], [0]⟩ := by
  decide!

/-- C16. The rewind is needed: on the samples `[0, 5, 0, 5]` with `delta = 1`, emission first
and capacities 4, `detect_peak` returns the maximum 1 and the minimum 2, while the variant
that omits the two cursor rewinds and keeps every other step (with either form of the reset
of `mx_pos`) returns the maximum 1 only: it lacks the minimum at index 2. -/
theorem C16_rewind_needed :
    ∃ (data : List ℚ) (delta : ℚ) (emi_first : Bool), 0 < delta ∧
      ∀ keep_cast : Bool, ∃ q : Int,
        q ∈ (detect_peak data 4 4 delta emi_first).absop_peaks ∧
        q ∉ (detect_peak_norewind keep_cast data 4 4 delta emi_first).absop_peaks ∧
        detect_peak data 4 4 delta emi_first = ⟨.ret 0, [1], [2]⟩ ∧
        detect_peak_norewind keep_cast data 4 4 delta emi_first = ⟨.ret 0, [1], []⟩ := by
  refine ⟨[0, 5, 0, 5], 1, true, by norm_num, ?_⟩
  intro keep_cast
  refine ⟨2, ?_⟩
  cases keep_cast <;> decide!

end PeakDetect
